import Mathlib

/-!
lambdaproxy: the request encoder and the response decoder

A shallow embedding of `pkg/lambdaproxy/request.go`.

* A Go `string` and a Go `[]byte` are sequences of bytes: `List Nat`, a byte
  being a number below 256.  A number of 256 or more is no byte; the tables
  below treat it as a byte outside every accepted range.
* A Go `map[string]string` is `Option StringMap`: `none` is the nil map,
  `some kvs` a map whose entries are `kvs`, the keys pairwise distinct.  The
  order of `kvs` has no meaning to the program: `range` visits the entries in
  an order the runtime picks (`MapIter`), the JSON encoder sorts the keys.
* A function that returns `(T, error)` returns an `Outcome T`, which also
  records the ways a call can fail to return: the process is terminated
  (`log.Fatalf`), the goroutine faults on a nil pointer, or a method of a value
  handed in panics.
* `encoding/json` and `encoding/base64` are embedded as far as the two
  functions reach into them: the scanner of `scanner.go` step function by step
  function, `unquoteBytes`, the struct decoding of `decode.go` for the fields
  of the response envelope, `appendString` and the struct and map encoders of
  `encode.go`, and `decodeQuantum` of `base64.go`.
-/

namespace Lambdaproxy

/-! ## Strings and maps -/

/-- A Go string or byte slice. -/
abbrev GoString := List Nat

/-- The bytes of an ASCII text. -/
def ascii (s : String) : GoString := s.toList.map Char.toNat

/-- The entries of a non-nil `map[string]string`. -/
abbrev StringMap := List (GoString × GoString)

/-- Go `m[k] = v`: replaces the entry of `k`, or adds one. -/
def mapAssign : StringMap → GoString → GoString → StringMap
  | [], k, v => [(k, v)]
  | (k', v') :: m, k, v =>
    if k' = k then (k, v) :: m else (k', v') :: mapAssign m k v

/-- The order in which one `range` loop visits the entries of a map: some
rearrangement of the entries, chosen by the runtime for that loop. -/
structure MapIter where
  order : StringMap → StringMap
  perm : ∀ m, (order m).Perm m

/-- The iteration that visits the entries as they are stored. -/
def MapIter.stored : MapIter := ⟨id, fun _ => List.Perm.refl _⟩

/-- The iteration that visits the entries last to first. -/
def MapIter.reversed : MapIter := ⟨List.reverse, fun m => List.reverse_perm m⟩

/-! ## Errors and outcomes -/

/-- The error values the two functions can hand back, and
`UnsupportedTypeError`, with which the JSON encoder refuses a value. -/
inductive GoError
  | eof
  | unexpectedEOF
  | syntaxError
  | unmarshalTypeError
  | corruptInput
  | unsupportedTypeError
  deriving DecidableEq, Repr

/-- What a call of a function of result type `(α, error)` does. -/
inductive Outcome (α : Type)
  | returns (value : α) (err : Option GoError)
  | exits (status : Nat)
  | nilDeref
  | panics
  deriving DecidableEq, Repr

/-! ## The data model of request.go -/

structure apiGatewayProxyRequest where
  Resource : GoString
  Path : GoString
  HTTPMethod : GoString
  Headers : Option StringMap
  QueryStringParameters : Option StringMap
  Body : GoString
  IsBase64Encoded : Bool
  deriving DecidableEq, Repr

/-- Modelled from the spec: the type `apiGatewayProxyResponse`, declared in a
file of the package that is not at hand.  The spec gives the response envelope
a status code (integer, key `statusCode`), headers (string to string, key
`headers`), a body (string, key `body`) and the flag `isBase64Encoded`;
request.go uses the four fields as `int`, `map[string]string`, `string` and
`bool`. -/
structure apiGatewayProxyResponse where
  StatusCode : Int
  Headers : Option StringMap
  Body : GoString
  IsBase64Encoded : Bool
  deriving DecidableEq, Repr

structure HTTPRequest where
  Method : GoString
  Resource : GoString
  Headers : List GoString
  Body : GoString
  Username : GoString
  Password : GoString
  deriving DecidableEq, Repr

structure HTTPResponse where
  StatusCode : Int
  Headers : List GoString
  Body : GoString
  deriving DecidableEq, Repr

/-- Modelled from the spec: the type `EncodeOptions`, declared outside
request.go; it carries no recognized option. -/
structure EncodeOptions where
  deriving DecidableEq, Repr

/-- Modelled from the spec: the type `DecodeOptions`, declared outside
request.go; it carries no recognized option. -/
structure DecodeOptions where
  deriving DecidableEq, Repr

/-! ## The header adapter -/

/-- The function `convertSliceToMap`: every string of the list is stored under
itself. -/
def convertSliceToMap (input : List GoString) : Option StringMap :=
  some (input.foldl (fun output v => mapAssign output v v) [])

/-- The function `convertMapToSlice`: the values of the map, in the order the
loop visits them.  A nil map is ranged over as an empty one. -/
def convertMapToSlice (it : MapIter) (input : Option StringMap) : List GoString :=
  (it.order (input.getD [])).foldl (fun output e => output ++ [e.2]) []

/-! ## encoding/base64: StdEncoding.DecodeString -/

/-- The table `decodeMap` of the standard alphabet: the six bits a character
stands for, `none` where the table holds 0xff. -/
def b64Value (c : Nat) : Option Nat :=
  if 65 ≤ c ∧ c ≤ 90 then some (c - 65)
  else if 97 ≤ c ∧ c ≤ 122 then some (c - 71)
  else if 48 ≤ c ∧ c ≤ 57 then some (c + 4)
  else if c = 43 then some 62
  else if c = 47 then some 63
  else none

/-- The loops of `decodeQuantum` that step over line breaks. -/
def skipNewlines : GoString → GoString
  | [] => []
  | c :: rest => if c = 10 ∨ c = 13 then skipNewlines rest else c :: rest

/-- The tail of `decodeQuantum`: the sextets read (`dbuf`, `dlen` of them, the
missing ones zero) are joined into 24 bits, of which `dlen - 1` bytes are
written.  The sextets occupy disjoint bits, so the shifts and ors of the source
are sums of multiples. -/
def quantumBytes (dbuf : List Nat) : GoString :=
  let val := dbuf.getD 0 0 * 262144 + dbuf.getD 1 0 * 4096 + dbuf.getD 2 0 * 64 + dbuf.getD 3 0
  [val / 65536 % 256, val / 256 % 256, val % 256].take (dbuf.length - 1)

/-- The method `Decode` with `decodeQuantum` unrolled over the input: `dbuf`
holds the sextets of the quantum being read, `dst` the bytes written so far.
The fast paths of `Decode` for eight and four valid characters write what this
loop writes.  Padding is required and the encoding is not strict. -/
def base64Loop : GoString → List Nat → GoString → Except GoError GoString
  | [], dbuf, dst => if dbuf.length = 0 then .ok dst else .error .corruptInput
  | c :: src, dbuf, dst =>
    match b64Value c with
    | some out =>
      if dbuf.length = 3 then base64Loop src [] (dst ++ quantumBytes (dbuf ++ [out]))
      else base64Loop src (dbuf ++ [out]) dst
    | none =>
      if c = 10 ∨ c = 13 then base64Loop src dbuf dst
      else if c ≠ 61 then .error .corruptInput
      else if dbuf.length < 2 then .error .corruptInput
      else if dbuf.length = 2 then
        match skipNewlines src with
        | [] => .error .corruptInput
        | c2 :: src2 =>
          if c2 ≠ 61 then .error .corruptInput
          else if skipNewlines src2 ≠ [] then .error .corruptInput
          else .ok (dst ++ quantumBytes dbuf)
      else if skipNewlines src ≠ [] then .error .corruptInput
      else .ok (dst ++ quantumBytes dbuf)

/-- The call `base64.StdEncoding.DecodeString(s)`. -/
def base64DecodeString (s : GoString) : Except GoError GoString :=
  base64Loop s [] []

/-- The character of the standard alphabet for six bits (RFC 4648, table 1). -/
def b64Char (v : Nat) : Nat :=
  if v < 26 then 65 + v
  else if v < 52 then 71 + v
  else if v < 62 then v - 4
  else if v = 62 then 43
  else 47

/-- Standard base64 as RFC 4648 section 4 words it: three bytes give four
characters, a last group of one or two bytes is padded with `=`.  This is the
reference the decoder is compared with, not code of the program. -/
def rfc4648Encode : GoString → GoString
  | a :: b :: c :: rest =>
    b64Char (a / 4) :: b64Char (a % 4 * 16 + b / 16) :: b64Char (b % 16 * 4 + c / 64)
      :: b64Char (c % 64) :: rfc4648Encode rest
  | [a, b] => [b64Char (a / 4), b64Char (a % 4 * 16 + b / 16), b64Char (b % 16 * 4), 61]
  | [a] => [b64Char (a / 4), b64Char (a % 4 * 16), 61, 61]
  | [] => []

/-! ## unicode/utf8 -/

/-- The rune U+FFFD, `utf8.RuneError`. -/
def runeError : Nat := 0xFFFD

/-- A continuation byte, 0x80 to 0xBF. -/
def isCont (b : Nat) : Bool := 0x80 ≤ b && b ≤ 0xBF

/-- The function `utf8.DecodeRune`: the rune at the head of `p` and its width.
An encoding that is invalid or cut short gives `(RuneError, 1)`.  The table
`first` and the accept ranges are written out as comparisons; the masks and
shifts of the source are remainders and multiples. -/
def decodeRune (p : GoString) : Nat × Nat :=
  match p with
  | [] => (runeError, 0)
  | p0 :: rest =>
    if p0 < 0x80 then (p0, 1)
    else if p0 < 0xC2 then (runeError, 1)
    else if p0 < 0xE0 then
      match rest with
      | b1 :: _ =>
        if isCont b1 then (p0 % 32 * 64 + b1 % 64, 2) else (runeError, 1)
      | _ => (runeError, 1)
    else if p0 < 0xF0 then
      match rest with
      | b1 :: b2 :: _ =>
        if (if p0 = 0xE0 then 0xA0 else 0x80) ≤ b1 ∧ b1 ≤ (if p0 = 0xED then 0x9F else 0xBF) then
          if isCont b2 then (p0 % 16 * 4096 + b1 % 64 * 64 + b2 % 64, 3) else (runeError, 1)
        else (runeError, 1)
      | _ => (runeError, 1)
    else if p0 < 0xF5 then
      match rest with
      | b1 :: b2 :: b3 :: _ =>
        if (if p0 = 0xF0 then 0x90 else 0x80) ≤ b1 ∧ b1 ≤ (if p0 = 0xF4 then 0x8F else 0xBF) then
          if isCont b2 then
            if isCont b3 then
              (p0 % 8 * 262144 + b1 % 64 * 4096 + b2 % 64 * 64 + b3 % 64, 4)
            else (runeError, 1)
          else (runeError, 1)
        else (runeError, 1)
      | _ => (runeError, 1)
    else (runeError, 1)

/-- The function `utf8.EncodeRune`: a surrogate or a value above U+10FFFF is
written as U+FFFD. -/
def encodeRune (r : Nat) : GoString :=
  if r ≤ 0x7F then [r]
  else if r ≤ 0x7FF then [0xC0 + r / 64, 0x80 + r % 64]
  else if r > 0x10FFFF ∨ (0xD800 ≤ r ∧ r ≤ 0xDFFF) then [0xEF, 0xBF, 0xBD]
  else if r ≤ 0xFFFF then [0xE0 + r / 4096, 0x80 + r / 64 % 64, 0x80 + r % 64]
  else [0xF0 + r / 262144, 0x80 + r / 4096 % 64, 0x80 + r / 64 % 64, 0x80 + r % 64]

/-- The function `utf8.Valid`: every rune of `s` decodes, none is an invalid
byte.  The fuel is the number of bytes left to look at. -/
def utf8ValidFrom : Nat → GoString → Bool
  | 0, s => s.isEmpty
  | _ + 1, [] => true
  | fuel + 1, b :: rest =>
    if b < 0x80 then utf8ValidFrom fuel rest
    else if (decodeRune (b :: rest)).1 = runeError ∧ (decodeRune (b :: rest)).2 = 1 then false
    else utf8ValidFrom fuel (rest.drop ((decodeRune (b :: rest)).2 - 1))

/-- Whether a string is valid UTF-8. -/
def utf8Valid (s : GoString) : Bool := utf8ValidFrom s.length s

/-- The string with every byte that is not part of a valid encoding replaced
by the encoding of U+FFFD: what the JSON encoder and decoder make of a string
that is not valid UTF-8.  The fuel is the number of bytes left. -/
def coerceUTF8From : Nat → GoString → GoString
  | 0, _ => []
  | _ + 1, [] => []
  | fuel + 1, b :: rest =>
    if b < 0x80 then b :: coerceUTF8From fuel rest
    else if (decodeRune (b :: rest)).1 = runeError ∧ (decodeRune (b :: rest)).2 = 1 then
      [0xEF, 0xBF, 0xBD] ++ coerceUTF8From fuel rest
    else
      (b :: rest).take (decodeRune (b :: rest)).2
        ++ coerceUTF8From fuel (rest.drop ((decodeRune (b :: rest)).2 - 1))

/-- A string coerced to valid UTF-8. -/
def coerceUTF8 (s : GoString) : GoString := coerceUTF8From s.length s

/-! ## encoding/json: the scanner -/

/-- A JSON value as the decoder reads it: a number keeps its literal, a string
and an object key are unquoted, the members of an object are in the order of
the text, duplicates included. -/
inductive Json
  | null
  | bool (b : Bool)
  | number (lit : GoString)
  | string (s : GoString)
  | array (elems : List Json)
  | object (members : List (GoString × Json))

/-- The value an object holds under a key, the last one when the key is
repeated; `none` when the value is no object or has no such key. -/
def Json.member (v : Json) (key : GoString) : Option Json :=
  match v with
  | .object ms => (ms.reverse.find? (fun m => m.1 == key)).map (fun m => m.2)
  | _ => none

/-- The value of a hexadecimal digit. -/
def hexVal (c : Nat) : Option Nat :=
  if 48 ≤ c ∧ c ≤ 57 then some (c - 48)
  else if 97 ≤ c ∧ c ≤ 102 then some (c - 87)
  else if 65 ≤ c ∧ c ≤ 70 then some (c - 55)
  else none

/-- The function `getu4`: the number written by a `\uXXXX` at the head of `s`;
`none` is the -1 of the source. -/
def getu4 (s : GoString) : Option Nat :=
  match s with
  | 92 :: 117 :: a :: b :: c :: d :: _ =>
    match hexVal a, hexVal b, hexVal c, hexVal d with
    | some a, some b, some c, some d => some (((a * 16 + b) * 16 + c) * 16 + d)
    | _, _, _, _ => none
  | _ => none

/-- The main loop of `unquoteBytes` over the text between the quotes.  The
shortcut the source takes for a text without escapes, quotes, control
characters or invalid bytes returns that text, as this loop does.  The fuel is
the number of bytes left. -/
def unquoteFrom : Nat → GoString → Option GoString
  | 0, s => if s.isEmpty then some [] else none
  | _ + 1, [] => some []
  | fuel + 1, c :: rest =>
    if c = 92 then
      match rest with
      | [] => none
      | e :: rest1 =>
        if e = 34 ∨ e = 92 ∨ e = 47 ∨ e = 39 then (unquoteFrom fuel rest1).map (fun t => e :: t)
        else if e = 98 then (unquoteFrom fuel rest1).map (fun t => 8 :: t)
        else if e = 102 then (unquoteFrom fuel rest1).map (fun t => 12 :: t)
        else if e = 110 then (unquoteFrom fuel rest1).map (fun t => 10 :: t)
        else if e = 114 then (unquoteFrom fuel rest1).map (fun t => 13 :: t)
        else if e = 116 then (unquoteFrom fuel rest1).map (fun t => 9 :: t)
        else if e = 117 then
          match getu4 (c :: rest) with
          | none => none
          | some rr =>
            if 0xD800 ≤ rr ∧ rr < 0xE000 then
              match getu4 (rest.drop 5) with
              | some rr1 =>
                if rr < 0xDC00 ∧ 0xDC00 ≤ rr1 ∧ rr1 < 0xE000 then
                  (unquoteFrom fuel (rest.drop 11)).map (fun t =>
                    encodeRune ((rr - 0xD800) * 1024 + (rr1 - 0xDC00) + 0x10000) ++ t)
                else (unquoteFrom fuel (rest.drop 5)).map (fun t => encodeRune runeError ++ t)
              | none => (unquoteFrom fuel (rest.drop 5)).map (fun t => encodeRune runeError ++ t)
            else (unquoteFrom fuel (rest.drop 5)).map (fun t => encodeRune rr ++ t)
        else none
    else if c = 34 ∨ c < 32 then none
    else if c < 0x80 then (unquoteFrom fuel rest).map (fun t => c :: t)
    else
      (unquoteFrom fuel (rest.drop ((decodeRune (c :: rest)).2 - 1))).map (fun t =>
        encodeRune (decodeRune (c :: rest)).1 ++ t)

/-- The function `unquoteBytes`: the string a quoted literal stands for. -/
def unquoteBytes (s : GoString) : Option GoString :=
  match s with
  | 34 :: rest =>
    if rest.getLast? = some 34 then unquoteFrom rest.length rest.dropLast else none
  | _ => none

/-- The step functions of the scanner (`scanner.step`). -/
inductive Step
  | beginValue | beginValueOrEmpty | beginStringOrEmpty | beginString | endValue
  | inString | inStringEsc | inStringEscU | inStringEscU1 | inStringEscU12 | inStringEscU123
  | neg | one | zero | dot | dot0 | e | eSign | e0
  | t | tr | tru | f | fa | fal | fals | n | nu | nul
  deriving DecidableEq, Repr

/-- An entry of `scanner.parseState`, with what has been read of the object or
array it stands for: the members or elements complete so far, and for an object
the key that waits for its value. -/
inductive Frame
  | objectKey (members : List (GoString × Json)) (key : Option GoString)
  | objectValue (members : List (GoString × Json)) (key : Option GoString)
  | arrayValue (elems : List Json)

/-- The scanner, and with it what the decoder reads back from the bytes the
scanner has accepted: `lit` is the literal being read, `top` the top-level
value once it is complete. -/
structure Scanner where
  step : Step
  parseState : List Frame
  lit : GoString
  top : Option Json

/-- What a step function returns: go on (`scanContinue` and the other codes
that ask for more input), the top-level value has ended (`scanEnd`; `consumed`
tells whether the byte just read belongs to the value), or `scanError`. -/
inductive Scan
  | more (s : Scanner)
  | endTop (v : Json) (consumed : Bool)
  | error

/-- The constant `maxNestingDepth`. -/
def maxNestingDepth : Nat := 10000

/-- The function `isSpace`. -/
def isSpace (c : Nat) : Bool := c = 32 || c = 9 || c = 13 || c = 10

/-- A value is complete: it becomes the top-level value, the pending key of the
object being read, the value of the pending key, or the next element of the
array being read. -/
def Scanner.emit (s : Scanner) (v : Json) : Option Scanner :=
  match s.parseState with
  | [] => some { step := .endValue, parseState := [], lit := [], top := some v }
  | .objectKey ms none :: ps =>
    match v with
    | .string k => some { step := .endValue, parseState := .objectKey ms (some k) :: ps, lit := [], top := s.top }
    | _ => none
  | .objectValue ms (some k) :: ps =>
    some { step := .endValue, parseState := .objectValue (ms ++ [(k, v)]) none :: ps, lit := [], top := s.top }
  | .arrayValue es :: ps =>
    some { step := .endValue, parseState := .arrayValue (es ++ [v]) :: ps, lit := [], top := s.top }
  | _ => none

/-- The method `popParseState` at the end of an object or array `v`, whose
entry has been taken off the stack already (`ps` is what is left).  When
nothing is left the decoder (`Decoder.readValue`) stops at this byte. -/
def closeValue (s : Scanner) (v : Json) (ps : List Frame) : Scan :=
  match ps with
  | [] => .endTop v true
  | _ :: _ =>
    match Scanner.emit { s with parseState := ps } v with
    | some s1 => .more s1
    | none => .error

/-- The step function `stateEndValue`. -/
def stateEndValue (s : Scanner) (c : Nat) : Scan :=
  match s.parseState with
  | [] =>
    match s.top with
    | some v => .endTop v false
    | none => .error
  | frame :: ps =>
    if isSpace c then .more { s with step := .endValue }
    else
      match frame with
      | .objectKey ms key =>
        if c = 58 then .more { s with step := .beginValue, parseState := .objectValue ms key :: ps }
        else .error
      | .objectValue ms _ =>
        if c = 44 then .more { s with step := .beginString, parseState := .objectKey ms none :: ps }
        else if c = 125 then closeValue s (.object ms) ps
        else .error
      | .arrayValue es =>
        if c = 44 then .more { s with step := .beginValue }
        else if c = 93 then closeValue s (.array es) ps
        else .error

/-- The end of a number: the literal read so far is the value, and the byte
that ended it is looked at by `stateEndValue`. -/
def endNumber (s : Scanner) (c : Nat) : Scan :=
  match s.emit (.number s.lit) with
  | some s1 => stateEndValue s1 c
  | none => .error

/-- The last letter of `true`, `false` or `null`. -/
def endLiteral (s : Scanner) (v : Json) : Scan :=
  match s.emit v with
  | some s1 => .more s1
  | none => .error

/-- The method `pushParseState`. -/
def pushParseState (s : Scanner) (frame : Frame) (next : Step) : Scan :=
  if s.parseState.length + 1 ≤ maxNestingDepth then
    .more { s with step := next, parseState := frame :: s.parseState }
  else .error

/-- The step function `stateBeginValue`. -/
def stateBeginValue (s : Scanner) (c : Nat) : Scan :=
  if isSpace c then .more s
  else if c = 123 then pushParseState s (.objectKey [] none) .beginStringOrEmpty
  else if c = 91 then pushParseState s (.arrayValue []) .beginValueOrEmpty
  else if c = 34 then .more { s with step := .inString, lit := [c] }
  else if c = 45 then .more { s with step := .neg, lit := [c] }
  else if c = 48 then .more { s with step := .zero, lit := [c] }
  else if c = 116 then .more { s with step := .t, lit := [c] }
  else if c = 102 then .more { s with step := .f, lit := [c] }
  else if c = 110 then .more { s with step := .n, lit := [c] }
  else if 49 ≤ c ∧ c ≤ 57 then .more { s with step := .one, lit := [c] }
  else .error

/-- The step function `stateBeginString`. -/
def stateBeginString (s : Scanner) (c : Nat) : Scan :=
  if isSpace c then .more s
  else if c = 34 then .more { s with step := .inString, lit := [c] }
  else .error

/-- Whether a byte is a decimal digit. -/
def isDigit (c : Nat) : Bool := 48 ≤ c && c ≤ 57

/-- Whether a byte is a hexadecimal digit. -/
def isHex (c : Nat) : Bool :=
  (48 ≤ c && c ≤ 57) || (97 ≤ c && c ≤ 102) || (65 ≤ c && c ≤ 70)

/-- One letter inside `true`, `false` or `null`. -/
def letter (s : Scanner) (c want : Nat) (next : Step) : Scan :=
  if c = want then .more { s with step := next, lit := s.lit ++ [c] } else .error

/-- The step function `state0`, which `state1` falls into. -/
def state0 (s : Scanner) (c : Nat) : Scan :=
  if c = 46 then .more { s with step := .dot, lit := s.lit ++ [c] }
  else if c = 101 ∨ c = 69 then .more { s with step := .e, lit := s.lit ++ [c] }
  else endNumber s c

/-- The step function `stateESign`, which `stateE` falls into. -/
def stateESign (s : Scanner) (c : Nat) : Scan :=
  if isDigit c then .more { s with step := .e0, lit := s.lit ++ [c] } else .error

/-- One call `s.step(s, c)`. -/
def Scanner.next (s : Scanner) (c : Nat) : Scan :=
  match s.step with
  | .beginValue => stateBeginValue s c
  | .beginValueOrEmpty =>
    if isSpace c then .more s
    else if c = 93 then stateEndValue s c
    else stateBeginValue s c
  | .beginStringOrEmpty =>
    if isSpace c then .more s
    else if c = 125 then
      match s.parseState with
      | .objectKey ms key :: ps => stateEndValue { s with parseState := .objectValue ms key :: ps } c
      | _ => .error
    else stateBeginString s c
  | .beginString => stateBeginString s c
  | .endValue => stateEndValue s c
  | .inString =>
    if c = 34 then
      match unquoteBytes (s.lit ++ [c]) with
      | some str => endLiteral s (.string str)
      | none => .error
    else if c = 92 then .more { s with step := .inStringEsc, lit := s.lit ++ [c] }
    else if c < 32 then .error
    else .more { s with lit := s.lit ++ [c] }
  | .inStringEsc =>
    if c = 98 ∨ c = 102 ∨ c = 110 ∨ c = 114 ∨ c = 116 ∨ c = 92 ∨ c = 47 ∨ c = 34 then
      .more { s with step := .inString, lit := s.lit ++ [c] }
    else if c = 117 then .more { s with step := .inStringEscU, lit := s.lit ++ [c] }
    else .error
  | .inStringEscU =>
    if isHex c then .more { s with step := .inStringEscU1, lit := s.lit ++ [c] } else .error
  | .inStringEscU1 =>
    if isHex c then .more { s with step := .inStringEscU12, lit := s.lit ++ [c] } else .error
  | .inStringEscU12 =>
    if isHex c then .more { s with step := .inStringEscU123, lit := s.lit ++ [c] } else .error
  | .inStringEscU123 =>
    if isHex c then .more { s with step := .inString, lit := s.lit ++ [c] } else .error
  | .neg =>
    if c = 48 then .more { s with step := .zero, lit := s.lit ++ [c] }
    else if 49 ≤ c ∧ c ≤ 57 then .more { s with step := .one, lit := s.lit ++ [c] }
    else .error
  | .one =>
    if isDigit c then .more { s with lit := s.lit ++ [c] } else state0 s c
  | .zero => state0 s c
  | .dot =>
    if isDigit c then .more { s with step := .dot0, lit := s.lit ++ [c] } else .error
  | .dot0 =>
    if isDigit c then .more { s with lit := s.lit ++ [c] }
    else if c = 101 ∨ c = 69 then .more { s with step := .e, lit := s.lit ++ [c] }
    else endNumber s c
  | .e =>
    if c = 43 ∨ c = 45 then .more { s with step := .eSign, lit := s.lit ++ [c] }
    else stateESign s c
  | .eSign => stateESign s c
  | .e0 =>
    if isDigit c then .more { s with lit := s.lit ++ [c] } else endNumber s c
  | .t => letter s c 114 .tr
  | .tr => letter s c 117 .tru
  | .tru => if c = 101 then endLiteral s (.bool true) else .error
  | .f => letter s c 97 .fa
  | .fa => letter s c 108 .fal
  | .fal => letter s c 115 .fals
  | .fals => if c = 101 then endLiteral s (.bool false) else .error
  | .n => letter s c 117 .nu
  | .nu => letter s c 108 .nul
  | .nul => if c = 108 then endLiteral s .null else .error

/-- The scanner after `reset`. -/
def Scanner.init : Scanner := { step := .beginValue, parseState := [], lit := [], top := none }

/-- The loop of `Decoder.readValue` over the buffered input: the first value
of the input and the bytes after it.  At the end of the input the scanner is
given a space; when that does not end the value the input was cut short. -/
def scanValue : Scanner → GoString → Except GoError (Json × GoString)
  | s, [] =>
    match s.next 32 with
    | .endTop v _ => .ok (v, [])
    | _ => .error .unexpectedEOF
  | s, c :: rest =>
    match s.next c with
    | .more s1 => scanValue s1 rest
    | .endTop v consumed => .ok (v, if consumed then rest else c :: rest)
    | .error => .error .syntaxError

/-- The method `Decoder.readValue`: an input that ends before its first value
does is `io.ErrUnexpectedEOF`, and `io.EOF` when it holds white space only. -/
def readValue (input : GoString) : Except GoError (Json × GoString) :=
  match scanValue Scanner.init input with
  | .ok r => .ok r
  | .error .unexpectedEOF => if input.all isSpace then .error .eof else .error .unexpectedEOF
  | .error e => .error e

/-! ## encoding/json: decoding into the response envelope -/

/-- The fields of `apiGatewayProxyResponse`. -/
inductive Field
  | statusCode | headers | body | isBase64Encoded
  deriving DecidableEq, Repr

/-- The JSON names of the fields, in the order of the struct. -/
def fieldNames : List (GoString × Field) :=
  [(ascii "statusCode", .statusCode), (ascii "headers", .headers), (ascii "body", .body),
   (ascii "isBase64Encoded", .isBase64Encoded)]

/-- An ASCII letter in upper case, any other byte unchanged. -/
def upper (c : Nat) : Nat := if 97 ≤ c ∧ c ≤ 122 then c - 32 else c

/-- Whether an object key equals an ASCII field name under simple case folding
(`foldName`): the letters of ASCII without regard to case, and the two runes
outside ASCII that fold to a letter, U+017F onto S and U+212A onto K. -/
def equalFold : GoString → GoString → Bool
  | [], [] => true
  | n :: ns, 0xC5 :: 0xBF :: ks => upper n == 83 && equalFold ns ks
  | n :: ns, 0xE2 :: 0x84 :: 0xAA :: ks => upper n == 75 && equalFold ns ks
  | n :: ns, k :: ks => k < 0x80 && upper n == upper k && equalFold ns ks
  | _, _ => false

/-- The field an object key is stored into: the field of that very name, or
else the first field whose name equals the key under case folding. -/
def findField (key : GoString) : Option Field :=
  match fieldNames.find? (fun f => f.1 == key) with
  | some f => some f.2
  | none => (fieldNames.find? (fun f => equalFold f.1 key)).map (fun f => f.2)

/-- The number a run of decimal digits writes, `acc` being the digits before. -/
def parseDecimal : GoString → Nat → Option Nat
  | [], acc => some acc
  | c :: rest, acc => if isDigit c then parseDecimal rest (acc * 10 + (c - 48)) else none

/-- The call `strconv.ParseInt(lit, 10, 64)` on a JSON number literal: a
literal with a fraction or an exponent, or out of the range of int64, is an
error. -/
def parseInt64 (lit : GoString) : Option Int :=
  match lit with
  | [] => none
  | 45 :: ds =>
    if ds.isEmpty then none
    else (parseDecimal ds 0).bind (fun n => if n ≤ 2 ^ 63 then some (-(n : Int)) else none)
  | ds => (parseDecimal ds 0).bind (fun n => if n < 2 ^ 63 then some (n : Int) else none)

/-- The method `decodeState.object` for a `map[string]string`: a string is
stored under its key, `null` stores the empty string, anything else is an
`UnmarshalTypeError`. -/
def decodeHeaders : StringMap → List (GoString × Json) → Except GoError StringMap
  | m, [] => .ok m
  | m, (k, v) :: rest =>
    match v with
    | .string str => decodeHeaders (mapAssign m k str) rest
    | .null => decodeHeaders (mapAssign m k []) rest
    | _ => .error .unmarshalTypeError

/-- A value is stored into a field (`literalStore`, `object`, `array`): `null`
leaves a string, a number and a boolean as they are and makes a map nil; an
object is added to the map the field holds, a fresh one when it is nil. -/
def storeField (r : apiGatewayProxyResponse) (f : Field) (v : Json) :
    Except GoError apiGatewayProxyResponse :=
  match f, v with
  | .statusCode, .number lit =>
    match parseInt64 lit with
    | some n => .ok { r with StatusCode := n }
    | none => .error .unmarshalTypeError
  | .statusCode, .null => .ok r
  | .headers, .object ms =>
    match decodeHeaders (r.Headers.getD []) ms with
    | .ok m => .ok { r with Headers := some m }
    | .error e => .error e
  | .headers, .null => .ok { r with Headers := none }
  | .body, .string str => .ok { r with Body := str }
  | .body, .null => .ok r
  | .isBase64Encoded, .bool b => .ok { r with IsBase64Encoded := b }
  | .isBase64Encoded, .null => .ok r
  | _, _ => .error .unmarshalTypeError

/-- The method `decodeState.object` for the struct: the members in the order of
the text, a key that names no field skipped. -/
def decodeMembers : apiGatewayProxyResponse → List (GoString × Json) →
    Except GoError apiGatewayProxyResponse
  | r, [] => .ok r
  | r, (k, v) :: rest =>
    match findField k with
    | none => decodeMembers r rest
    | some f =>
      match storeField r f v with
      | .ok r1 => decodeMembers r1 rest
      | .error e => .error e

/-- The zero value `var response apiGatewayProxyResponse`. -/
def apiGatewayProxyResponse.zero : apiGatewayProxyResponse :=
  { StatusCode := 0, Headers := none, Body := [], IsBase64Encoded := false }

/-- The method `decodeState.unmarshal` into the struct: an object is decoded
member by member, `null` leaves the struct as it is, any other value is an
`UnmarshalTypeError`. -/
def unmarshal (v : Json) : Except GoError apiGatewayProxyResponse :=
  match v with
  | .object ms => decodeMembers apiGatewayProxyResponse.zero ms
  | .null => .ok apiGatewayProxyResponse.zero
  | _ => .error .unmarshalTypeError

/-- The call `json.NewDecoder(bytes.NewBuffer(input)).Decode(&response)`: the
first value of the input is read and stored; what follows it is not looked
at. -/
def jsonDecode (input : GoString) : Except GoError apiGatewayProxyResponse :=
  match readValue input with
  | .error e => .error e
  | .ok (v, _) => unmarshal v

/-! ## The response decoder -/

/-- The value `HTTPResponse{}`. -/
def HTTPResponse.zero : HTTPResponse := { StatusCode := 0, Headers := [], Body := [] }

/-- The function `DecodeResponse`.  `it` is the order in which the loop of
`convertMapToSlice` visits the headers in this call.  `log.Fatalf` writes to
the log and calls `os.Exit(1)`. -/
def DecodeResponse (it : MapIter) (input : GoString) (_options : DecodeOptions) :
    Outcome HTTPResponse :=
  match jsonDecode input with
  | .error err => .returns HTTPResponse.zero (some err)
  | .ok response =>
    if response.IsBase64Encoded then
      match base64DecodeString response.Body with
      | .error _ => .exits 1
      | .ok responseBodyBytes =>
        .returns { StatusCode := response.StatusCode, Body := responseBodyBytes,
                   Headers := convertMapToSlice it response.Headers } none
    else
      .returns { StatusCode := response.StatusCode, Body := response.Body,
                 Headers := convertMapToSlice it response.Headers } none

/-! ## encoding/json: encoding the request envelope -/

/-- The digit of `hex` ("0123456789abcdef") at an index below 16. -/
def hexDigit (n : Nat) : Nat := if n < 10 then 48 + n else 87 + n

/-- The table `safeSet`: the ASCII bytes written as they are when HTML is not
escaped, namely all from the space on but the quote and the backslash. -/
def safeSet (b : Nat) : Bool := 32 ≤ b && b < 128 && b != 34 && b != 92

/-- The table `htmlSafeSet`: `safeSet` without the less-than sign, the
greater-than sign and the ampersand. -/
def htmlSafeSet (b : Nat) : Bool := safeSet b && b != 60 && b != 62 && b != 38

/-- How `appendString` writes an ASCII byte that is not in the safe set. -/
def escapeByte (b : Nat) : GoString :=
  if b = 92 ∨ b = 34 then [92, b]
  else if b = 8 then [92, 98]
  else if b = 12 then [92, 102]
  else if b = 10 then [92, 110]
  else if b = 13 then [92, 114]
  else if b = 9 then [92, 116]
  else [92, 117, 48, 48, hexDigit (b / 16), hexDigit (b % 16)]

/-- The loop of `appendString` (encode.go of Go 1.22; an older encoder writes
the backspace and the form feed as `\u0008` and `\u000c`), one element for what
each turn of the loop adds between the quotes: a safe ASCII byte as it is, any
other ASCII byte escaped, an invalid byte as `\ufffd`, U+2028 and U+2029
escaped, every other rune copied.  The fuel is the number of bytes left. -/
def escapeUnits (escapeHTML : Bool) : Nat → GoString → List GoString
  | 0, _ => []
  | _ + 1, [] => []
  | fuel + 1, b :: rest =>
    if b < 0x80 then
      (if htmlSafeSet b || (!escapeHTML && safeSet b) then [b] else escapeByte b)
        :: escapeUnits escapeHTML fuel rest
    else if (decodeRune (b :: rest)).1 = runeError ∧ (decodeRune (b :: rest)).2 = 1 then
      [92, 117, 102, 102, 102, 100] :: escapeUnits escapeHTML fuel rest
    else if (decodeRune (b :: rest)).1 = 0x2028 ∨ (decodeRune (b :: rest)).1 = 0x2029 then
      [92, 117, 50, 48, 50, hexDigit ((decodeRune (b :: rest)).1 % 16)]
        :: escapeUnits escapeHTML fuel (rest.drop ((decodeRune (b :: rest)).2 - 1))
    else
      (b :: rest).take (decodeRune (b :: rest)).2
        :: escapeUnits escapeHTML fuel (rest.drop ((decodeRune (b :: rest)).2 - 1))

/-- What `appendString` writes between the quotes. -/
def escapeFrom (escapeHTML : Bool) (fuel : Nat) (src : GoString) : GoString :=
  (escapeUnits escapeHTML fuel src).flatten

/-- The function `appendString`: a Go string as a JSON string literal. -/
def appendString (escapeHTML : Bool) (src : GoString) : GoString :=
  [34] ++ escapeFrom escapeHTML src.length src ++ [34]

/-- Go's order of strings: byte by byte, a proper beginning first. -/
def strLe : GoString → GoString → Bool
  | [], _ => true
  | _ :: _, [] => false
  | a :: as, b :: bs => if a < b then true else if b < a then false else strLe as bs

/-- An entry is put in its place among entries sorted by key. -/
def insertByKey {α : Type} (e : GoString × α) : List (GoString × α) → List (GoString × α)
  | [] => [e]
  | x :: xs => if strLe e.1 x.1 then e :: x :: xs else x :: insertByKey e xs

/-- The entries of a map sorted by key, as `mapEncoder.encode` sorts them. -/
def sortByKey {α : Type} : List (GoString × α) → List (GoString × α)
  | [] => []
  | e :: m => insertByKey e (sortByKey m)

/-- The loop of `mapEncoder.encode` over the sorted entries: a comma before
every entry but the first, the key, a colon, the value. -/
def encodeEntries (escapeHTML : Bool) : Bool → StringMap → GoString
  | _, [] => []
  | first, e :: rest =>
    (if first then [] else [44]) ++ appendString escapeHTML e.1 ++ [58]
      ++ appendString escapeHTML e.2 ++ encodeEntries escapeHTML false rest

/-- The method `mapEncoder.encode` for a `map[string]string`: a nil map is
`null`. -/
def encodeMap (escapeHTML : Bool) (m : Option StringMap) : GoString :=
  match m with
  | none => ascii "null"
  | some kvs => [123] ++ encodeEntries escapeHTML true (sortByKey kvs) ++ [125]

/-- What `structEncoder.encode` writes for an `apiGatewayProxyRequest`, field
by field: the fields in the order of the struct under their JSON names,
`isBase64Encoded` left out when it is false (`omitempty`). -/
def encodeStruct (escapeHTML : Bool) (v : apiGatewayProxyRequest) : GoString :=
  [123] ++ ascii "\"resource\":" ++ appendString escapeHTML v.Resource
    ++ [44] ++ ascii "\"path\":" ++ appendString escapeHTML v.Path
    ++ [44] ++ ascii "\"httpMethod\":" ++ appendString escapeHTML v.HTTPMethod
    ++ [44] ++ ascii "\"headers\":" ++ encodeMap escapeHTML v.Headers
    ++ [44] ++ ascii "\"queryStringParameters\":" ++ encodeMap escapeHTML v.QueryStringParameters
    ++ [44] ++ ascii "\"body\":" ++ appendString escapeHTML v.Body
    ++ (if v.IsBase64Encoded then [44] ++ ascii "\"isBase64Encoded\":true" else [])
    ++ [125]

/-- A field of a struct as the encoder keeps it (`field` of encode.go): the
name the tag gives it in JSON, and whether the tag says `omitempty`. -/
structure StructField where
  name : GoString
  omitEmpty : Bool
  deriving DecidableEq, Repr

/-- A Go value as reflection shows it to the encoder, by the kind of its type
(the switch of `newTypeEncoder`): the kinds of the fields of the envelope, a
struct, a pointer, and the kinds that the encoder refuses: a channel, a
function and a complex number.  A map has keys of kind string. -/
inductive GoValue
  | bool (b : Bool)
  | string (s : GoString)
  | nilMap
  | map (entries : List (GoString × GoValue))
  | struct (fields : List (StructField × GoValue))
  | nilPointer
  | pointer (elem : GoValue)
  | chan
  | func
  | complex

/-- The function `isEmptyValue`, by which `omitempty` leaves a field out: a
string or a map of length zero, the boolean false, a nil pointer. -/
def isEmptyValue : GoValue → Bool
  | .bool b => !b
  | .string s => s.isEmpty
  | .nilMap => true
  | .map es => es.isEmpty
  | .nilPointer => true
  | _ => false

/-- The function `appendHTMLEscape`, which a field name passes through when
HTML is escaped: the less-than sign, the greater-than sign and the ampersand
are written as `\u00XX`, U+2028 and U+2029 as `\u202X`. -/
def appendHTMLEscape : GoString → GoString
  | [] => []
  | c :: d1 :: d2 :: rest =>
    if c = 60 ∨ c = 62 ∨ c = 38 then
      [92, 117, 48, 48, hexDigit (c / 16), hexDigit (c % 16)]
        ++ appendHTMLEscape (d1 :: d2 :: rest)
    else if c = 0xE2 ∧ d1 = 0x80 ∧ (d2 = 0xA8 ∨ d2 = 0xA9) then
      [92, 117, 50, 48, 50, hexDigit (d2 % 16)] ++ appendHTMLEscape rest
    else c :: appendHTMLEscape (d1 :: d2 :: rest)
  | c :: rest =>
    if c = 60 ∨ c = 62 ∨ c = 38 then
      [92, 117, 48, 48, hexDigit (c / 16), hexDigit (c % 16)] ++ appendHTMLEscape rest
    else c :: appendHTMLEscape rest

/-- What the struct encoder writes before the value of a field
(`nameNonEsc`, `nameEscHTML`): the name between quotes, and a colon. -/
def fieldName (escapeHTML : Bool) (f : StructField) : GoString :=
  [34] ++ (if escapeHTML then appendHTMLEscape f.name else f.name) ++ [34, 58]

/-- The second loop of `mapEncoder.encode`, over the entries sorted by key, each
with what the encoder of the element has made of its value: a comma before
every entry but the first, the key, a colon, the value.  The first element
that the encoder refuses ends the encoding with its error. -/
def writeEntries (escapeHTML : Bool) :
    Bool → List (GoString × Except GoError GoString) → Except GoError GoString
  | _, [] => .ok []
  | first, (k, r) :: rest =>
    match r with
    | .error err => .error err
    | .ok text =>
      match writeEntries escapeHTML false rest with
      | .error err => .error err
      | .ok tail =>
        .ok ((if first then [] else [44]) ++ appendString escapeHTML k ++ [58] ++ text ++ tail)

mutual
/-- The method `encodeState.reflectValue`: the encoder that `newTypeEncoder`
picks for the kind of the value is run on it.  `boolEncoder`, `stringEncoder`,
`mapEncoder.encode` (a nil map is `null`), `structEncoder.encode`,
`ptrEncoder.encode` (a nil pointer is `null`), and `unsupportedTypeEncoder`
for the kinds left, which fails with an `UnsupportedTypeError`.  An error
raised inside a value ends the encoding of the whole (`encodeState.error`
panics, `marshal` recovers and returns the error). -/
def reflectValue (escapeHTML : Bool) : GoValue → Except GoError GoString
  | .bool b => .ok (if b then ascii "true" else ascii "false")
  | .string s => .ok (appendString escapeHTML s)
  | .nilMap => .ok (ascii "null")
  | .map es =>
    match writeEntries escapeHTML true (sortByKey (encodeElems escapeHTML es)) with
    | .error err => .error err
    | .ok text => .ok ([123] ++ text ++ [125])
  | .struct fs => encodeFields escapeHTML true fs
  | .nilPointer => .ok (ascii "null")
  | .pointer v => reflectValue escapeHTML v
  | .chan => .error .unsupportedTypeError
  | .func => .error .unsupportedTypeError
  | .complex => .error .unsupportedTypeError
/-- The entries of a map, each value replaced by what the encoder of the
element makes of it.  The encoder works on the entries in the order of the
keys; what it makes of one value does not depend on the others. -/
def encodeElems (escapeHTML : Bool) :
    List (GoString × GoValue) → List (GoString × Except GoError GoString)
  | [] => []
  | (k, v) :: rest => (k, reflectValue escapeHTML v) :: encodeElems escapeHTML rest
/-- The loop of `structEncoder.encode` over the fields in the order of the
struct: an empty field marked `omitempty` is left out; before the first field
written stands the opening brace, before every other a comma; a struct none of
whose fields is written is `{}`. -/
def encodeFields (escapeHTML : Bool) :
    Bool → List (StructField × GoValue) → Except GoError GoString
  | first, [] => .ok (if first then ascii "\x7b\x7d" else [125])
  | first, (f, v) :: rest =>
    if f.omitEmpty && isEmptyValue v then encodeFields escapeHTML first rest
    else
      match reflectValue escapeHTML v with
      | .error err => .error err
      | .ok text =>
        match encodeFields escapeHTML false rest with
        | .error err => .error err
        | .ok tail =>
          .ok ((if first then [123] else [44]) ++ fieldName escapeHTML f ++ text ++ tail)
end

/-- A `map[string]string` as reflection shows it: a map whose elements are of
kind string. -/
def reflectStringMap (m : Option StringMap) : GoValue :=
  match m with
  | none => .nilMap
  | some kvs => .map (kvs.map (fun e => (e.1, GoValue.string e.2)))

/-- The struct `apiGatewayProxyRequest` as reflection shows it: the fields of
the declaration in their order, each with the name and the option of its tag;
`omitempty` stands on `IsBase64Encoded` only. -/
def reflectEnvelope (v : apiGatewayProxyRequest) : GoValue :=
  .struct
    [({ name := ascii "resource", omitEmpty := false }, .string v.Resource),
     ({ name := ascii "path", omitEmpty := false }, .string v.Path),
     ({ name := ascii "httpMethod", omitEmpty := false }, .string v.HTTPMethod),
     ({ name := ascii "headers", omitEmpty := false }, reflectStringMap v.Headers),
     ({ name := ascii "queryStringParameters", omitEmpty := false },
      reflectStringMap v.QueryStringParameters),
     ({ name := ascii "body", omitEmpty := false }, .string v.Body),
     ({ name := ascii "isBase64Encoded", omitEmpty := true }, .bool v.IsBase64Encoded)]

/-- The method `bytes.Buffer.Write`: the bytes are added to the buffer; the
error it returns is nil always. -/
def bufferWrite (buf p : GoString) : GoString × Option GoError := (buf ++ p, none)

/-- The method `Encoder.Encode` on `&encodeapiGatewayStruct`, the encoder being
new (its field `err` is nil, no indentation is set) and writing to an empty
buffer.  When `marshal` fails its error is returned and nothing is written;
else the encoding and a line feed are written to the buffer, and the error of
that write is returned.  The result `ok` holds the bytes of the buffer. -/
def encoderEncode (escapeHTML : Bool) (v : apiGatewayProxyRequest) : Except GoError GoString :=
  match reflectValue escapeHTML (.pointer (reflectEnvelope v)) with
  | .error err => .error err
  | .ok text =>
    match bufferWrite [] (text ++ [10]) with
    | (_, some err) => .error err
    | (buf, none) => .ok buf

/-! ## The request encoder -/

/-- The composite literal of `EncodeRequest`: resource, body and headers are
taken from the request; the fields it does not name (`Path`, `HTTPMethod`,
`QueryStringParameters`, `IsBase64Encoded`) hold their zero values. -/
def requestEnvelope (input : HTTPRequest) : apiGatewayProxyRequest :=
  { Resource := input.Resource, Path := [], HTTPMethod := [],
    Headers := convertSliceToMap input.Headers, QueryStringParameters := none,
    Body := input.Body, IsBase64Encoded := false }

/-- The function `EncodeRequest`.  A nil `input` is dereferenced at
`input.Resource`; `options` is not used.  The encoder is set not to escape
HTML. -/
def EncodeRequest (input : Option HTTPRequest) (_options : Option EncodeOptions) :
    Outcome GoString :=
  match input with
  | none => .nilDeref
  | some input =>
    let encodeapiGatewayStruct := requestEnvelope input
    match encoderEncode false encodeapiGatewayStruct with
    | .error err => .returns [] (some err)
    | .ok b => .returns b none

/-! ## net/http: StatusText, and the status helpers -/

/-- The cases of the switch in `http.StatusText` (a map `statusText` in older
releases): the status codes that net/http names, each with its text. -/
def statusText : List (Int × GoString) :=
  [(100, ascii "Continue"), (101, ascii "Switching Protocols"), (102, ascii "Processing"),
   (103, ascii "Early Hints"),
   (200, ascii "OK"), (201, ascii "Created"), (202, ascii "Accepted"),
   (203, ascii "Non-Authoritative Information"), (204, ascii "No Content"),
   (205, ascii "Reset Content"), (206, ascii "Partial Content"), (207, ascii "Multi-Status"),
   (208, ascii "Already Reported"), (226, ascii "IM Used"),
   (300, ascii "Multiple Choices"), (301, ascii "Moved Permanently"), (302, ascii "Found"),
   (303, ascii "See Other"), (304, ascii "Not Modified"), (305, ascii "Use Proxy"),
   (307, ascii "Temporary Redirect"), (308, ascii "Permanent Redirect"),
   (400, ascii "Bad Request"), (401, ascii "Unauthorized"), (402, ascii "Payment Required"),
   (403, ascii "Forbidden"), (404, ascii "Not Found"), (405, ascii "Method Not Allowed"),
   (406, ascii "Not Acceptable"), (407, ascii "Proxy Authentication Required"),
   (408, ascii "Request Timeout"), (409, ascii "Conflict"), (410, ascii "Gone"),
   (411, ascii "Length Required"), (412, ascii "Precondition Failed"),
   (413, ascii "Request Entity Too Large"), (414, ascii "Request URI Too Long"),
   (415, ascii "Unsupported Media Type"), (416, ascii "Requested Range Not Satisfiable"),
   (417, ascii "Expectation Failed"), (418, ascii "I\x27m a teapot"),
   (421, ascii "Misdirected Request"), (422, ascii "Unprocessable Entity"),
   (423, ascii "Locked"), (424, ascii "Failed Dependency"), (425, ascii "Too Early"),
   (426, ascii "Upgrade Required"), (428, ascii "Precondition Required"),
   (429, ascii "Too Many Requests"), (431, ascii "Request Header Fields Too Large"),
   (451, ascii "Unavailable For Legal Reasons"),
   (500, ascii "Internal Server Error"), (501, ascii "Not Implemented"),
   (502, ascii "Bad Gateway"), (503, ascii "Service Unavailable"),
   (504, ascii "Gateway Timeout"), (505, ascii "HTTP Version Not Supported"),
   (506, ascii "Variant Also Negotiates"), (507, ascii "Insufficient Storage"),
   (508, ascii "Loop Detected"), (510, ascii "Not Extended"),
   (511, ascii "Network Authentication Required")]

/-- The function `http.StatusText`: the text of a status code that net/http
names, the empty string for any other number. -/
def StatusText (code : Int) : GoString :=
  match statusText.lookup code with
  | some text => text
  | none => []

/-- The constant `http.StatusInternalServerError`. -/
def StatusInternalServerError : Int := 500

/-- A value of the interface type `error`, by what the call of its method
`Error` does, which is all the program asks of it: the nil interface, on which
the call faults; a value whose method returns a text; and a value whose method
does not return but panics, such as a nil pointer in the interface whose method
reads through its receiver. -/
inductive ErrorValue
  | nil
  | error (text : GoString)
  | faulty
  deriving DecidableEq, Repr

/-- The text that `err.Error()` returns, when the call returns. -/
def ErrorValue.Error (err : ErrorValue) : Option GoString :=
  match err with
  | .error text => some text
  | _ => none

/-- The function `serverError`.  `log` is what has been written to
`errorLogger` so far; `Println` adds a line, of which the text of the error is
kept here (the text `ERROR` and the place in the source that the logger puts
before it are left out).  `err.Error()` is called first: on the nil interface
it faults, and when the method panics nothing is logged and nothing
returned. -/
def serverError (log : List GoString) (err : ErrorValue) :
    List GoString × Outcome apiGatewayProxyResponse :=
  match err with
  | .nil => (log, .nilDeref)
  | .faulty => (log, .panics)
  | .error text =>
    (log ++ [text],
     .returns { StatusCode := StatusInternalServerError, Headers := none,
                Body := StatusText StatusInternalServerError, IsBase64Encoded := false } none)

/-- The function `clientError`. -/
def clientError (status : Int) : Outcome apiGatewayProxyResponse :=
  .returns { StatusCode := status, Headers := none, Body := StatusText status,
             IsBase64Encoded := false } none

/-! ## The shape of a response envelope, in the words of the wire format -/

/-- Whether a value has the type the wire format gives a field: an integer
for `statusCode` (a literal of digits with an optional minus sign, in the range
of 64 bits), an object of strings for `headers`, a string for `body`, a boolean
for `isBase64Encoded`; `null` stands for an absent value everywhere. -/
def fits (f : Field) (v : Json) : Bool :=
  match f, v with
  | _, .null => true
  | .statusCode, .number lit => (parseInt64 lit).isSome
  | .headers, .object ms =>
    ms.all (fun m => match m.2 with
      | .string _ => true
      | .null => true
      | _ => false)
  | .body, .string _ => true
  | .isBase64Encoded, .bool _ => true
  | _, _ => false

/-- Whether a JSON value has the shape of a response envelope: `null`, or an
object in which every key that names a field holds a value that fits it. -/
def envelopeShape (v : Json) : Bool :=
  match v with
  | .null => true
  | .object ms =>
    ms.all (fun m => match findField m.1 with
      | none => true
      | some f => fits f m.2)
  | _ => false

deriving instance DecidableEq for Except

/-! ## The request envelope as a JSON value -/

/-- The members a decoder reads from the entries the map encoder wrote: key
and value, each coerced to valid UTF-8. -/
def jsonMembers (es : StringMap) : List (GoString × Json) :=
  es.map (fun e => (coerceUTF8 e.1, Json.string (coerceUTF8 e.2)))

/-- The JSON value of a map: `null` for the nil map, else the object of its
entries in the order of the keys. -/
def jsonOfMap (m : Option StringMap) : Json :=
  match m with
  | none => .null
  | some kvs => .object (jsonMembers (sortByKey kvs))

/-- The JSON value of a request envelope whose flag `isBase64Encoded` is
false. -/
def jsonOfRequest (v : apiGatewayProxyRequest) : Json :=
  .object [(ascii "resource", .string (coerceUTF8 v.Resource)),
    (ascii "path", .string (coerceUTF8 v.Path)),
    (ascii "httpMethod", .string (coerceUTF8 v.HTTPMethod)),
    (ascii "headers", jsonOfMap v.Headers),
    (ascii "queryStringParameters", jsonOfMap v.QueryStringParameters),
    (ascii "body", .string (coerceUTF8 v.Body))]

/-- The escape sequences an encoder that escapes HTML writes for the
ampersand, the less-than sign and the greater-than sign. -/
def htmlEscapes : List GoString := [ascii "\\u0026", ascii "\\u003c", ascii "\\u003e"]

/-- The text `{"body":B}` of a response envelope that holds a body only, the
string `B` written as a JSON encoder writes it. -/
def bodyEnvelope (B : GoString) : GoString :=
  [123] ++ ascii "\"body\":" ++ appendString false B ++ [125]

/-- One member of an object read for its status code: an integer under the
key `statusCode` replaces the code read so far, any other member leaves it. -/
def statusCodeStep (code : Int) (m : GoString × Json) : Int :=
  match findField m.1, m.2 with
  | some .statusCode, .number lit => (parseInt64 lit).getD code
  | _, _ => code

/-- The status code an object of the wire format states: the integer under the
key `statusCode`, the last one when the key is repeated and `null` counting as
no value; 0 when the object states none. -/
def statusCodeOf (ms : List (GoString × Json)) : Int :=
  ms.foldl statusCodeStep 0

/-! ## The header adapter: lemmas -/

theorem convertMapToSlice_eq_map (it : MapIter) (m : Option StringMap) :
    convertMapToSlice it m = (it.order (m.getD [])).map Prod.snd := by
  unfold convertMapToSlice
  have h : ∀ (l : StringMap) (acc : List GoString),
      l.foldl (fun output e => output ++ [e.2]) acc = acc ++ l.map Prod.snd := by
    intro l
    induction l with
    | nil => intro acc; simp
    | cons e l ih => intro acc; simp [ih]
  simpa using h (it.order (m.getD [])) []

theorem mapAssign_keys (m : StringMap) (v : GoString) :
    (mapAssign m v v).map Prod.fst = if v ∈ m.map Prod.fst then m.map Prod.fst
      else m.map Prod.fst ++ [v] := by
  induction m with
  | nil => simp [mapAssign]
  | cons e m ih =>
    obtain ⟨k, w⟩ := e
    by_cases hk : k = v
    · simp [mapAssign, hk]
    · have hk2 : ¬ v = k := fun h => hk h.symm
      by_cases hm : v ∈ m.map Prod.fst
      · simp only [mapAssign, hk, if_false, List.map_cons, ih, hm, if_true, List.mem_cons, or_true]
      · simp only [mapAssign, hk, if_false, List.map_cons, ih, hm, List.mem_cons, hk2, or_self,
          List.cons_append]

theorem mapAssign_diag (m : StringMap) (v : GoString) (h : ∀ e ∈ m, e.1 = e.2) :
    ∀ e ∈ mapAssign m v v, e.1 = e.2 := by
  induction m with
  | nil => simp [mapAssign]
  | cons e m ih =>
    obtain ⟨k, w⟩ := e
    by_cases hk : k = v
    · intro e he
      simp only [mapAssign, hk, if_true, List.mem_cons] at he
      rcases he with rfl | he
      · rfl
      · exact h e (List.mem_cons_of_mem _ he)
    · intro e he
      simp only [mapAssign, hk, if_false, List.mem_cons] at he
      rcases he with rfl | he
      · exact h _ (List.mem_cons_self _ _)
      · exact ih (fun e he => h e (List.mem_cons_of_mem _ he)) e he

/-- What the loop of `convertSliceToMap` keeps true: every entry holds its key
as its value, the keys are distinct, and the keys are those the map began with
and the strings of the list. -/
theorem foldl_mapAssign_spec (l : List GoString) (m : StringMap)
    (hd : ∀ e ∈ m, e.1 = e.2) (hn : (m.map Prod.fst).Nodup) :
    (∀ e ∈ l.foldl (fun output v => mapAssign output v v) m, e.1 = e.2) ∧
    ((l.foldl (fun output v => mapAssign output v v) m).map Prod.fst).Nodup ∧
    ∀ x, x ∈ (l.foldl (fun output v => mapAssign output v v) m).map Prod.fst ↔
      x ∈ m.map Prod.fst ∨ x ∈ l := by
  induction l generalizing m with
  | nil => simp only [List.foldl_nil]; exact ⟨hd, hn, by simp⟩
  | cons v l ih =>
    have hn2 : ((mapAssign m v v).map Prod.fst).Nodup := by
      rw [mapAssign_keys]
      split
      · exact hn
      · rename_i hv
        exact List.Nodup.append hn (List.nodup_singleton v) (by simpa using hv)
    obtain ⟨h1, h2, h3⟩ := ih (mapAssign m v v) (mapAssign_diag m v hd) hn2
    refine ⟨h1, h2, fun x => ?_⟩
    simp only [List.foldl_cons]
    rw [h3 x, mapAssign_keys]
    split
    · rename_i hv
      constructor
      · rintro (h | h)
        · exact Or.inl h
        · exact Or.inr (List.mem_cons_of_mem _ h)
      · rintro (h | h)
        · exact Or.inl h
        · rcases List.mem_cons.1 h with rfl | h
          · exact Or.inl hv
          · exact Or.inr h
    · simp only [List.mem_append, List.mem_singleton, List.mem_cons]
      tauto

theorem map_snd_eq_map_fst (m : StringMap) (h : ∀ e ∈ m, e.1 = e.2) :
    m.map Prod.snd = m.map Prod.fst := by
  induction m with
  | nil => rfl
  | cons e m ih =>
    simp only [List.map_cons]
    rw [ih (fun e he => h e (List.mem_cons_of_mem _ he)), h e (List.mem_cons_self _ _)]

/-- The trip through the two conversions gives every distinct string of the
list once, in some order. -/
theorem convert_roundtrip_perm_dedup (it : MapIter) (l : List GoString) :
    (convertMapToSlice it (convertSliceToMap l)).Perm l.dedup := by
  obtain ⟨h1, h2, h3⟩ := foldl_mapAssign_spec l [] (by simp) (by simp)
  rw [convertMapToSlice_eq_map]
  simp only [convertSliceToMap, Option.getD_some]
  refine ((it.perm _).map Prod.snd).trans ?_
  rw [map_snd_eq_map_fst _ h1]
  refine (List.perm_ext_iff_of_nodup h2 (List.nodup_dedup l)).2 (fun x => ?_)
  rw [h3 x]
  simp

/-! ## Base64: the decoder undoes the standard encoding -/

theorem b64Value_b64Char (v : Nat) (h : v < 64) : b64Value (b64Char v) = some v := by
  unfold b64Value b64Char
  split_ifs <;> first | omega | (congr 1; omega)

theorem quantumBytes_four (a b c : Nat) (ha : a < 256) (hb : b < 256) (hc : c < 256) :
    quantumBytes [a / 4, a % 4 * 16 + b / 16, b % 16 * 4 + c / 64, c % 64] = [a, b, c] := by
  simp only [quantumBytes, List.getD_cons_zero, List.getD_cons_succ, List.length_cons,
    List.length_nil]
  simp only [Nat.reduceAdd, Nat.add_one_sub_one, List.take_succ_cons, List.take_zero]
  congr 1
  · omega
  · congr 1
    · omega
    · congr 1
      omega

theorem quantumBytes_three (a b : Nat) (ha : a < 256) (hb : b < 256) :
    quantumBytes [a / 4, a % 4 * 16 + b / 16, b % 16 * 4] = [a, b] := by
  simp only [quantumBytes, List.getD_cons_zero, List.getD_cons_succ, List.length_cons,
    List.length_nil, List.getD_nil]
  simp only [Nat.reduceAdd, Nat.add_one_sub_one, List.take_succ_cons, List.take_zero]
  congr 1
  · omega
  · congr 1
    omega

theorem quantumBytes_two (a : Nat) (ha : a < 256) :
    quantumBytes [a / 4, a % 4 * 16] = [a] := by
  simp only [quantumBytes, List.getD_cons_zero, List.getD_cons_succ, List.length_cons,
    List.length_nil, List.getD_nil]
  simp only [Nat.reduceAdd, Nat.add_one_sub_one, List.take_succ_cons, List.take_zero]
  congr 1
  omega

theorem b64Value_pad : b64Value 61 = none := by decide

/-- The decoder, started between two quanta, reads back the bytes the standard
encoding was made from. -/
theorem base64Loop_rfc4648Encode (D : GoString) (hD : ∀ b ∈ D, b < 256) (dst : GoString) :
    base64Loop (rfc4648Encode D) [] dst = .ok (dst ++ D) := by
  induction D using rfc4648Encode.induct generalizing dst with
  | case1 a b c rest ih =>
    have ha : a < 256 := hD a (by simp)
    have hb : b < 256 := hD b (by simp)
    have hc : c < 256 := hD c (by simp)
    have h0 : b64Value (b64Char (a / 4)) = some (a / 4) := b64Value_b64Char _ (by omega)
    have h1 : b64Value (b64Char (a % 4 * 16 + b / 16)) = some (a % 4 * 16 + b / 16) :=
      b64Value_b64Char _ (by omega)
    have h2 : b64Value (b64Char (b % 16 * 4 + c / 64)) = some (b % 16 * 4 + c / 64) :=
      b64Value_b64Char _ (by omega)
    have h3 : b64Value (b64Char (c % 64)) = some (c % 64) := b64Value_b64Char _ (by omega)
    simp only [rfc4648Encode, base64Loop, h0, h1, h2, h3, List.length_nil, List.nil_append,
      List.length_cons, List.cons_append]
    simp only [Nat.reduceAdd, Nat.reduceEqDiff, if_false, if_true, OfNat.zero_ne_ofNat]
    rw [ih (fun x hx => hD x (by simp [hx])), quantumBytes_four a b c ha hb hc]
    simp
  | case2 a b =>
    have ha : a < 256 := hD a (by simp)
    have hb : b < 256 := hD b (by simp)
    have h0 : b64Value (b64Char (a / 4)) = some (a / 4) := b64Value_b64Char _ (by omega)
    have h1 : b64Value (b64Char (a % 4 * 16 + b / 16)) = some (a % 4 * 16 + b / 16) :=
      b64Value_b64Char _ (by omega)
    have h2 : b64Value (b64Char (b % 16 * 4)) = some (b % 16 * 4) :=
      b64Value_b64Char _ (by omega)
    simp only [rfc4648Encode, base64Loop, h0, h1, h2, b64Value_pad, List.length_nil,
      List.nil_append, List.length_cons, List.cons_append, skipNewlines]
    simp [quantumBytes_three a b ha hb]
  | case3 a =>
    have ha : a < 256 := hD a (by simp)
    have h0 : b64Value (b64Char (a / 4)) = some (a / 4) := b64Value_b64Char _ (by omega)
    have h1 : b64Value (b64Char (a % 4 * 16)) = some (a % 4 * 16) :=
      b64Value_b64Char _ (by omega)
    simp only [rfc4648Encode, base64Loop, h0, h1, b64Value_pad, List.length_nil,
      List.nil_append, List.length_cons, List.cons_append, skipNewlines]
    simp [quantumBytes_two a ha, skipNewlines]
  | case4 => simp [rfc4648Encode, base64Loop]

theorem base64DecodeString_rfc4648Encode (D : GoString) (hD : ∀ b ∈ D, b < 256) :
    base64DecodeString (rfc4648Encode D) = .ok D := by
  simpa [base64DecodeString] using base64Loop_rfc4648Encode D hD []

/-! ## The response decoder: lemmas -/

theorem decodeHeaders_of_all (ms : List (GoString × Json)) (m : StringMap)
    (h : ms.all (fun m => match m.2 with
      | .string _ => true
      | .null => true
      | _ => false) = true) :
    ∃ m1, decodeHeaders m ms = .ok m1 := by
  induction ms generalizing m with
  | nil => exact ⟨m, rfl⟩
  | cons e ms ih =>
    obtain ⟨k, v⟩ := e
    simp only [List.all_cons, Bool.and_eq_true] at h
    cases v <;> simp only [decodeHeaders] <;> first
      | exact ih _ h.2
      | exact absurd h.1 (by simp)

theorem decodeHeaders_of_not_all (ms : List (GoString × Json)) (m : StringMap)
    (h : ms.all (fun m => match m.2 with
      | .string _ => true
      | .null => true
      | _ => false) = false) :
    decodeHeaders m ms = .error .unmarshalTypeError := by
  induction ms generalizing m with
  | nil => simp at h
  | cons e ms ih =>
    obtain ⟨k, v⟩ := e
    simp only [List.all_cons, Bool.and_eq_false_iff] at h
    cases v <;> simp only [decodeHeaders] <;> exact ih _ (h.resolve_left (by simp))

theorem storeField_of_fits (r : apiGatewayProxyResponse) (f : Field) (v : Json)
    (h : fits f v = true) : ∃ r1, storeField r f v = .ok r1 := by
  cases f <;> cases v <;> simp only [fits, Bool.false_eq_true] at h <;>
    simp only [storeField] <;> first
    | exact ⟨_, rfl⟩
    | (rename_i lit
       cases hp : parseInt64 lit with
       | none => simp [hp] at h
       | some n => exact ⟨_, rfl⟩)
    | (rename_i ms
       obtain ⟨m1, hm⟩ := decodeHeaders_of_all ms (r.Headers.getD []) h
       rw [hm]
       exact ⟨_, rfl⟩)

theorem storeField_of_not_fits (r : apiGatewayProxyResponse) (f : Field) (v : Json)
    (h : fits f v = false) : storeField r f v = .error .unmarshalTypeError := by
  cases f <;> cases v <;> simp only [fits, Bool.true_eq_false] at h <;>
    simp only [storeField] <;> first
    | rfl
    | (rename_i lit
       cases hp : parseInt64 lit with
       | none => rfl
       | some n => simp [hp] at h)
    | (rename_i ms
       rw [decodeHeaders_of_not_all ms (r.Headers.getD []) h])

theorem decodeMembers_of_shape (ms : List (GoString × Json)) (r : apiGatewayProxyResponse)
    (h : ms.all (fun m => match findField m.1 with
      | none => true
      | some f => fits f m.2) = true) :
    ∃ r1, decodeMembers r ms = .ok r1 := by
  induction ms generalizing r with
  | nil => exact ⟨r, rfl⟩
  | cons e ms ih =>
    obtain ⟨k, v⟩ := e
    simp only [List.all_cons, Bool.and_eq_true] at h
    simp only [decodeMembers]
    cases hf : findField k with
    | none => exact ih r h.2
    | some f =>
      have h1 := h.1
      simp only [hf] at h1
      obtain ⟨r1, hr⟩ := storeField_of_fits r f v h1
      simp only [hr]
      exact ih r1 h.2

theorem decodeMembers_of_not_shape (ms : List (GoString × Json)) (r : apiGatewayProxyResponse)
    (h : ms.all (fun m => match findField m.1 with
      | none => true
      | some f => fits f m.2) = false) :
    decodeMembers r ms = .error .unmarshalTypeError := by
  induction ms generalizing r with
  | nil => simp at h
  | cons e ms ih =>
    obtain ⟨k, v⟩ := e
    simp only [List.all_cons, Bool.and_eq_false_iff] at h
    simp only [decodeMembers]
    cases hf : findField k with
    | none =>
      simp only [hf] at h
      exact ih r (h.resolve_left (by simp))
    | some f =>
      simp only [hf] at h
      cases hfit : fits f v with
      | false => simp only [storeField_of_not_fits r f v hfit]
      | true =>
        obtain ⟨r1, hr⟩ := storeField_of_fits r f v hfit
        simp only [hr]
        exact ih r1 (h.resolve_left (by simp [hfit]))

theorem unmarshal_of_shape (v : Json) (h : envelopeShape v = true) :
    ∃ r, unmarshal v = .ok r := by
  cases v <;> simp only [envelopeShape, Bool.false_eq_true] at h
  · exact ⟨_, rfl⟩
  · exact decodeMembers_of_shape _ _ h

theorem unmarshal_of_not_shape (v : Json) (h : envelopeShape v = false) :
    unmarshal v = .error .unmarshalTypeError := by
  cases v <;> simp only [envelopeShape, Bool.true_eq_false] at h <;> first
    | rfl
    | exact decodeMembers_of_not_shape _ _ h

/-- A decoded envelope is never answered with an error: the call returns a
response and a nil error, or it ends the process. -/
theorem DecodeResponse_of_decoded (it : MapIter) (input : GoString) (o : DecodeOptions)
    (e : apiGatewayProxyResponse) (h : jsonDecode input = .ok e) :
    DecodeResponse it input o = .exits 1 ∨
    ∃ body, DecodeResponse it input o =
      .returns { StatusCode := e.StatusCode, Body := body,
                 Headers := convertMapToSlice it e.Headers } none := by
  simp only [DecodeResponse, h]
  split
  · cases base64DecodeString e.Body with
    | error _ => exact Or.inl rfl
    | ok b => exact Or.inr ⟨b, rfl⟩
  · exact Or.inr ⟨_, rfl⟩

/-- A value that is complete when the input ends, and is no number, was
complete before: whatever byte comes next, the scanner stops in front of
it. -/
theorem next_endTop_of_space (s : Scanner) (v : Json) (b : Bool)
    (h : s.next 32 = .endTop v b) (hv : ∀ lit, v ≠ .number lit) :
    ∀ c, s.next c = .endTop v false := by
  obtain ⟨step, ps, lit, top⟩ := s
  have hnum : ∀ s1 : Scanner, endNumber s1 32 = .endTop v b → False := by
    intro s1 h1
    obtain ⟨step1, ps1, lit1, top1⟩ := s1
    simp only [endNumber, Scanner.emit] at h1
    rcases ps1 with _ | ⟨frame, ps1⟩
    · simp only [stateEndValue] at h1
      simp only [Scan.endTop.injEq] at h1
      exact hv _ h1.1.symm
    · rcases frame with ⟨ms, _ | k⟩ | ⟨ms, _ | k⟩ | es <;>
        simp [stateEndValue, isSpace] at h1
  cases step <;>
    simp only [Scanner.next, stateBeginValue, stateBeginString, state0, stateESign, letter,
      isSpace, isDigit, isHex, pushParseState] at h <;>
    (try simp at h) <;>
    (try exact (hnum _ h).elim)
  rcases ps with _ | ⟨frame, ps⟩
  · rcases top with _ | v1
    · simp [stateEndValue] at h
    · simp only [stateEndValue, Scan.endTop.injEq] at h
      intro c
      simp only [Scanner.next, stateEndValue, h.1]
  · simp [stateEndValue, isSpace] at h

/-- Once the first value has ended, the bytes that follow it are not looked
at: more of them change nothing.  A number at the very end of the input has
not ended: more digits would belong to it. -/
theorem scanValue_append_ended (extra : GoString) (input : GoString) :
    ∀ (s : Scanner) (v : Json) (rest : GoString), scanValue s input = .ok (v, rest) →
      (rest ≠ [] ∨ ∀ lit, v ≠ .number lit) →
      scanValue s (input ++ extra) = .ok (v, rest ++ extra) := by
  induction input with
  | nil =>
    intro s v rest h hrest
    rw [scanValue] at h
    split at h
    · rename_i v1 b hs
      simp only [Except.ok.injEq, Prod.mk.injEq] at h
      obtain ⟨hv, hr⟩ := h
      subst hv
      subst hr
      have hnum : ∀ lit, v1 ≠ .number lit := hrest.resolve_left (by simp)
      cases extra with
      | nil => simp only [List.append_nil, scanValue, hs]
      | cons c extra =>
        simp only [List.nil_append, scanValue, next_endTop_of_space s v1 b hs hnum c]
        rfl
    · exact absurd h (by simp)
  | cons c input ih =>
    intro s v rest h hrest
    rw [List.cons_append, scanValue]
    rw [scanValue] at h
    cases hs : s.next c with
    | more s1 =>
      rw [hs] at h
      exact ih s1 v rest h hrest
    | endTop v1 consumed =>
      rw [hs] at h
      simp only [Except.ok.injEq, Prod.mk.injEq] at h
      obtain ⟨hv, hr⟩ := h
      subst hv
      rw [← hr]
      cases consumed <;> simp
    | error =>
      rw [hs] at h
      exact absurd h (by simp)

theorem readValue_append_ended (input extra : GoString) (v : Json) (rest : GoString)
    (h : readValue input = .ok (v, rest)) (hrest : rest ≠ [] ∨ ∀ lit, v ≠ .number lit) :
    readValue (input ++ extra) = .ok (v, rest ++ extra) := by
  unfold readValue at h ⊢
  cases hs : scanValue Scanner.init input with
  | error e =>
    rw [hs] at h
    cases e <;> simp only at h <;> first
      | cases h
      | (split_ifs at h)
  | ok r =>
    rw [hs] at h
    simp only [Except.ok.injEq] at h
    subst h
    rw [scanValue_append_ended extra input Scanner.init v rest hs hrest]

/-! ## UTF-8: lemmas -/

/-- The ways `decodeRune` reads a string that begins with a byte outside
ASCII: an invalid byte, or a valid encoding of two, three or four bytes. -/
theorem decodeRune_cases (b : Nat) (rest : GoString) (hb : 0x80 ≤ b) :
    decodeRune (b :: rest) = (runeError, 1) ∨
    (∃ b1 t, rest = b1 :: t ∧ 0xC2 ≤ b ∧ b < 0xE0 ∧ 0x80 ≤ b1 ∧ b1 ≤ 0xBF ∧
      decodeRune (b :: rest) = (b % 32 * 64 + b1 % 64, 2)) ∨
    (∃ b1 b2 t, rest = b1 :: b2 :: t ∧ 0xE0 ≤ b ∧ b < 0xF0 ∧
      (b = 0xE0 → 0xA0 ≤ b1) ∧ (b = 0xED → b1 ≤ 0x9F) ∧ 0x80 ≤ b1 ∧ b1 ≤ 0xBF ∧
      0x80 ≤ b2 ∧ b2 ≤ 0xBF ∧
      decodeRune (b :: rest) = (b % 16 * 4096 + b1 % 64 * 64 + b2 % 64, 3)) ∨
    (∃ b1 b2 b3 t, rest = b1 :: b2 :: b3 :: t ∧ 0xF0 ≤ b ∧ b < 0xF5 ∧
      (b = 0xF0 → 0x90 ≤ b1) ∧ (b = 0xF4 → b1 ≤ 0x8F) ∧ 0x80 ≤ b1 ∧ b1 ≤ 0xBF ∧
      0x80 ≤ b2 ∧ b2 ≤ 0xBF ∧ 0x80 ≤ b3 ∧ b3 ≤ 0xBF ∧
      decodeRune (b :: rest) =
        (b % 8 * 262144 + b1 % 64 * 4096 + b2 % 64 * 64 + b3 % 64, 4)) := by
  have h0 : ¬ b < 0x80 := by omega
  by_cases h1 : b < 0xC2
  · left; simp only [decodeRune, h0, h1, if_false, if_true, Bool.false_eq_true]
  by_cases h2 : b < 0xE0
  · rcases rest with _ | ⟨b1, t⟩
    · left; simp only [decodeRune, h0, h1, h2, if_false, if_true, Bool.false_eq_true]
    · by_cases hc : isCont b1 = true
      · right; left
        refine ⟨b1, t, rfl, by omega, h2, ?_, ?_, ?_⟩
        · simp only [isCont, Bool.and_eq_true, decide_eq_true_eq] at hc; omega
        · simp only [isCont, Bool.and_eq_true, decide_eq_true_eq] at hc; omega
        · simp only [decodeRune, h0, h1, h2, if_false, if_true, Bool.false_eq_true, hc]
      · left; simp only [decodeRune, h0, h1, h2, if_false, if_true, Bool.false_eq_true, hc]
  by_cases h3 : b < 0xF0
  · rcases rest with _ | ⟨b1, _ | ⟨b2, t⟩⟩
    · left; simp only [decodeRune, h0, h1, h2, h3, if_false, if_true, Bool.false_eq_true]
    · left; simp only [decodeRune, h0, h1, h2, h3, if_false, if_true, Bool.false_eq_true]
    · by_cases hr : (if b = 0xE0 then 0xA0 else 0x80) ≤ b1 ∧ b1 ≤ (if b = 0xED then 0x9F else 0xBF)
      · by_cases hc : isCont b2 = true
        · right; right; left
          have hc2 := hc
          simp only [isCont, Bool.and_eq_true, decide_eq_true_eq] at hc2
          refine ⟨b1, b2, t, rfl, by omega, h3, ?_, ?_, ?_, ?_, hc2.1, hc2.2, ?_⟩
          · intro hb0; rw [if_pos hb0] at hr; exact hr.1
          · intro hb0; rw [if_pos hb0] at hr; exact hr.2
          · have := hr.1; split at this <;> omega
          · have := hr.2; split at this <;> omega
          · simp only [decodeRune, h0, h1, h2, h3, if_false, if_true, Bool.false_eq_true, hc, hr, and_self]
        · left; simp only [decodeRune, h0, h1, h2, h3, if_false, if_true, Bool.false_eq_true, hc, hr, and_self]
      · left; simp only [decodeRune, h0, h1, h2, h3, if_false, if_true, Bool.false_eq_true, hr]
  by_cases h4 : b < 0xF5
  · rcases rest with _ | ⟨b1, _ | ⟨b2, _ | ⟨b3, t⟩⟩⟩
    · left; simp only [decodeRune, h0, h1, h2, h3, h4, if_false, if_true, Bool.false_eq_true]
    · left; simp only [decodeRune, h0, h1, h2, h3, h4, if_false, if_true, Bool.false_eq_true]
    · left; simp only [decodeRune, h0, h1, h2, h3, h4, if_false, if_true, Bool.false_eq_true]
    · by_cases hr : (if b = 0xF0 then 0x90 else 0x80) ≤ b1 ∧ b1 ≤ (if b = 0xF4 then 0x8F else 0xBF)
      · by_cases hc : isCont b2 = true
        · by_cases hd : isCont b3 = true
          · right; right; right
            have hc2 := hc
            have hd2 := hd
            simp only [isCont, Bool.and_eq_true, decide_eq_true_eq] at hc2 hd2
            refine ⟨b1, b2, b3, t, rfl, by omega, h4, ?_, ?_, ?_, ?_, hc2.1, hc2.2, hd2.1,
              hd2.2, ?_⟩
            · intro hb0; rw [if_pos hb0] at hr; exact hr.1
            · intro hb0; rw [if_pos hb0] at hr; exact hr.2
            · have := hr.1; split at this <;> omega
            · have := hr.2; split at this <;> omega
            · simp only [decodeRune, h0, h1, h2, h3, h4, if_false, if_true, Bool.false_eq_true, hc, hd, hr, and_self]
          · left
            simp only [decodeRune, h0, h1, h2, h3, h4, if_false, if_true, Bool.false_eq_true, hc, hd, hr, and_self]
        · left; simp only [decodeRune, h0, h1, h2, h3, h4, if_false, if_true, Bool.false_eq_true, hc, hr, and_self]
      · left; simp only [decodeRune, h0, h1, h2, h3, h4, if_false, if_true, Bool.false_eq_true, hr]
  · left; simp only [decodeRune, h0, h1, h2, h3, h4, if_false, if_true, Bool.false_eq_true]

theorem encodeRune_two (b b1 : Nat) (h1 : 0xC2 ≤ b) (h2 : b < 0xE0) (h3 : 0x80 ≤ b1)
    (h4 : b1 ≤ 0xBF) : encodeRune (b % 32 * 64 + b1 % 64) = [b, b1] := by
  unfold encodeRune
  rw [if_neg (by omega), if_pos (by omega)]
  congr 1
  · omega
  · congr 1
    omega

theorem encodeRune_three (b b1 b2 : Nat) (h1 : 0xE0 ≤ b) (h2 : b < 0xF0)
    (hlo : b = 0xE0 → 0xA0 ≤ b1) (hhi : b = 0xED → b1 ≤ 0x9F)
    (h3 : 0x80 ≤ b1) (h4 : b1 ≤ 0xBF) (h5 : 0x80 ≤ b2) (h6 : b2 ≤ 0xBF) :
    encodeRune (b % 16 * 4096 + b1 % 64 * 64 + b2 % 64) = [b, b1, b2] := by
  unfold encodeRune
  have hlo2 : b = 0xE0 ∨ 0xE1 ≤ b := by omega
  have hhi2 : b = 0xED ∨ b < 0xED ∨ 0xEE ≤ b := by omega
  rw [if_neg (by omega), if_neg (by omega), if_neg (by omega), if_pos (by omega)]
  congr 1
  · omega
  · congr 1
    · omega
    · congr 1
      omega

theorem encodeRune_four (b b1 b2 b3 : Nat) (h1 : 0xF0 ≤ b) (h2 : b < 0xF5)
    (hlo : b = 0xF0 → 0x90 ≤ b1) (hhi : b = 0xF4 → b1 ≤ 0x8F)
    (h3 : 0x80 ≤ b1) (h4 : b1 ≤ 0xBF) (h5 : 0x80 ≤ b2) (h6 : b2 ≤ 0xBF)
    (h7 : 0x80 ≤ b3) (h8 : b3 ≤ 0xBF) :
    encodeRune (b % 8 * 262144 + b1 % 64 * 4096 + b2 % 64 * 64 + b3 % 64) = [b, b1, b2, b3] := by
  unfold encodeRune
  have hlo2 : b = 0xF0 ∨ 0xF1 ≤ b := by omega
  have hhi2 : b = 0xF4 ∨ b < 0xF4 := by omega
  rw [if_neg (by omega), if_neg (by omega), if_neg (by omega), if_neg (by omega)]
  congr 1
  · omega
  · congr 1
    · omega
    · congr 1
      · omega
      · congr 1
        omega

theorem decodeRune_two (b b1 : Nat) (t : GoString) (h1 : 0xC2 ≤ b) (h2 : b < 0xE0)
    (h3 : 0x80 ≤ b1) (h4 : b1 ≤ 0xBF) :
    decodeRune (b :: b1 :: t) = (b % 32 * 64 + b1 % 64, 2) := by
  have hc : isCont b1 = true := by
    simp only [isCont, Bool.and_eq_true, decide_eq_true_eq]; omega
  simp only [decodeRune, show ¬ b < 0x80 by omega, show ¬ b < 0xC2 by omega, h2, hc, if_false,
    if_true]

theorem decodeRune_three (b b1 b2 : Nat) (t : GoString) (h1 : 0xE0 ≤ b) (h2 : b < 0xF0)
    (hlo : b = 0xE0 → 0xA0 ≤ b1) (hhi : b = 0xED → b1 ≤ 0x9F)
    (h3 : 0x80 ≤ b1) (h4 : b1 ≤ 0xBF) (h5 : 0x80 ≤ b2) (h6 : b2 ≤ 0xBF) :
    decodeRune (b :: b1 :: b2 :: t) = (b % 16 * 4096 + b1 % 64 * 64 + b2 % 64, 3) := by
  have hc : isCont b2 = true := by
    simp only [isCont, Bool.and_eq_true, decide_eq_true_eq]; omega
  have hr : (if b = 0xE0 then 0xA0 else 0x80) ≤ b1 ∧ b1 ≤ (if b = 0xED then 0x9F else 0xBF) := by
    constructor
    · split
      · rename_i h; exact hlo h
      · exact h3
    · split
      · rename_i h; exact hhi h
      · exact h4
  simp only [decodeRune, show ¬ b < 0x80 by omega, show ¬ b < 0xC2 by omega,
    show ¬ b < 0xE0 by omega, h2, hc, hr, and_self, if_false, if_true]

theorem decodeRune_four (b b1 b2 b3 : Nat) (t : GoString) (h1 : 0xF0 ≤ b) (h2 : b < 0xF5)
    (hlo : b = 0xF0 → 0x90 ≤ b1) (hhi : b = 0xF4 → b1 ≤ 0x8F)
    (h3 : 0x80 ≤ b1) (h4 : b1 ≤ 0xBF) (h5 : 0x80 ≤ b2) (h6 : b2 ≤ 0xBF)
    (h7 : 0x80 ≤ b3) (h8 : b3 ≤ 0xBF) :
    decodeRune (b :: b1 :: b2 :: b3 :: t) =
      (b % 8 * 262144 + b1 % 64 * 4096 + b2 % 64 * 64 + b3 % 64, 4) := by
  have hc : isCont b2 = true := by
    simp only [isCont, Bool.and_eq_true, decide_eq_true_eq]; omega
  have hd : isCont b3 = true := by
    simp only [isCont, Bool.and_eq_true, decide_eq_true_eq]; omega
  have hr : (if b = 0xF0 then 0x90 else 0x80) ≤ b1 ∧ b1 ≤ (if b = 0xF4 then 0x8F else 0xBF) := by
    constructor
    · split
      · rename_i h; exact hlo h
      · exact h3
    · split
      · rename_i h; exact hhi h
      · exact h4
  simp only [decodeRune, show ¬ b < 0x80 by omega, show ¬ b < 0xC2 by omega,
    show ¬ b < 0xE0 by omega, show ¬ b < 0xF0 by omega, h2, hc, hd, hr, and_self, if_false,
    if_true]

/-- A valid encoding at the head of a string: the string splits into the
encoding `u` and the rest `t`; `u` has the width that `decodeRune` reports and
no ASCII byte, `encodeRune` writes `u` again, and `decodeRune` reads `u` the
same way whatever follows it. -/
theorem decodeRune_valid (b : Nat) (rest : GoString) (hb : 0x80 ≤ b)
    (hv : ¬ ((decodeRune (b :: rest)).1 = runeError ∧ (decodeRune (b :: rest)).2 = 1)) :
    ∃ u t, b :: rest = u ++ t ∧ u.length = (decodeRune (b :: rest)).2 ∧
      2 ≤ u.length ∧ (b :: rest).take (decodeRune (b :: rest)).2 = u ∧
      rest.drop ((decodeRune (b :: rest)).2 - 1) = t ∧
      (∀ x ∈ u, 0x80 ≤ x) ∧
      encodeRune (decodeRune (b :: rest)).1 = u ∧
      0x80 ≤ (decodeRune (b :: rest)).1 ∧
      ∀ t2, decodeRune (u ++ t2) = decodeRune (b :: rest) := by
  rcases decodeRune_cases b rest hb with h | ⟨b1, t, rfl, h1, h2, h3, h4, h⟩ |
      ⟨b1, b2, t, rfl, h1, h2, hlo, hhi, h3, h4, h5, h6, h⟩ |
      ⟨b1, b2, b3, t, rfl, h1, h2, hlo, hhi, h3, h4, h5, h6, h7, h8, h⟩
  · exact absurd (by rw [h]; exact ⟨rfl, rfl⟩) hv
  · refine ⟨[b, b1], t, rfl, by rw [h]; rfl, by simp, by rw [h]; rfl, by rw [h]; rfl, ?_, ?_, ?_, ?_⟩
    · intro x hx
      simp only [List.mem_cons, List.mem_singleton, List.not_mem_nil, or_false] at hx
      rcases hx with rfl | rfl <;> omega
    · rw [h]; exact encodeRune_two b b1 h1 h2 h3 h4
    · rw [h]; show 0x80 ≤ b % 32 * 64 + b1 % 64; omega
    · intro t2; rw [h]; exact decodeRune_two b b1 t2 h1 h2 h3 h4
  · refine ⟨[b, b1, b2], t, rfl, by rw [h]; rfl, by simp, by rw [h]; rfl, by rw [h]; rfl,
      ?_, ?_, ?_, ?_⟩
    · intro x hx
      simp only [List.mem_cons, List.mem_singleton, List.not_mem_nil, or_false] at hx
      rcases hx with rfl | rfl | rfl <;> omega
    · rw [h]; exact encodeRune_three b b1 b2 h1 h2 hlo hhi h3 h4 h5 h6
    · rw [h]; show 0x80 ≤ b % 16 * 4096 + b1 % 64 * 64 + b2 % 64
      have : b = 0xE0 ∨ 0xE1 ≤ b := by omega
      omega
    · intro t2; rw [h]; exact decodeRune_three b b1 b2 t2 h1 h2 hlo hhi h3 h4 h5 h6
  · refine ⟨[b, b1, b2, b3], t, rfl, by rw [h]; rfl, by simp, by rw [h]; rfl, by rw [h]; rfl,
      ?_, ?_, ?_, ?_⟩
    · intro x hx
      simp only [List.mem_cons, List.mem_singleton, List.not_mem_nil, or_false] at hx
      rcases hx with rfl | rfl | rfl | rfl <;> omega
    · rw [h]; exact encodeRune_four b b1 b2 b3 h1 h2 hlo hhi h3 h4 h5 h6 h7 h8
    · rw [h]; show 0x80 ≤ b % 8 * 262144 + b1 % 64 * 4096 + b2 % 64 * 64 + b3 % 64
      have : b = 0xF0 ∨ 0xF1 ≤ b := by omega
      omega
    · intro t2; rw [h]; exact decodeRune_four b b1 b2 b3 t2 h1 h2 hlo hhi h3 h4 h5 h6 h7 h8

/-- Induction over a string rune by rune, as `decodeRune` splits it: an ASCII
byte, an invalid byte, or a valid encoding `u` of several bytes. -/
theorem rune_induction (P : GoString → Prop) (hnil : P [])
    (hascii : ∀ b rest, b < 0x80 → P rest → P (b :: rest))
    (hinvalid : ∀ b rest, 0x80 ≤ b →
      ((decodeRune (b :: rest)).1 = runeError ∧ (decodeRune (b :: rest)).2 = 1) →
      P rest → P (b :: rest))
    (hvalid : ∀ b rest u t, 0x80 ≤ b →
      ¬ ((decodeRune (b :: rest)).1 = runeError ∧ (decodeRune (b :: rest)).2 = 1) →
      b :: rest = u ++ t → u.length = (decodeRune (b :: rest)).2 → 2 ≤ u.length →
      (b :: rest).take (decodeRune (b :: rest)).2 = u →
      rest.drop ((decodeRune (b :: rest)).2 - 1) = t →
      (∀ x ∈ u, 0x80 ≤ x) →
      encodeRune (decodeRune (b :: rest)).1 = u →
      (∀ t2, decodeRune (u ++ t2) = decodeRune (b :: rest)) →
      P t → P (b :: rest))
    (s : GoString) : P s := by
  have key : ∀ n (s : GoString), s.length ≤ n → P s := by
    intro n
    induction n with
    | zero =>
      intro s hs
      have : s = [] := List.eq_nil_of_length_eq_zero (by omega)
      rw [this]; exact hnil
    | succ n ih =>
      intro s hs
      rcases s with _ | ⟨b, rest⟩
      · exact hnil
      · simp only [List.length_cons] at hs
        by_cases hb : b < 0x80
        · exact hascii b rest hb (ih rest (by omega))
        · by_cases hv : (decodeRune (b :: rest)).1 = runeError ∧ (decodeRune (b :: rest)).2 = 1
          · exact hinvalid b rest (by omega) hv (ih rest (by omega))
          · obtain ⟨u, t, h1, h2, h3, h4, h5, h6, h7, -, h9⟩ :=
              decodeRune_valid b rest (by omega) hv
            refine hvalid b rest u t (by omega) hv h1 h2 h3 h4 h5 h6 h7 h9 (ih t ?_)
            have := congrArg List.length h1
            simp only [List.length_cons, List.length_append] at this
            omega
  exact key s.length s (le_refl _)

/-! ## The encoder of strings: lemmas -/

theorem escapeFrom_nil (e : Bool) (n : Nat) : escapeFrom e n [] = [] := by
  cases n <;> simp [escapeFrom, escapeUnits]

theorem escapeFrom_ascii (e : Bool) (n : Nat) (b : Nat) (rest : GoString) (hb : b < 0x80) :
    escapeFrom e (n + 1) (b :: rest) =
      (if htmlSafeSet b || (!e && safeSet b) then [b] else escapeByte b)
        ++ escapeFrom e n rest := by
  simp only [escapeFrom, escapeUnits, hb, if_true, List.flatten_cons]

theorem escapeFrom_invalid (e : Bool) (n : Nat) (b : Nat) (rest : GoString) (hb : 0x80 ≤ b)
    (hv : (decodeRune (b :: rest)).1 = runeError ∧ (decodeRune (b :: rest)).2 = 1) :
    escapeFrom e (n + 1) (b :: rest) = [92, 117, 102, 102, 102, 100] ++ escapeFrom e n rest := by
  simp only [escapeFrom, escapeUnits, show ¬ b < 0x80 by omega, if_false, hv, and_self, if_true,
    List.flatten_cons]

theorem escapeFrom_valid (e : Bool) (n : Nat) (b : Nat) (rest u t : GoString) (hb : 0x80 ≤ b)
    (hv : ¬ ((decodeRune (b :: rest)).1 = runeError ∧ (decodeRune (b :: rest)).2 = 1))
    (hu : (b :: rest).take (decodeRune (b :: rest)).2 = u)
    (ht : rest.drop ((decodeRune (b :: rest)).2 - 1) = t) :
    escapeFrom e (n + 1) (b :: rest) =
      (if (decodeRune (b :: rest)).1 = 0x2028 ∨ (decodeRune (b :: rest)).1 = 0x2029 then
        [92, 117, 50, 48, 50, hexDigit ((decodeRune (b :: rest)).1 % 16)]
       else u) ++ escapeFrom e n t := by
  simp only [escapeFrom, escapeUnits, show ¬ b < 0x80 by omega, if_false, hv, hu, ht]
  split <;> simp only [List.flatten_cons]

theorem coerceUTF8From_nil (n : Nat) : coerceUTF8From n [] = [] := by
  cases n <;> simp [coerceUTF8From]

/-! ## The scanner inside a string literal: lemmas -/

theorem scanValue_inString_plain (ps : List Frame) (lit : GoString) (top : Option Json)
    (c : Nat) (rest : GoString) (h1 : c ≠ 34) (h2 : c ≠ 92) (h3 : ¬ c < 32) :
    scanValue ⟨.inString, ps, lit, top⟩ (c :: rest) =
      scanValue ⟨.inString, ps, lit ++ [c], top⟩ rest := by
  simp only [scanValue, Scanner.next, h1, h2, h3, if_false]

theorem scanValue_inString_plains (ps : List Frame) (top : Option Json)
    (u : GoString) (hu : ∀ c ∈ u, c ≠ 34 ∧ c ≠ 92 ∧ ¬ c < 32) (lit rest : GoString) :
    scanValue ⟨.inString, ps, lit, top⟩ (u ++ rest) =
      scanValue ⟨.inString, ps, lit ++ u, top⟩ rest := by
  induction u generalizing lit with
  | nil => simp
  | cons c u ih =>
    have hc := hu c (List.mem_cons_self _ _)
    rw [List.cons_append, scanValue_inString_plain ps lit top c _ hc.1 hc.2.1 hc.2.2,
      ih (fun x hx => hu x (List.mem_cons_of_mem _ hx))]
    simp

theorem isHex_hexDigit (n : Nat) (h : n < 16) : isHex (hexDigit n) = true := by
  unfold isHex hexDigit
  split <;> simp <;> omega

theorem hexVal_hexDigit (n : Nat) (h : n < 16) : hexVal (hexDigit n) = some n := by
  unfold hexVal hexDigit
  split
  · rw [if_pos (by omega)]; congr 1; omega
  · rw [if_neg (by omega), if_pos (by omega)]; congr 1; omega

theorem scanValue_inString_esc2 (ps : List Frame) (lit : GoString) (top : Option Json)
    (x : Nat) (rest : GoString)
    (hx : x = 98 ∨ x = 102 ∨ x = 110 ∨ x = 114 ∨ x = 116 ∨ x = 92 ∨ x = 47 ∨ x = 34) :
    scanValue ⟨.inString, ps, lit, top⟩ (92 :: x :: rest) =
      scanValue ⟨.inString, ps, lit ++ [92, x], top⟩ rest := by
  simp only [scanValue, Scanner.next, hx, if_true, List.append_assoc, List.singleton_append]
  simp

theorem scanValue_inString_escU (ps : List Frame) (lit : GoString) (top : Option Json)
    (a b c d : Nat) (rest : GoString) (ha : isHex a = true) (hb : isHex b = true)
    (hc : isHex c = true) (hd : isHex d = true) :
    scanValue ⟨.inString, ps, lit, top⟩ (92 :: 117 :: a :: b :: c :: d :: rest) =
      scanValue ⟨.inString, ps, lit ++ [92, 117, a, b, c, d], top⟩ rest := by
  simp only [scanValue, Scanner.next, ha, hb, hc, hd, if_true, List.append_assoc,
    List.singleton_append]
  simp

/-- What `appendString` writes for an ASCII byte when HTML is not escaped. -/
theorem escapeFrom_ascii_false (n : Nat) (b : Nat) (rest : GoString) (hb : b < 0x80) :
    escapeFrom false (n + 1) (b :: rest) =
      (if safeSet b then [b] else escapeByte b) ++ escapeFrom false n rest := by
  rw [escapeFrom_ascii false n b rest hb]
  have : (htmlSafeSet b || (!false && safeSet b)) = safeSet b := by
    simp only [htmlSafeSet, Bool.not_false, Bool.true_and]
    cases safeSet b <;> simp
  rw [this]

theorem safeSet_iff (b : Nat) : safeSet b = true ↔ 32 ≤ b ∧ b < 128 ∧ b ≠ 34 ∧ b ≠ 92 := by
  simp [safeSet, and_assoc]

theorem scanValue_inString_asciiUnit (ps : List Frame) (lit : GoString) (top : Option Json)
    (b : Nat) (rest : GoString) (hb : b < 0x80) :
    scanValue ⟨.inString, ps, lit, top⟩ ((if safeSet b then [b] else escapeByte b) ++ rest) =
      scanValue ⟨.inString, ps, lit ++ (if safeSet b then [b] else escapeByte b), top⟩ rest := by
  by_cases hs : safeSet b = true
  · have h := (safeSet_iff b).1 hs
    rw [if_pos hs]
    exact scanValue_inString_plain ps lit top b rest h.2.2.1 h.2.2.2 (by omega)
  · rw [if_neg hs]
    have h : b = 34 ∨ b = 92 ∨ b < 32 := by
      by_contra hc
      exact hs ((safeSet_iff b).2 (by omega))
    rcases h with rfl | rfl | h
    · exact scanValue_inString_esc2 ps lit top 34 rest (by simp)
    · exact scanValue_inString_esc2 ps lit top 92 rest (by simp)
    · by_cases h8 : b = 8 ∨ b = 12 ∨ b = 10 ∨ b = 13 ∨ b = 9
      · rcases h8 with rfl | rfl | rfl | rfl | rfl
        · exact scanValue_inString_esc2 ps lit top 98 rest (by simp)
        · exact scanValue_inString_esc2 ps lit top 102 rest (by simp)
        · exact scanValue_inString_esc2 ps lit top 110 rest (by simp)
        · exact scanValue_inString_esc2 ps lit top 114 rest (by simp)
        · exact scanValue_inString_esc2 ps lit top 116 rest (by simp)
      · have he : escapeByte b = [92, 117, 48, 48, hexDigit (b / 16), hexDigit (b % 16)] := by
          unfold escapeByte
          rw [if_neg (by omega), if_neg (by omega), if_neg (by omega), if_neg (by omega),
            if_neg (by omega), if_neg (by omega)]
        rw [he]
        exact scanValue_inString_escU ps lit top 48 48 _ _ rest (by decide) (by decide)
          (isHex_hexDigit _ (by omega)) (isHex_hexDigit _ (by omega))

/-- The scanner reads what `appendString` writes between the quotes as the
text of a string literal, and stays inside the literal. -/
theorem scanValue_inString_escapeFrom (ps : List Frame) (top : Option Json) (s : GoString) :
    ∀ n, s.length ≤ n → ∀ lit rest,
      scanValue ⟨.inString, ps, lit, top⟩ (escapeFrom false n s ++ rest) =
        scanValue ⟨.inString, ps, lit ++ escapeFrom false n s, top⟩ rest := by
  induction s using rune_induction with
  | hnil => intro n _ lit rest; simp [escapeFrom_nil]
  | hascii b tl hb ih =>
    intro n hn lit rest
    obtain ⟨m, rfl⟩ : ∃ m, n = m + 1 := ⟨n - 1, by simp only [List.length_cons] at hn; omega⟩
    simp only [List.length_cons, Nat.add_le_add_iff_right] at hn
    rw [escapeFrom_ascii_false m b tl hb, List.append_assoc,
      scanValue_inString_asciiUnit ps lit top b _ hb, ih m hn, List.append_assoc]
  | hinvalid b tl hb hv ih =>
    intro n hn lit rest
    obtain ⟨m, rfl⟩ : ∃ m, n = m + 1 := ⟨n - 1, by simp only [List.length_cons] at hn; omega⟩
    simp only [List.length_cons, Nat.add_le_add_iff_right] at hn
    rw [escapeFrom_invalid false m b tl hb hv, List.append_assoc]
    have := scanValue_inString_escU ps lit top 102 102 102 100 (escapeFrom false m tl ++ rest)
      (by decide) (by decide) (by decide) (by decide)
    simp only [List.cons_append, List.nil_append] at this ⊢
    rw [this, ih m hn]
    simp
  | hvalid b tl u t hb hv hsplit hlen h2 hu ht hhigh henc hdec ih =>
    intro n hn lit rest
    obtain ⟨m, rfl⟩ : ∃ m, n = m + 1 := ⟨n - 1, by simp only [List.length_cons] at hn; omega⟩
    have hlt : t.length ≤ m := by
      have := congrArg List.length hsplit
      simp only [List.length_cons, List.length_append] at this hn
      omega
    rw [escapeFrom_valid false m b tl u t hb hv hu ht, List.append_assoc]
    split
    · have := scanValue_inString_escU ps lit top 50 48 50
        (hexDigit ((decodeRune (b :: tl)).1 % 16)) (escapeFrom false m t ++ rest)
        (by decide) (by decide) (by decide) (isHex_hexDigit _ (by omega))
      simp only [List.cons_append, List.nil_append] at this ⊢
      rw [this, ih m hlt]
      simp
    · rw [scanValue_inString_plains ps top u (fun c hc => by
        have := hhigh c hc
        exact ⟨by omega, by omega, by omega⟩), ih m hlt, List.append_assoc]

/-! ## Unquoting what the encoder wrote: lemmas -/

theorem unquoteFrom_plain (m : Nat) (c : Nat) (X : GoString) (h1 : c ≠ 92) (h2 : c ≠ 34)
    (h3 : ¬ c < 32) (h4 : c < 0x80) :
    unquoteFrom (m + 1) (c :: X) = (unquoteFrom m X).map (fun t => c :: t) := by
  simp only [unquoteFrom, h1, h2, h3, h4, if_false, if_true, or_self]

theorem unquoteFrom_escU (m : Nat) (a b c d va vb vc vd : Nat) (X : GoString)
    (ha : hexVal a = some va) (hb : hexVal b = some vb) (hc : hexVal c = some vc)
    (hd : hexVal d = some vd)
    (hns : ¬ (0xD800 ≤ ((va * 16 + vb) * 16 + vc) * 16 + vd ∧
      ((va * 16 + vb) * 16 + vc) * 16 + vd < 0xE000)) :
    unquoteFrom (m + 1) (92 :: 117 :: a :: b :: c :: d :: X) =
      (unquoteFrom m X).map (fun t => encodeRune (((va * 16 + vb) * 16 + vc) * 16 + vd) ++ t) := by
  simp only [unquoteFrom, getu4, ha, hb, hc, hd, hns, if_false, if_true]
  simp

theorem unquoteFrom_asciiUnit (m : Nat) (b : Nat) (X : GoString) (hb : b < 0x80) :
    unquoteFrom (m + 1) ((if safeSet b then [b] else escapeByte b) ++ X) =
      (unquoteFrom m X).map (fun t => b :: t) := by
  by_cases hs : safeSet b = true
  · have h := (safeSet_iff b).1 hs
    rw [if_pos hs]
    exact unquoteFrom_plain m b X h.2.2.2 h.2.2.1 (by omega) hb
  · rw [if_neg hs]
    have h : b = 34 ∨ b = 92 ∨ b < 32 := by
      by_contra hc
      exact hs ((safeSet_iff b).2 (by omega))
    rcases h with rfl | rfl | h
    · simp [escapeByte, unquoteFrom]
    · simp [escapeByte, unquoteFrom]
    · by_cases h8 : b = 8 ∨ b = 12 ∨ b = 10 ∨ b = 13 ∨ b = 9
      · rcases h8 with rfl | rfl | rfl | rfl | rfl <;> simp [escapeByte, unquoteFrom]
      · have he : escapeByte b = [92, 117, 48, 48, hexDigit (b / 16), hexDigit (b % 16)] := by
          unfold escapeByte
          rw [if_neg (by omega), if_neg (by omega), if_neg (by omega), if_neg (by omega),
            if_neg (by omega), if_neg (by omega)]
        rw [he]
        have := unquoteFrom_escU m 48 48 (hexDigit (b / 16)) (hexDigit (b % 16)) 0 0 (b / 16)
          (b % 16) X (by decide) (by decide) (hexVal_hexDigit _ (by omega))
          (hexVal_hexDigit _ (by omega)) (by omega)
        simp only [List.cons_append, List.nil_append]
        rw [this]
        have hval : ((0 * 16 + 0) * 16 + b / 16) * 16 + b % 16 = b := by omega
        have henc : encodeRune b = [b] := by
          unfold encodeRune
          rw [if_pos (by omega)]
        rw [hval, henc]
        rfl

theorem unquoteFrom_multi (m : Nat) (b : Nat) (X : GoString) (hb : 0x80 ≤ b) :
    unquoteFrom (m + 1) (b :: X) =
      (unquoteFrom m (X.drop ((decodeRune (b :: X)).2 - 1))).map (fun t =>
        encodeRune (decodeRune (b :: X)).1 ++ t) := by
  simp only [unquoteFrom, show b ≠ 92 by omega, show ¬ (b = 34 ∨ b < 32) by omega,
    show ¬ b < 0x80 by omega, if_false]

theorem unquoteFrom_nil (m : Nat) : unquoteFrom m [] = some [] := by
  cases m <;> simp [unquoteFrom]

/-- Unquoting what `appendString` wrote between the quotes gives the string
back, coerced to valid UTF-8. -/
theorem unquoteFrom_escapeFrom (s : GoString) :
    ∀ n, s.length ≤ n → ∀ m, (escapeFrom false n s).length ≤ m →
      unquoteFrom m (escapeFrom false n s) = some (coerceUTF8From n s) := by
  induction s using rune_induction with
  | hnil => intro n _ m _; simp [escapeFrom_nil, unquoteFrom_nil, coerceUTF8From_nil]
  | hascii b tl hb ih =>
    intro n hn m hm
    obtain ⟨n, rfl⟩ : ∃ k, n = k + 1 := ⟨n - 1, by simp only [List.length_cons] at hn; omega⟩
    simp only [List.length_cons, Nat.add_le_add_iff_right] at hn
    rw [escapeFrom_ascii_false n b tl hb] at hm ⊢
    have hunit : 1 ≤ (if safeSet b then [b] else escapeByte b).length := by
      split
      · simp
      · unfold escapeByte; split_ifs <;> simp
    obtain ⟨m, rfl⟩ : ∃ k, m = k + 1 := ⟨m - 1, by
      simp only [List.length_append] at hm; omega⟩
    rw [unquoteFrom_asciiUnit m b _ hb, ih n hn m (by
      simp only [List.length_append] at hm; omega)]
    simp [coerceUTF8From, hb]
  | hinvalid b tl hb hv ih =>
    intro n hn m hm
    obtain ⟨n, rfl⟩ : ∃ k, n = k + 1 := ⟨n - 1, by simp only [List.length_cons] at hn; omega⟩
    simp only [List.length_cons, Nat.add_le_add_iff_right] at hn
    rw [escapeFrom_invalid false n b tl hb hv] at hm ⊢
    obtain ⟨m, rfl⟩ : ∃ k, m = k + 1 := ⟨m - 1, by
      simp only [List.length_append, List.length_cons] at hm; omega⟩
    have := unquoteFrom_escU m 102 102 102 100 15 15 15 13 (escapeFrom false n tl)
      (by decide) (by decide) (by decide) (by decide) (by decide)
    simp only [List.cons_append, List.nil_append]
    rw [this, ih n hn m (by
      simp only [List.length_append, List.length_cons, List.length_nil] at hm; omega)]
    have henc : encodeRune (((15 * 16 + 15) * 16 + 15) * 16 + 13) = [0xEF, 0xBF, 0xBD] := by
      decide
    rw [henc]
    simp [coerceUTF8From, show ¬ b < 128 by omega, hv]
  | hvalid b tl u t hb hv hsplit hlen h2 hu ht hhigh henc hdec ih =>
    intro n hn m hm
    obtain ⟨n, rfl⟩ : ∃ k, n = k + 1 := ⟨n - 1, by simp only [List.length_cons] at hn; omega⟩
    have hlt : t.length ≤ n := by
      have := congrArg List.length hsplit
      simp only [List.length_cons, List.length_append] at this hn
      omega
    have hco : coerceUTF8From (n + 1) (b :: tl) = u ++ coerceUTF8From n t := by
      simp only [coerceUTF8From, show ¬ b < 0x80 by omega, hv, if_false, hu, ht]
    rw [escapeFrom_valid false n b tl u t hb hv hu ht] at hm ⊢
    rw [hco]
    split at hm
    · rename_i hsep
      rw [if_pos hsep]
      obtain ⟨m, rfl⟩ : ∃ k, m = k + 1 := ⟨m - 1, by
        simp only [List.length_append, List.length_cons] at hm; omega⟩
      have hmod : (decodeRune (b :: tl)).1 % 16 = 8 ∨ (decodeRune (b :: tl)).1 % 16 = 9 := by
        rcases hsep with h | h <;> rw [h] <;> simp
      have := unquoteFrom_escU m 50 48 50 (hexDigit ((decodeRune (b :: tl)).1 % 16)) 2 0 2
        ((decodeRune (b :: tl)).1 % 16) (escapeFrom false n t)
        (by decide) (by decide) (by decide) (hexVal_hexDigit _ (by omega)) (by omega)
      simp only [List.cons_append, List.nil_append]
      rw [this, ih n hlt m (by
        simp only [List.length_append, List.length_cons, List.length_nil] at hm; omega)]
      have hval : ((2 * 16 + 0) * 16 + 2) * 16 + (decodeRune (b :: tl)).1 % 16 =
          (decodeRune (b :: tl)).1 := by
        rcases hsep with h | h <;> rw [h]
      rw [hval, henc]
      rfl
    · rename_i hsep
      rw [if_neg hsep]
      obtain ⟨u1, rfl⟩ : ∃ u1, u = b :: u1 := by
        rcases u with _ | ⟨x, u1⟩
        · simp at h2
        · simp only [List.cons_append, List.cons.injEq] at hsplit
          exact ⟨u1, by rw [hsplit.1]⟩
      obtain ⟨m, rfl⟩ : ∃ k, m = k + 1 := ⟨m - 1, by
        simp only [List.length_append, List.length_cons] at hm; omega⟩
      have hd := hdec (escapeFrom false n t)
      simp only [List.cons_append] at hd ⊢
      rw [unquoteFrom_multi m b _ hb, hd]
      have hdrop : (u1 ++ escapeFrom false n t).drop ((decodeRune (b :: tl)).2 - 1) =
          escapeFrom false n t := by
        have : (decodeRune (b :: tl)).2 - 1 = u1.length := by
          simp only [List.length_cons] at hlen; omega
        rw [this, List.drop_left]
      rw [hdrop, ih n hlt m (by
        simp only [List.length_append, List.length_cons] at hm; omega), henc]
      rfl

theorem coerceUTF8From_of_valid (s : GoString) :
    ∀ n, s.length ≤ n → utf8ValidFrom n s = true → coerceUTF8From n s = s := by
  induction s using rune_induction with
  | hnil => intro n _ _; exact coerceUTF8From_nil n
  | hascii b tl hb ih =>
    intro n hn hv
    obtain ⟨n, rfl⟩ : ∃ k, n = k + 1 := ⟨n - 1, by simp only [List.length_cons] at hn; omega⟩
    simp only [List.length_cons, Nat.add_le_add_iff_right] at hn
    simp only [utf8ValidFrom, hb, if_true] at hv
    simp only [coerceUTF8From, hb, if_true, ih n hn hv]
  | hinvalid b tl hb hv ih =>
    intro n hn hval
    obtain ⟨n, rfl⟩ : ∃ k, n = k + 1 := ⟨n - 1, by simp only [List.length_cons] at hn; omega⟩
    simp [utf8ValidFrom, show ¬ b < 128 by omega, hv] at hval
  | hvalid b tl u t hb hv hsplit hlen h2 hu ht hhigh henc hdec ih =>
    intro n hn hval
    obtain ⟨n, rfl⟩ : ∃ k, n = k + 1 := ⟨n - 1, by simp only [List.length_cons] at hn; omega⟩
    have hlt : t.length ≤ n := by
      have := congrArg List.length hsplit
      simp only [List.length_cons, List.length_append] at this hn
      omega
    simp only [utf8ValidFrom, show ¬ b < 0x80 by omega, hv, if_false, ht] at hval
    simp only [coerceUTF8From, show ¬ b < 0x80 by omega, hv, if_false, hu, ht, ih n hlt hval]
    exact hsplit.symm

theorem coerceUTF8_of_valid (s : GoString) (h : utf8Valid s = true) : coerceUTF8 s = s :=
  coerceUTF8From_of_valid s s.length (le_refl _) h

/-! ## The scanner on the text of the encoder: lemmas -/

theorem unquoteBytes_quote (rest : GoString) :
    unquoteBytes (34 :: rest) =
      if rest.getLast? = some 34 then unquoteFrom rest.length rest.dropLast else none := by
  simp only [unquoteBytes]

theorem unquoteBytes_appendString (s : GoString) :
    unquoteBytes (appendString false s) = some (coerceUTF8 s) := by
  have h := unquoteFrom_escapeFrom s s.length (le_refl _)
    ((escapeFrom false s.length s).length + 1) (by omega)
  have happ : appendString false s = 34 :: (escapeFrom false s.length s ++ [34]) := by
    simp [appendString]
  rw [happ, unquoteBytes_quote, if_pos (by simp), List.dropLast_concat]
  simp only [List.length_append, List.length_singleton]
  exact h

/-- The scanner, having read the opening quote, reads the rest of a string
literal that `appendString` wrote and hands over the string, coerced to valid
UTF-8. -/
theorem scanValue_string_tail (ps : List Frame) (top : Option Json) (s rest : GoString)
    (s1 : Scanner)
    (hemit : Scanner.emit ⟨.inString, ps, [], top⟩ (.string (coerceUTF8 s)) = some s1) :
    scanValue ⟨.inString, ps, [34], top⟩ (escapeFrom false s.length s ++ 34 :: rest) =
      scanValue s1 rest := by
  rw [scanValue_inString_escapeFrom ps top s s.length (le_refl _)]
  have hu : unquoteBytes ([34] ++ escapeFrom false s.length s ++ [34]) = some (coerceUTF8 s) :=
    unquoteBytes_appendString s
  have hemit2 : Scanner.emit ⟨.inString, ps, [34] ++ escapeFrom false s.length s, top⟩
      (.string (coerceUTF8 s)) = some s1 := by
    rw [← hemit]; rfl
  simp only [scanValue, Scanner.next, if_true, hu, endLiteral, hemit2]

theorem scanValue_key_first (ms : List (GoString × Json)) (ps : List Frame) (l : GoString)
    (top : Option Json) (k rest : GoString) :
    scanValue ⟨.beginStringOrEmpty, .objectKey ms none :: ps, l, top⟩
        (appendString false k ++ 58 :: rest) =
      scanValue ⟨.beginValue, .objectValue ms (some (coerceUTF8 k)) :: ps, [], top⟩ rest := by
  have h := scanValue_string_tail (.objectKey ms none :: ps) top k (58 :: rest)
    ⟨.endValue, .objectKey ms (some (coerceUTF8 k)) :: ps, [], top⟩ rfl
  simp only [appendString, List.singleton_append, List.cons_append, List.append_assoc,
    List.nil_append]
  rw [scanValue]
  simp only [Scanner.next, isSpace, stateBeginString]
  simp only [Nat.reduceEqDiff, decide_False, Bool.or_self, Bool.false_eq_true, if_false, if_true]
  rw [h, scanValue]
  simp only [Scanner.next, stateEndValue, isSpace]
  simp only [Nat.reduceEqDiff, decide_False, Bool.or_self, Bool.false_eq_true, if_false, if_true]

theorem scanValue_key_next (ms : List (GoString × Json)) (ps : List Frame) (l : GoString)
    (top : Option Json) (k rest : GoString) :
    scanValue ⟨.endValue, .objectValue ms none :: ps, l, top⟩
        (44 :: (appendString false k ++ 58 :: rest)) =
      scanValue ⟨.beginValue, .objectValue ms (some (coerceUTF8 k)) :: ps, [], top⟩ rest := by
  have h := scanValue_string_tail (.objectKey ms none :: ps) top k (58 :: rest)
    ⟨.endValue, .objectKey ms (some (coerceUTF8 k)) :: ps, [], top⟩ rfl
  simp only [appendString, List.singleton_append, List.cons_append, List.append_assoc,
    List.nil_append]
  rw [scanValue]
  simp only [Scanner.next, stateEndValue, isSpace]
  simp only [Nat.reduceEqDiff, decide_False, Bool.or_self, Bool.false_eq_true, if_false, if_true]
  rw [scanValue]
  simp only [Scanner.next, isSpace, stateBeginString]
  simp only [Nat.reduceEqDiff, decide_False, Bool.or_self, Bool.false_eq_true, if_false, if_true]
  rw [h, scanValue]
  simp only [Scanner.next, stateEndValue, isSpace]
  simp only [Nat.reduceEqDiff, decide_False, Bool.or_self, Bool.false_eq_true, if_false, if_true]

theorem scanValue_value_string (ms : List (GoString × Json)) (k : GoString) (ps : List Frame)
    (l : GoString) (top : Option Json) (v rest : GoString) :
    scanValue ⟨.beginValue, .objectValue ms (some k) :: ps, l, top⟩
        (appendString false v ++ rest) =
      scanValue ⟨.endValue, .objectValue (ms ++ [(k, .string (coerceUTF8 v))]) none :: ps, [],
        top⟩ rest := by
  have h := scanValue_string_tail (.objectValue ms (some k) :: ps) top v rest
    ⟨.endValue, .objectValue (ms ++ [(k, Json.string (coerceUTF8 v))]) none :: ps, [], top⟩ rfl
  simp only [appendString, List.singleton_append, List.cons_append, List.append_assoc,
    List.nil_append]
  rw [scanValue]
  simp only [Scanner.next, isSpace, stateBeginValue]
  simp only [Nat.reduceEqDiff, decide_False, Bool.or_self, Bool.false_eq_true, if_false, if_true]
  rw [h]

theorem scanValue_value_null (ms : List (GoString × Json)) (k : GoString) (ps : List Frame)
    (l : GoString) (top : Option Json) (rest : GoString) :
    scanValue ⟨.beginValue, .objectValue ms (some k) :: ps, l, top⟩
        (110 :: 117 :: 108 :: 108 :: rest) =
      scanValue ⟨.endValue, .objectValue (ms ++ [(k, .null)]) none :: ps, [], top⟩ rest := by
  simp only [scanValue, Scanner.next, isSpace, stateBeginValue, letter, endLiteral, Scanner.emit]
  simp

theorem scanValue_entries (ps : List Frame) (top : Option Json) (es : StringMap) :
    ∀ (acc : List (GoString × Json)) (rest : GoString),
      scanValue ⟨.endValue, .objectValue acc none :: ps, [], top⟩
          (encodeEntries false false es ++ rest) =
        scanValue ⟨.endValue, .objectValue (acc ++ jsonMembers es) none :: ps, [], top⟩ rest := by
  induction es with
  | nil => intro acc rest; simp [encodeEntries, jsonMembers]
  | cons e es ih =>
    intro acc rest
    have hshape : encodeEntries false false (e :: es) ++ rest =
        44 :: (appendString false e.1 ++ 58 :: (appendString false e.2 ++
          (encodeEntries false false es ++ rest))) := by
      simp [encodeEntries]
    rw [hshape, scanValue_key_next, scanValue_value_string, ih]
    simp [jsonMembers]

theorem scanValue_close_inner (acc : List (GoString × Json)) (ms : List (GoString × Json))
    (k : GoString) (ps : List Frame) (l : GoString) (top : Option Json) (rest : GoString) :
    scanValue ⟨.endValue, .objectValue acc none :: .objectValue ms (some k) :: ps, l, top⟩
        (125 :: rest) =
      scanValue ⟨.endValue, .objectValue (ms ++ [(k, .object acc)]) none :: ps, [], top⟩ rest := by
  rw [scanValue]
  simp only [Scanner.next, stateEndValue, isSpace, closeValue, Scanner.emit]
  simp only [Nat.reduceEqDiff, decide_False, Bool.or_self, Bool.false_eq_true, if_false, if_true]

/-- The scanner reads a map that the encoder wrote as the value of the key
that waits for it. -/
theorem scanValue_value_map (ms : List (GoString × Json)) (k : GoString) (ps : List Frame)
    (l : GoString) (top : Option Json) (m : Option StringMap) (rest : GoString)
    (hdepth : ps.length + 2 ≤ maxNestingDepth) :
    scanValue ⟨.beginValue, .objectValue ms (some k) :: ps, l, top⟩
        (encodeMap false m ++ rest) =
      scanValue ⟨.endValue, .objectValue (ms ++ [(k, jsonOfMap m)]) none :: ps, [], top⟩ rest := by
  cases m with
  | none => exact scanValue_value_null ms k ps l top rest
  | some kvs =>
    have hopen : ∀ tl, scanValue ⟨.beginValue, .objectValue ms (some k) :: ps, l, top⟩
        (123 :: tl) =
        scanValue ⟨.beginStringOrEmpty, .objectKey [] none :: .objectValue ms (some k) :: ps, l,
          top⟩ tl := by
      intro tl
      rw [scanValue]
      simp only [Scanner.next, stateBeginValue, isSpace, pushParseState, List.length_cons]
      simp only [Nat.reduceEqDiff, decide_False, Bool.or_self, Bool.false_eq_true, if_false,
        if_true]
      rw [if_pos (by omega)]
    simp only [encodeMap, jsonOfMap]
    cases hsort : sortByKey kvs with
    | nil =>
      have hshape : [123] ++ encodeEntries false true [] ++ [125] ++ rest = 123 :: 125 :: rest := by
        simp [encodeEntries]
      rw [hshape, hopen, scanValue]
      simp only [Scanner.next, stateEndValue, isSpace, closeValue, Scanner.emit]
      simp only [Nat.reduceEqDiff, decide_False, Bool.or_self, Bool.false_eq_true, if_false,
        if_true]
      rfl
    | cons e es =>
      have hshape : [123] ++ encodeEntries false true (e :: es) ++ [125] ++ rest =
          123 :: (appendString false e.1 ++ 58 :: (appendString false e.2 ++
            (encodeEntries false false es ++ 125 :: rest))) := by
        simp [encodeEntries]
      rw [hshape, hopen, scanValue_key_first, scanValue_value_string, scanValue_entries,
        scanValue_close_inner]
      simp [jsonMembers]

theorem key_resource : ascii "\"resource\":" = appendString false (ascii "resource") ++ [58] := by
  decide

theorem key_path : ascii "\"path\":" = appendString false (ascii "path") ++ [58] := by
  decide

theorem key_httpMethod :
    ascii "\"httpMethod\":" = appendString false (ascii "httpMethod") ++ [58] := by
  decide

theorem key_headers : ascii "\"headers\":" = appendString false (ascii "headers") ++ [58] := by
  decide

theorem key_queryStringParameters :
    ascii "\"queryStringParameters\":" =
      appendString false (ascii "queryStringParameters") ++ [58] := by
  decide

theorem key_body : ascii "\"body\":" = appendString false (ascii "body") ++ [58] := by
  decide

/-- The decoder reads the encoding of a request envelope whose flag is false
as the JSON value of the envelope, up to the line feed that ends it. -/
theorem readValue_encodeStruct (v : apiGatewayProxyRequest) (hflag : v.IsBase64Encoded = false) :
    readValue (encodeStruct false v ++ [10]) = .ok (jsonOfRequest v, [10]) := by
  have hshape : encodeStruct false v ++ [10] =
      123 :: (appendString false (ascii "resource") ++ 58 :: (appendString false v.Resource ++
      44 :: (appendString false (ascii "path") ++ 58 :: (appendString false v.Path ++
      44 :: (appendString false (ascii "httpMethod") ++ 58 :: (appendString false v.HTTPMethod ++
      44 :: (appendString false (ascii "headers") ++ 58 :: (encodeMap false v.Headers ++
      44 :: (appendString false (ascii "queryStringParameters") ++ 58 ::
        (encodeMap false v.QueryStringParameters ++
      44 :: (appendString false (ascii "body") ++ 58 :: (appendString false v.Body ++
      [125, 10])))))))))))) := by
    simp only [encodeStruct, hflag, key_resource, key_path, key_httpMethod, key_headers,
      key_queryStringParameters, key_body]
    simp
  have hopen : ∀ tl, scanValue Scanner.init (123 :: tl) =
      scanValue ⟨.beginStringOrEmpty, [.objectKey [] none], [], none⟩ tl := by
    intro tl
    rw [scanValue]
    simp only [Scanner.next, Scanner.init, stateBeginValue, isSpace, pushParseState,
      List.length_nil]
    simp only [Nat.reduceEqDiff, decide_False, Bool.or_self, Bool.false_eq_true, if_false,
      if_true]
    rw [if_pos (by decide)]
  have hclose : ∀ ms, scanValue ⟨.endValue, [.objectValue ms none], [], none⟩ [125, 10] =
      .ok (.object ms, [10]) := by
    intro ms
    rw [scanValue]
    simp only [Scanner.next, stateEndValue, isSpace, closeValue]
    simp only [Nat.reduceEqDiff, decide_False, Bool.or_self, Bool.false_eq_true, if_false,
      if_true]
  have hc1 : coerceUTF8 (ascii "resource") = ascii "resource" := by decide
  have hc2 : coerceUTF8 (ascii "path") = ascii "path" := by decide
  have hc3 : coerceUTF8 (ascii "httpMethod") = ascii "httpMethod" := by decide
  have hc4 : coerceUTF8 (ascii "headers") = ascii "headers" := by decide
  have hc5 : coerceUTF8 (ascii "queryStringParameters") = ascii "queryStringParameters" := by
    decide
  have hc6 : coerceUTF8 (ascii "body") = ascii "body" := by decide
  unfold readValue
  rw [hshape, hopen, scanValue_key_first, scanValue_value_string,
    scanValue_key_next, scanValue_value_string,
    scanValue_key_next, scanValue_value_string,
    scanValue_key_next, scanValue_value_map _ _ _ _ _ _ _ (by decide),
    scanValue_key_next, scanValue_value_map _ _ _ _ _ _ _ (by decide),
    scanValue_key_next, scanValue_value_string, hclose, hc1, hc2, hc3, hc4, hc5, hc6]
  rfl

/-! ## No HTML escaping: lemmas -/

theorem escapeUnits_nil (e : Bool) (n : Nat) : escapeUnits e n [] = [] := by
  cases n <;> simp [escapeUnits]

theorem escapeUnits_ascii_false (n : Nat) (b : Nat) (rest : GoString) (hb : b < 0x80) :
    escapeUnits false (n + 1) (b :: rest) =
      (if safeSet b then [b] else escapeByte b) :: escapeUnits false n rest := by
  have : (htmlSafeSet b || (!false && safeSet b)) = safeSet b := by
    simp only [htmlSafeSet, Bool.not_false, Bool.true_and]
    cases safeSet b <;> simp
  simp only [escapeUnits, hb, if_true, this]

theorem escapeUnits_invalid (e : Bool) (n : Nat) (b : Nat) (rest : GoString) (hb : 0x80 ≤ b)
    (hv : (decodeRune (b :: rest)).1 = runeError ∧ (decodeRune (b :: rest)).2 = 1) :
    escapeUnits e (n + 1) (b :: rest) =
      [92, 117, 102, 102, 102, 100] :: escapeUnits e n rest := by
  simp only [escapeUnits, show ¬ b < 0x80 by omega, if_false, hv, and_self, if_true]

theorem escapeUnits_valid (e : Bool) (n : Nat) (b : Nat) (rest u t : GoString) (hb : 0x80 ≤ b)
    (hv : ¬ ((decodeRune (b :: rest)).1 = runeError ∧ (decodeRune (b :: rest)).2 = 1))
    (hu : (b :: rest).take (decodeRune (b :: rest)).2 = u)
    (ht : rest.drop ((decodeRune (b :: rest)).2 - 1) = t) :
    escapeUnits e (n + 1) (b :: rest) =
      (if (decodeRune (b :: rest)).1 = 0x2028 ∨ (decodeRune (b :: rest)).1 = 0x2029 then
        [92, 117, 50, 48, 50, hexDigit ((decodeRune (b :: rest)).1 % 16)]
       else u) :: escapeUnits e n t := by
  simp only [escapeUnits, show ¬ b < 0x80 by omega, if_false, hv, hu, ht]
  split <;> rfl

/-- The fuel of the loop of `appendString` does not matter once it covers the
string. -/
theorem escapeUnits_fuel (s : GoString) :
    ∀ n, s.length ≤ n → escapeUnits false n s = escapeUnits false s.length s := by
  induction s using rune_induction with
  | hnil => intro n _; simp [escapeUnits_nil]
  | hascii b tl hb ih =>
    intro n hn
    obtain ⟨n, rfl⟩ : ∃ k, n = k + 1 := ⟨n - 1, by simp only [List.length_cons] at hn; omega⟩
    simp only [List.length_cons, Nat.add_le_add_iff_right] at hn
    rw [List.length_cons, escapeUnits_ascii_false n b tl hb,
      escapeUnits_ascii_false tl.length b tl hb, ih n hn]
  | hinvalid b tl hb hv ih =>
    intro n hn
    obtain ⟨n, rfl⟩ : ∃ k, n = k + 1 := ⟨n - 1, by simp only [List.length_cons] at hn; omega⟩
    simp only [List.length_cons, Nat.add_le_add_iff_right] at hn
    rw [List.length_cons, escapeUnits_invalid false n b tl hb hv,
      escapeUnits_invalid false tl.length b tl hb hv, ih n hn]
  | hvalid b tl u t hb hv hsplit hlen h2 hu ht hhigh henc hdec ih =>
    intro n hn
    obtain ⟨n, rfl⟩ : ∃ k, n = k + 1 := ⟨n - 1, by simp only [List.length_cons] at hn; omega⟩
    have hl := congrArg List.length hsplit
    simp only [List.length_cons, List.length_append] at hl hn
    rw [List.length_cons, escapeUnits_valid false n b tl u t hb hv hu ht,
      escapeUnits_valid false tl.length b tl u t hb hv hu ht, ih n (by omega),
      ih tl.length (by omega)]

/-- An invalid byte stays invalid when an ASCII byte is put after the string:
`decodeRune` accepts continuation bytes only. -/
theorem decodeRune_invalid_append (b : Nat) (tl : GoString) (c : Nat) (t : GoString)
    (hb : 0x80 ≤ b) (hc : c < 0x80)
    (hv : (decodeRune (b :: tl)).1 = runeError ∧ (decodeRune (b :: tl)).2 = 1) :
    (decodeRune (b :: (tl ++ c :: t))).1 = runeError ∧
      (decodeRune (b :: (tl ++ c :: t))).2 = 1 := by
  by_contra hcon
  obtain ⟨u, t0, hsplit, hlen, h2, -, -, hhigh, -, -, hdec⟩ :=
    decodeRune_valid b (tl ++ c :: t) hb hcon
  have hsplit2 : (b :: tl) ++ c :: t = u ++ t0 := by simpa using hsplit
  rcases List.append_eq_append_iff.1 hsplit2 with ⟨a, hu, ht⟩ | ⟨a, hu, ht⟩
  · rcases a with _ | ⟨x, a⟩
    · have h := hdec []
      rw [hu] at h
      simp only [List.append_nil] at h
      rw [h] at hv
      rw [← hlen, hu] at hv
      rw [hu] at h2
      simp only [List.append_nil] at hv h2
      omega
    · simp only [List.cons_append, List.cons.injEq] at ht
      have := hhigh x (by rw [hu]; simp)
      omega
  · have h := hdec a
    rw [← hu] at h
    rw [h, ← hlen] at hv
    omega

/-- An ampersand, a less-than sign or a greater-than sign is written as it is,
wherever it stands in the string. -/
theorem escapeUnits_append_html (c : Nat) (hc : c = 38 ∨ c = 60 ∨ c = 62) (t : GoString)
    (s : GoString) :
    ∀ n, s.length + 1 + t.length ≤ n →
      escapeUnits false n (s ++ c :: t) =
        escapeUnits false s.length s ++ ([c] :: escapeUnits false t.length t) := by
  have hc80 : c < 0x80 := by omega
  have hsafe : safeSet c = true := (safeSet_iff c).2 (by omega)
  induction s using rune_induction with
  | hnil =>
    intro n hn
    obtain ⟨n, rfl⟩ : ∃ k, n = k + 1 := ⟨n - 1, by omega⟩
    simp only [List.length_nil, List.nil_append] at hn ⊢
    rw [escapeUnits_ascii_false n c t hc80, if_pos hsafe, escapeUnits_fuel t n (by omega),
      escapeUnits_nil]
    rfl
  | hascii b tl hb ih =>
    intro n hn
    obtain ⟨n, rfl⟩ : ∃ k, n = k + 1 := ⟨n - 1, by omega⟩
    simp only [List.length_cons] at hn
    rw [List.cons_append, List.length_cons, escapeUnits_ascii_false n b _ hb,
      escapeUnits_ascii_false tl.length b tl hb, ih n (by omega)]
    rfl
  | hinvalid b tl hb hv ih =>
    intro n hn
    obtain ⟨n, rfl⟩ : ∃ k, n = k + 1 := ⟨n - 1, by omega⟩
    simp only [List.length_cons] at hn
    rw [List.cons_append, List.length_cons,
      escapeUnits_invalid false n b _ hb (decodeRune_invalid_append b tl c t hb hc80 hv),
      escapeUnits_invalid false tl.length b tl hb hv, ih n (by omega)]
    rfl
  | hvalid b tl u t0 hb hv hsplit hlen h2 hu ht hhigh henc hdec ih =>
    intro n hn
    obtain ⟨n, rfl⟩ : ∃ k, n = k + 1 := ⟨n - 1, by omega⟩
    have hl := congrArg List.length hsplit
    simp only [List.length_cons, List.length_append] at hl hn
    have hsplit2 : b :: (tl ++ c :: t) = u ++ (t0 ++ c :: t) := by
      rw [← List.cons_append, hsplit, List.append_assoc]
    have hd : decodeRune (b :: (tl ++ c :: t)) = decodeRune (b :: tl) := by
      rw [hsplit2]; exact hdec _
    have hv2 : ¬ ((decodeRune (b :: (tl ++ c :: t))).1 = runeError ∧
        (decodeRune (b :: (tl ++ c :: t))).2 = 1) := by rw [hd]; exact hv
    have hu2 : (b :: (tl ++ c :: t)).take (decodeRune (b :: (tl ++ c :: t))).2 = u := by
      rw [hd, hsplit2, ← hlen, List.take_left]
    have ht2 : (tl ++ c :: t).drop ((decodeRune (b :: (tl ++ c :: t))).2 - 1) =
        t0 ++ c :: t := by
      have h1 : (b :: (tl ++ c :: t)).drop (decodeRune (b :: (tl ++ c :: t))).2 =
          t0 ++ c :: t := by
        rw [hd, hsplit2, ← hlen, List.drop_left]
      have h3 : (decodeRune (b :: (tl ++ c :: t))).2 =
          ((decodeRune (b :: (tl ++ c :: t))).2 - 1) + 1 := by
        rw [hd, ← hlen]; omega
      rw [h3, List.drop_succ_cons] at h1
      exact h1
    rw [List.cons_append, List.length_cons, escapeUnits_valid false n b _ u _ hb hv2 hu2 ht2,
      escapeUnits_valid false tl.length b tl u t0 hb hv hu ht, ih n (by omega), hd,
      escapeUnits_fuel t0 tl.length (by omega)]
    rfl

theorem escapeFrom_append_html (c : Nat) (hc : c = 38 ∨ c = 60 ∨ c = 62) (s t : GoString) :
    escapeFrom false (s ++ c :: t).length (s ++ c :: t) =
      escapeFrom false s.length s ++ c :: escapeFrom false t.length t := by
  unfold escapeFrom
  rw [escapeUnits_append_html c hc t s _ (by simp; omega)]
  simp

theorem count_escapeByte (c : Nat) (hc : c = 38 ∨ c = 60 ∨ c = 62) (b : Nat) (hb : b < 0x80)
    (hs : ¬ safeSet b = true) : (escapeByte b).count c = 0 ∧ b ≠ c := by
  have h : b = 34 ∨ b = 92 ∨ b < 32 := by
    by_contra hcon
    exact hs ((safeSet_iff b).2 (by omega))
  refine ⟨?_, by omega⟩
  have hd : ∀ n, n < 16 → hexDigit n ≠ c := by
    intro n hn
    unfold hexDigit
    split <;> omega
  unfold escapeByte
  split_ifs <;> simp only [List.count_cons, List.count_nil, beq_iff_eq] <;>
    first
    | (have h1 := hd (b / 16) (by omega)
       have h2 := hd (b % 16) (by omega)
       simp only [h1, h2, if_false]
       rcases hc with rfl | rfl | rfl <;> simp)
    | (rcases hc with rfl | rfl | rfl <;> simp <;> omega)

/-- The encoder writes as many ampersands, less-than signs and greater-than
signs as the string holds. -/
theorem count_escapeFrom (c : Nat) (hc : c = 38 ∨ c = 60 ∨ c = 62) (s : GoString) :
    ∀ n, s.length ≤ n → (escapeFrom false n s).count c = s.count c := by
  have hd : ∀ n, n < 16 → hexDigit n ≠ c := by
    intro n hn
    unfold hexDigit
    split <;> omega
  induction s using rune_induction with
  | hnil => intro n _; simp [escapeFrom_nil]
  | hascii b tl hb ih =>
    intro n hn
    obtain ⟨n, rfl⟩ : ∃ k, n = k + 1 := ⟨n - 1, by simp only [List.length_cons] at hn; omega⟩
    simp only [List.length_cons, Nat.add_le_add_iff_right] at hn
    rw [escapeFrom_ascii_false n b tl hb, List.count_append, ih n hn]
    by_cases hs : safeSet b = true
    · rw [if_pos hs]
      simp only [List.count_cons, List.count_nil]
      omega
    · obtain ⟨h0, hne⟩ := count_escapeByte c hc b hb hs
      rw [if_neg hs, h0, List.count_cons_of_ne hne.symm]
      omega
  | hinvalid b tl hb hv ih =>
    intro n hn
    obtain ⟨n, rfl⟩ : ∃ k, n = k + 1 := ⟨n - 1, by simp only [List.length_cons] at hn; omega⟩
    simp only [List.length_cons, Nat.add_le_add_iff_right] at hn
    rw [escapeFrom_invalid false n b tl hb hv, List.count_append, ih n hn,
      List.count_cons_of_ne (by omega : c ≠ b)]
    have : List.count c [92, 117, 102, 102, 102, 100] = 0 := by
      rcases hc with rfl | rfl | rfl <;> decide
    omega
  | hvalid b tl u t hb hv hsplit hlen h2 hu ht hhigh henc hdec ih =>
    intro n hn
    obtain ⟨n, rfl⟩ : ∃ k, n = k + 1 := ⟨n - 1, by simp only [List.length_cons] at hn; omega⟩
    have hl := congrArg List.length hsplit
    simp only [List.length_cons, List.length_append] at hl hn
    have hu0 : u.count c = 0 := List.count_eq_zero.2 (fun h => by
      have := hhigh c h
      omega)
    have hcount : (b :: tl).count c = t.count c := by
      rw [hsplit, List.count_append, hu0]
      omega
    rw [escapeFrom_valid false n b tl u t hb hv hu ht, List.count_append, ih n (by omega),
      hcount]
    split
    · have h1 := hd ((decodeRune (b :: tl)).1 % 16) (by omega)
      have : List.count c [92, 117, 50, 48, 50, hexDigit ((decodeRune (b :: tl)).1 % 16)] = 0 := by
        simp only [List.count_cons, List.count_nil, beq_iff_eq, h1, if_false]
        rcases hc with rfl | rfl | rfl <;> simp
      omega
    · rw [hu0]
      omega

theorem htmlEscapes_eq :
    htmlEscapes = [[92, 117, 48, 48, 50, 54], [92, 117, 48, 48, 51, 99],
      [92, 117, 48, 48, 51, 101]] := by
  decide

/-- No turn of the loop of `appendString` writes the escape sequence of an
ampersand, a less-than sign or a greater-than sign. -/
theorem escapeUnits_not_html (s : GoString) :
    ∀ n, ∀ unit ∈ escapeUnits false n s, unit ∉ htmlEscapes := by
  induction s using rune_induction with
  | hnil => intro n unit h; simp [escapeUnits_nil] at h
  | hascii b tl hb ih =>
    intro n unit h
    rcases n with _ | n
    · simp [escapeUnits] at h
    rw [escapeUnits_ascii_false n b tl hb, List.mem_cons] at h
    rcases h with rfl | h
    · rw [htmlEscapes_eq]
      by_cases hs : safeSet b = true
      · rw [if_pos hs]; simp
      · rw [if_neg hs]
        have hb2 : b = 34 ∨ b = 92 ∨ b < 32 := by
          by_contra hcon
          exact hs ((safeSet_iff b).2 (by omega))
        rcases hb2 with rfl | rfl | hb2
        · simp [escapeByte]
        · simp [escapeByte]
        · have hd : hexDigit (b / 16) = 48 + b / 16 := by
            unfold hexDigit
            rw [if_pos (by omega)]
          have hd1 : ¬ 48 + b / 16 = 50 := by omega
          have hd2 : ¬ 48 + b / 16 = 51 := by omega
          unfold escapeByte
          split_ifs <;> simp [hd, hd1, hd2]
    · exact ih n unit h
  | hinvalid b tl hb hv ih =>
    intro n unit h
    rcases n with _ | n
    · simp [escapeUnits] at h
    rw [escapeUnits_invalid false n b tl hb hv, List.mem_cons] at h
    rcases h with rfl | h
    · rw [htmlEscapes_eq]; decide
    · exact ih n unit h
  | hvalid b tl u t hb hv hsplit hlen h2 hu ht hhigh henc hdec ih =>
    intro n unit h
    rcases n with _ | n
    · simp [escapeUnits] at h
    rw [escapeUnits_valid false n b tl u t hb hv hu ht, List.mem_cons] at h
    rcases h with rfl | h
    · rw [htmlEscapes_eq]
      split
      · simp
      · intro hmem
        have h92 : (92 : Nat) ∈ u := by
          simp only [List.mem_cons, List.mem_singleton, List.not_mem_nil, or_false] at hmem
          rcases hmem with rfl | rfl | rfl <;> simp
        have := hhigh 92 h92
        omega
    · exact ih n unit h

/-! ## Where the strings stand in the output: lemmas -/

theorem mem_insertByKey (e x : GoString × GoString) (l : StringMap) :
    x ∈ insertByKey e l ↔ x = e ∨ x ∈ l := by
  induction l with
  | nil => simp [insertByKey]
  | cons y l ih =>
    simp only [insertByKey]
    split
    · simp
    · simp only [List.mem_cons, ih]
      tauto

theorem mem_sortByKey (x : GoString × GoString) (l : StringMap) :
    x ∈ sortByKey l ↔ x ∈ l := by
  induction l with
  | nil => simp [sortByKey]
  | cons y l ih => simp only [sortByKey, mem_insertByKey, ih, List.mem_cons]

theorem infix_encodeEntries (es : StringMap) (e : GoString × GoString) (he : e ∈ es) :
    ∀ first, appendString false e.2 <:+: encodeEntries false first es := by
  induction es with
  | nil => simp at he
  | cons x es ih =>
    intro first
    rcases List.mem_cons.1 he with rfl | h
    · exact ⟨(if first then [] else [44]) ++ appendString false e.1 ++ [58],
        encodeEntries false false es, by simp [encodeEntries]⟩
    · obtain ⟨a, b, hab⟩ := ih h false
      exact ⟨(if first then [] else [44]) ++ appendString false x.1 ++ [58]
        ++ appendString false x.2 ++ a, b, by simp [encodeEntries, ← hab]⟩

theorem infix_append_right_of (x a b : GoString) (h : x <:+: a) : x <:+: a ++ b := by
  obtain ⟨p, q, hpq⟩ := h
  exact ⟨p, q ++ b, by simp [← hpq]⟩

theorem infix_encodeStruct_resource (v : apiGatewayProxyRequest) :
    appendString false v.Resource <:+: encodeStruct false v ++ [10] := by
  unfold encodeStruct
  repeat (first
    | with_reducible exact List.infix_append _ _ _
    | with_reducible apply infix_append_right_of)

theorem infix_encodeStruct_body (v : apiGatewayProxyRequest) :
    appendString false v.Body <:+: encodeStruct false v ++ [10] := by
  unfold encodeStruct
  repeat (first
    | with_reducible exact List.infix_append _ _ _
    | with_reducible apply infix_append_right_of)

theorem infix_encodeStruct_headers (v : apiGatewayProxyRequest) :
    encodeMap false v.Headers <:+: encodeStruct false v ++ [10] := by
  unfold encodeStruct
  repeat (first
    | with_reducible exact List.infix_append _ _ _
    | with_reducible apply infix_append_right_of)

theorem infix_encodeStruct_header (v : apiGatewayProxyRequest) (kvs : StringMap)
    (hv : v.Headers = some kvs) (e : GoString × GoString) (he : e ∈ kvs) :
    appendString false e.2 <:+: encodeStruct false v ++ [10] := by
  refine List.IsInfix.trans ?_ (infix_encodeStruct_headers v)
  rw [hv]
  obtain ⟨a, b, hab⟩ := infix_encodeEntries (sortByKey kvs) e ((mem_sortByKey e kvs).2 he) true
  exact ⟨[123] ++ a, b ++ [125], by simp [encodeMap, ← hab]⟩

theorem header_entry (headers : List GoString) (h : GoString) (hh : h ∈ headers) :
    ∃ kvs, convertSliceToMap headers = some kvs ∧ (h, h) ∈ kvs := by
  obtain ⟨h1, -, h3⟩ := foldl_mapAssign_spec headers [] (by simp) (by simp)
  refine ⟨_, rfl, ?_⟩
  have hk := (h3 h).2 (Or.inr hh)
  obtain ⟨e, he, hfst⟩ := List.mem_map.1 hk
  have hd := h1 e he
  have : e = (h, h) := by
    obtain ⟨k, w⟩ := e
    simp only at hfst hd
    rw [← hd, hfst]
  rw [← this]
  exact he

/-! ## The request encoder: lemmas -/

theorem sortByKey_map_snd {α β : Type} (f : α → β) (l : List (GoString × α)) :
    sortByKey (l.map (fun e => (e.1, f e.2))) = (sortByKey l).map (fun e => (e.1, f e.2)) := by
  have hins : ∀ (e : GoString × α) (l : List (GoString × α)),
      insertByKey (e.1, f e.2) (l.map (fun e => (e.1, f e.2))) =
        (insertByKey e l).map (fun e => (e.1, f e.2)) := by
    intro e l
    induction l with
    | nil => rfl
    | cons x l ih =>
      simp only [List.map_cons, insertByKey]
      split
      · rfl
      · rw [List.map_cons, ih]
  induction l with
  | nil => rfl
  | cons e l ih => simp only [List.map_cons, sortByKey, ih, hins]

theorem encodeElems_strings (escapeHTML : Bool) (kvs : StringMap) :
    encodeElems escapeHTML (kvs.map (fun e => (e.1, GoValue.string e.2))) =
      kvs.map (fun e => (e.1, Except.ok (appendString escapeHTML e.2))) := by
  induction kvs with
  | nil => rfl
  | cons e kvs ih => simp only [List.map_cons, encodeElems, reflectValue, ih]

theorem writeEntries_ok (escapeHTML : Bool) (kvs : StringMap) (first : Bool) :
    writeEntries escapeHTML first
        (kvs.map (fun e => (e.1, Except.ok (appendString escapeHTML e.2)))) =
      .ok (encodeEntries escapeHTML first kvs) := by
  induction kvs generalizing first with
  | nil => rfl
  | cons e kvs ih =>
    simp only [List.map_cons, writeEntries, ih, encodeEntries, List.append_assoc]

/-- The map encoder does not fail on a `map[string]string`, and writes the
entries in the order of the keys. -/
theorem reflectValue_stringMap (escapeHTML : Bool) (m : Option StringMap) :
    reflectValue escapeHTML (reflectStringMap m) = .ok (encodeMap escapeHTML m) := by
  cases m with
  | none => rfl
  | some kvs =>
    simp only [reflectStringMap, reflectValue, encodeElems_strings,
      sortByKey_map_snd (fun s => (Except.ok (appendString escapeHTML s) : Except GoError GoString)),
      writeEntries_ok, encodeMap]

/-- The encoder does not fail on an envelope: every field is a string, a
boolean or a map of strings, and the buffer takes what is written. -/
theorem encoderEncode_eq (escapeHTML : Bool) (v : apiGatewayProxyRequest) :
    encoderEncode escapeHTML v = .ok (encodeStruct escapeHTML v ++ [10]) := by
  have h1 : ∀ esc o, fieldName esc ⟨ascii "resource", o⟩ = ascii "\"resource\":" := by decide
  have h2 : ∀ esc o, fieldName esc ⟨ascii "path", o⟩ = ascii "\"path\":" := by decide
  have h3 : ∀ esc o, fieldName esc ⟨ascii "httpMethod", o⟩ = ascii "\"httpMethod\":" := by decide
  have h4 : ∀ esc o, fieldName esc ⟨ascii "headers", o⟩ = ascii "\"headers\":" := by decide
  have h5 : ∀ esc o, fieldName esc ⟨ascii "queryStringParameters", o⟩ =
      ascii "\"queryStringParameters\":" := by decide
  have h6 : ∀ esc o, fieldName esc ⟨ascii "body", o⟩ = ascii "\"body\":" := by decide
  have h7 : ∀ esc o, fieldName esc ⟨ascii "isBase64Encoded", o⟩ ++ ascii "true" =
      ascii "\"isBase64Encoded\":true" := by decide
  obtain ⟨res, path, method, hs, qs, body, flag⟩ := v
  cases flag
  · simp only [encoderEncode, reflectEnvelope, reflectValue, encodeFields, reflectValue_stringMap,
      isEmptyValue, bufferWrite, encodeStruct, h1, h2, h3, h4, h5, h6, Bool.not_false,
      Bool.and_self, Bool.false_and, if_true, if_false, Bool.false_eq_true, List.nil_append,
      List.append_assoc, List.append_nil]
  · simp only [encoderEncode, reflectEnvelope, reflectValue, encodeFields, reflectValue_stringMap,
      isEmptyValue, bufferWrite, encodeStruct, h1, h2, h3, h4, h5, h6, Bool.not_true,
      Bool.and_false, Bool.false_and, if_true, if_false, Bool.false_eq_true, List.nil_append,
      List.append_assoc, List.append_nil]
    rw [← List.append_assoc (fieldName escapeHTML _) (ascii "true"), h7]

theorem EncodeRequest_eq (r : HTTPRequest) (o : Option EncodeOptions) :
    EncodeRequest (some r) o = .returns (encodeStruct false (requestEnvelope r) ++ [10]) none := by
  simp only [EncodeRequest, encoderEncode_eq]

theorem member_resource (v : apiGatewayProxyRequest) :
    (jsonOfRequest v).member (ascii "resource") = some (.string (coerceUTF8 v.Resource)) := by
  rfl

theorem member_httpMethod (v : apiGatewayProxyRequest) :
    (jsonOfRequest v).member (ascii "httpMethod") = some (.string (coerceUTF8 v.HTTPMethod)) := by
  rfl

theorem member_body (v : apiGatewayProxyRequest) :
    (jsonOfRequest v).member (ascii "body") = some (.string (coerceUTF8 v.Body)) := by
  rfl

theorem member_queryStringParameters (v : apiGatewayProxyRequest) :
    (jsonOfRequest v).member (ascii "queryStringParameters") =
      some (jsonOfMap v.QueryStringParameters) := by
  rfl

theorem member_headers (v : apiGatewayProxyRequest) :
    (jsonOfRequest v).member (ascii "headers") = some (jsonOfMap v.Headers) := by
  rfl

/-- The output of `EncodeRequest` is fixed by resource, body and headers of the
request. -/
theorem EncodeRequest_congr (r1 r2 : HTTPRequest) (o1 o2 : Option EncodeOptions)
    (hresource : r1.Resource = r2.Resource) (hbody : r1.Body = r2.Body)
    (hheaders : convertSliceToMap r1.Headers = convertSliceToMap r2.Headers) :
    EncodeRequest (some r1) o1 = EncodeRequest (some r2) o2 := by
  rw [EncodeRequest_eq, EncodeRequest_eq]
  simp only [requestEnvelope, hresource, hbody, hheaders]

/-! ## The response decoder on the text of an envelope: lemmas -/

theorem convertMapToSlice_nil (it : MapIter) : convertMapToSlice it none = [] := by
  rw [convertMapToSlice_eq_map]
  have : it.order [] = [] := List.Perm.eq_nil (it.perm [])
  simp [this]

theorem readValue_bodyEnvelope (B : GoString) :
    readValue (bodyEnvelope B) = .ok (.object [(ascii "body", .string (coerceUTF8 B))], []) := by
  have hshape : bodyEnvelope B =
      123 :: (appendString false (ascii "body") ++ 58 :: (appendString false B ++ [125])) := by
    simp only [bodyEnvelope, key_body]
    simp
  have hopen : ∀ tl, scanValue Scanner.init (123 :: tl) =
      scanValue ⟨.beginStringOrEmpty, [.objectKey [] none], [], none⟩ tl := by
    intro tl
    rw [scanValue]
    simp only [Scanner.next, Scanner.init, stateBeginValue, isSpace, pushParseState,
      List.length_nil]
    simp only [Nat.reduceEqDiff, decide_False, Bool.or_self, Bool.false_eq_true, if_false,
      if_true]
    rw [if_pos (by decide)]
  have hclose : ∀ ms, scanValue ⟨.endValue, [.objectValue ms none], [], none⟩ [125] =
      .ok (.object ms, []) := by
    intro ms
    rw [scanValue]
    simp only [Scanner.next, stateEndValue, isSpace, closeValue]
    simp only [Nat.reduceEqDiff, decide_False, Bool.or_self, Bool.false_eq_true, if_false,
      if_true]
  have hc : coerceUTF8 (ascii "body") = ascii "body" := by decide
  unfold readValue
  rw [hshape, hopen, scanValue_key_first, scanValue_value_string, hclose, hc]
  rfl

theorem jsonDecode_bodyEnvelope (B : GoString) :
    jsonDecode (bodyEnvelope B) =
      .ok { StatusCode := 0, Headers := none, Body := coerceUTF8 B, IsBase64Encoded := false } := by
  have hf : findField (ascii "body") = some .body := by decide
  simp only [jsonDecode, readValue_bodyEnvelope, unmarshal, decodeMembers, hf, storeField,
    apiGatewayProxyResponse.zero]

/-! ## The status helpers: lemmas -/

theorem lookup_of_not_mem (l : List (Int × GoString)) (k : Int)
    (h : k ∉ l.map Prod.fst) : l.lookup k = none := by
  induction l with
  | nil => rfl
  | cons e l ih =>
    obtain ⟨k1, v1⟩ := e
    simp only [List.map_cons, List.mem_cons, not_or] at h
    have hne : (k == k1) = false := by simpa using h.1
    simp only [List.lookup_cons, hne]
    exact ih h.2

theorem lookup_of_mem (l : List (Int × GoString)) (k : Int) (v : GoString)
    (hnd : (l.map Prod.fst).Nodup) (h : (k, v) ∈ l) : l.lookup k = some v := by
  induction l with
  | nil => simp at h
  | cons e l ih =>
    obtain ⟨k1, v1⟩ := e
    simp only [List.map_cons, List.nodup_cons] at hnd
    rcases List.mem_cons.1 h with heq | hmem
    · simp only [Prod.mk.injEq] at heq
      obtain ⟨rfl, rfl⟩ := heq
      simp [List.lookup_cons]
    · have hne : (k == k1) = false := by
        simp only [beq_eq_false_iff_ne, ne_eq]
        rintro rfl
        exact hnd.1 (List.mem_map.2 ⟨(k, v), hmem, rfl⟩)
      simp only [List.lookup_cons, hne]
      exact ih hnd.2 hmem

/-! ## Status code and headers of a decoded envelope: lemmas -/

theorem storeField_statusCode (r r1 : apiGatewayProxyResponse) (k : GoString) (f : Field)
    (v : Json) (hf : findField k = some f) (h : storeField r f v = .ok r1) :
    r1.StatusCode = statusCodeStep r.StatusCode (k, v) := by
  unfold statusCodeStep
  simp only [hf]
  cases f <;> cases v <;> simp only [storeField] at h <;> (try (cases h <;> rfl))
  · rename_i lit
    cases hp : parseInt64 lit with
    | none => rw [hp] at h; cases h
    | some n =>
      rw [hp] at h
      cases h
      simp only [hp]
      rfl
  · rename_i ms
    cases hd : decodeHeaders (r.Headers.getD []) ms with
    | error e => rw [hd] at h; cases h
    | ok m =>
      rw [hd] at h
      cases h
      rfl

theorem decodeMembers_statusCode (ms : List (GoString × Json)) :
    ∀ (r r1 : apiGatewayProxyResponse), decodeMembers r ms = .ok r1 →
      r1.StatusCode = ms.foldl statusCodeStep r.StatusCode := by
  induction ms with
  | nil =>
    intro r r1 h
    simp only [decodeMembers, Except.ok.injEq] at h
    rw [← h]
    rfl
  | cons m ms ih =>
    intro r r1 h
    obtain ⟨k, v⟩ := m
    simp only [decodeMembers] at h
    simp only [List.foldl_cons]
    cases hf : findField k with
    | none =>
      rw [hf] at h
      simp only at h
      have hstep : statusCodeStep r.StatusCode (k, v) = r.StatusCode := by
        simp only [statusCodeStep, hf]
      rw [hstep]
      exact ih r r1 h
    | some f =>
      rw [hf] at h
      simp only at h
      cases hs : storeField r f v with
      | error e => rw [hs] at h; cases h
      | ok r2 =>
        rw [hs] at h
        simp only at h
        rw [ih r2 r1 h, storeField_statusCode r r2 k f v hf hs]

theorem foldl_statusCode_absent (ms : List (GoString × Json))
    (h : ∀ m ∈ ms, findField m.1 ≠ some .statusCode) (code : Int) :
    ms.foldl statusCodeStep code = code := by
  induction ms generalizing code with
  | nil => rfl
  | cons m ms ih =>
    have hm := h m (List.mem_cons_self _ _)
    simp only [List.foldl_cons]
    have hstep : statusCodeStep code m = code := by
      unfold statusCodeStep
      split
      · rename_i hfield _
        exact absurd hfield hm
      · rfl
    rw [hstep]
    exact ih (fun x hx => h x (List.mem_cons_of_mem _ hx)) code

/-- A call that returns a nil error has decoded an envelope, and returns its
status code and the values of its headers. -/
theorem DecodeResponse_returns (it : MapIter) (input : GoString) (o : DecodeOptions)
    (r : HTTPResponse) (h : DecodeResponse it input o = .returns r none) :
    ∃ e, jsonDecode input = .ok e ∧ r.StatusCode = e.StatusCode ∧
      r.Headers = convertMapToSlice it e.Headers := by
  cases hj : jsonDecode input with
  | error err =>
    simp only [DecodeResponse, hj] at h
    exact absurd h (by simp)
  | ok e =>
    refine ⟨e, rfl, ?_⟩
    rcases DecodeResponse_of_decoded it input o e hj with hx | ⟨b, hb⟩
    · rw [hx] at h
      exact absurd h (by simp)
    · rw [hb] at h
      simp only [Outcome.returns.injEq, and_true] at h
      rw [← h]
      exact ⟨rfl, rfl⟩

theorem mapAssign_keys_of (m : StringMap) (k v : GoString) :
    (mapAssign m k v).map Prod.fst = if k ∈ m.map Prod.fst then m.map Prod.fst
      else m.map Prod.fst ++ [k] := by
  induction m with
  | nil => simp [mapAssign]
  | cons e m ih =>
    obtain ⟨k1, w⟩ := e
    by_cases hk : k1 = k
    · simp [mapAssign, hk]
    · have hk2 : ¬ k = k1 := fun h => hk h.symm
      by_cases hm : k ∈ m.map Prod.fst
      · simp only [mapAssign, hk, if_false, List.map_cons, ih, hm, if_true, List.mem_cons, or_true]
      · simp only [mapAssign, hk, if_false, List.map_cons, ih, hm, List.mem_cons, hk2, or_self,
          List.cons_append]

theorem mapAssign_nodup (m : StringMap) (k v : GoString) (h : (m.map Prod.fst).Nodup) :
    ((mapAssign m k v).map Prod.fst).Nodup := by
  rw [mapAssign_keys_of]
  split
  · exact h
  · rename_i hk
    exact List.Nodup.append h (List.nodup_singleton k) (by simpa using hk)

theorem decodeHeaders_nodup (ms : List (GoString × Json)) :
    ∀ (m m1 : StringMap), (m.map Prod.fst).Nodup → decodeHeaders m ms = .ok m1 →
      (m1.map Prod.fst).Nodup := by
  induction ms with
  | nil =>
    intro m m1 hn h
    simp only [decodeHeaders, Except.ok.injEq] at h
    rw [← h]
    exact hn
  | cons e ms ih =>
    intro m m1 hn h
    obtain ⟨k, v⟩ := e
    cases v <;> simp only [decodeHeaders] at h <;>
      first
      | exact ih _ m1 (mapAssign_nodup m k _ hn) h
      | exact absurd h (by simp)

theorem storeField_nodup (r r1 : apiGatewayProxyResponse) (f : Field) (v : Json)
    (hn : ((r.Headers.getD []).map Prod.fst).Nodup) (h : storeField r f v = .ok r1) :
    ((r1.Headers.getD []).map Prod.fst).Nodup := by
  cases f <;> cases v <;> simp only [storeField] at h <;>
    first
    | (simp only [Except.ok.injEq] at h; rw [← h]; first | exact hn | simp)
    | (rename_i lit
       cases hp : parseInt64 lit with
       | none => rw [hp] at h; exact absurd h (by simp)
       | some n =>
         rw [hp] at h
         simp only [Except.ok.injEq] at h
         rw [← h]
         exact hn)
    | (rename_i ms
       cases hd : decodeHeaders (r.Headers.getD []) ms with
       | error e => rw [hd] at h; exact absurd h (by simp)
       | ok m =>
         rw [hd] at h
         simp only [Except.ok.injEq] at h
         rw [← h]
         exact decodeHeaders_nodup ms _ m hn hd)
    | exact absurd h (by simp)

theorem decodeMembers_nodup (ms : List (GoString × Json)) :
    ∀ (r r1 : apiGatewayProxyResponse), ((r.Headers.getD []).map Prod.fst).Nodup →
      decodeMembers r ms = .ok r1 → ((r1.Headers.getD []).map Prod.fst).Nodup := by
  induction ms with
  | nil =>
    intro r r1 hn h
    simp only [decodeMembers, Except.ok.injEq] at h
    rw [← h]
    exact hn
  | cons m ms ih =>
    intro r r1 hn h
    obtain ⟨k, v⟩ := m
    simp only [decodeMembers] at h
    cases hf : findField k with
    | none =>
      rw [hf] at h
      exact ih r r1 hn h
    | some f =>
      rw [hf] at h
      simp only at h
      cases hs : storeField r f v with
      | error e => rw [hs] at h; exact absurd h (by simp)
      | ok r2 =>
        rw [hs] at h
        exact ih r2 r1 (storeField_nodup r r2 f v hn hs) h

/-- The header mapping of a decoded envelope has pairwise distinct keys. -/
theorem jsonDecode_nodup (input : GoString) (e : apiGatewayProxyResponse)
    (h : jsonDecode input = .ok e) : ((e.Headers.getD []).map Prod.fst).Nodup := by
  unfold jsonDecode at h
  cases hr : readValue input with
  | error err => rw [hr] at h; exact absurd h (by simp)
  | ok p =>
    obtain ⟨v, rest⟩ := p
    rw [hr] at h
    simp only at h
    cases v <;> simp only [unmarshal] at h
    case object ms =>
      exact decodeMembers_nodup ms _ e (by simp [apiGatewayProxyResponse.zero]) h
    case null =>
      cases h
      simp [apiGatewayProxyResponse.zero]
    all_goals cases h

theorem storeField_headers_of_ne (r r1 : apiGatewayProxyResponse) (f : Field) (v : Json)
    (hf : f ≠ .headers) (h : storeField r f v = .ok r1) : r1.Headers = r.Headers := by
  cases f <;> cases v <;> simp only [storeField] at h <;> (try (cases h <;> rfl))
  · rename_i lit
    cases hp : parseInt64 lit with
    | none => rw [hp] at h; cases h
    | some n =>
      rw [hp] at h
      cases h
      rfl
  all_goals exact absurd rfl hf

theorem decodeMembers_headers_absent (ms : List (GoString × Json))
    (habsent : ∀ m ∈ ms, findField m.1 ≠ some .headers) :
    ∀ (r r1 : apiGatewayProxyResponse), decodeMembers r ms = .ok r1 →
      r1.Headers = r.Headers := by
  induction ms with
  | nil =>
    intro r r1 h
    simp only [decodeMembers, Except.ok.injEq] at h
    rw [← h]
  | cons m ms ih =>
    intro r r1 h
    obtain ⟨k, v⟩ := m
    have hk := habsent (k, v) (List.mem_cons_self _ _)
    have ih2 := ih (fun x hx => habsent x (List.mem_cons_of_mem _ hx))
    simp only [decodeMembers] at h
    cases hf : findField k with
    | none =>
      rw [hf] at h
      exact ih2 r r1 h
    | some f =>
      rw [hf] at h
      simp only at h
      cases hs : storeField r f v with
      | error e => rw [hs] at h; cases h
      | ok r2 =>
        rw [hs] at h
        simp only at h
        rw [ih2 r2 r1 h]
        refine storeField_headers_of_ne r r2 f v ?_ hs
        intro hfh
        rw [hfh] at hf
        exact hk hf

/-! ## The map encoder sorts the keys: lemmas -/

theorem strLe_refl (a : GoString) : strLe a a = true := by
  induction a with
  | nil => rfl
  | cons x a ih => simp [strLe, ih]

theorem strLe_total (a b : GoString) : strLe a b = true ∨ strLe b a = true := by
  induction a generalizing b with
  | nil => left; cases b <;> rfl
  | cons x a ih =>
    cases b with
    | nil => right; rfl
    | cons y b =>
      simp only [strLe]
      by_cases h1 : x < y
      · left; simp [h1]
      · by_cases h2 : y < x
        · right; simp [h2]
        · simp only [h1, h2, if_false]
          exact ih b

theorem strLe_antisymm (a b : GoString) (h1 : strLe a b = true) (h2 : strLe b a = true) :
    a = b := by
  induction a generalizing b with
  | nil =>
    cases b with
    | nil => rfl
    | cons y b => simp [strLe] at h2
  | cons x a ih =>
    cases b with
    | nil => simp [strLe] at h1
    | cons y b =>
      simp only [strLe] at h1 h2
      by_cases hxy : x < y
      · have : ¬ y < x := by omega
        simp [hxy, this] at h2
      · by_cases hyx : y < x
        · simp [hxy, hyx] at h1
        · simp only [hxy, hyx, if_false] at h1 h2
          have : x = y := by omega
          rw [this, ih b h1 h2]

theorem strLe_trans (a b c : GoString) (h1 : strLe a b = true) (h2 : strLe b c = true) :
    strLe a c = true := by
  induction a generalizing b c with
  | nil => cases c <;> rfl
  | cons x a ih =>
    cases b with
    | nil => simp [strLe] at h1
    | cons y b =>
      cases c with
      | nil => simp [strLe] at h2
      | cons z c =>
        simp only [strLe] at h1 h2 ⊢
        by_cases hxy : x < y
        · by_cases hyz : y < z
          · simp [show x < z by omega]
          · by_cases hzy : z < y
            · simp [hyz, hzy] at h2
            · have : y = z := by omega
              simp [show x < z by omega]
        · by_cases hyx : y < x
          · simp [hxy, hyx] at h1
          · simp only [hxy, hyx, if_false] at h1
            have hxe : x = y := by omega
            by_cases hyz : y < z
            · simp [show x < z by omega]
            · by_cases hzy : z < y
              · simp [hyz, hzy] at h2
              · simp only [hyz, hzy, if_false] at h2
                have hye : y = z := by omega
                simp only [show ¬ x < z by omega, show ¬ z < x by omega, if_false]
                exact ih b c h1 h2

theorem sortByKey_eq_insertionSort (l : StringMap) :
    sortByKey l = List.insertionSort (fun a b => strLe a.1 b.1 = true) l := by
  have hins : ∀ (e : GoString × GoString) (l : StringMap),
      insertByKey e l = List.orderedInsert (fun a b => strLe a.1 b.1 = true) e l := by
    intro e l
    induction l with
    | nil => rfl
    | cons x l ih => simp only [insertByKey, List.orderedInsert, ih]
  induction l with
  | nil => rfl
  | cons e l ih => simp only [sortByKey, List.insertionSort, hins, ih]

theorem sortByKey_perm (l : StringMap) : (sortByKey l).Perm l := by
  rw [sortByKey_eq_insertionSort]
  exact List.perm_insertionSort _ l

theorem sortByKey_sorted (l : StringMap) :
    List.Sorted (fun a b => strLe a.1 b.1 = true) (sortByKey l) := by
  haveI : IsTotal (GoString × GoString) (fun a b => strLe a.1 b.1 = true) :=
    ⟨fun a b => strLe_total a.1 b.1⟩
  haveI : IsTrans (GoString × GoString) (fun a b => strLe a.1 b.1 = true) :=
    ⟨fun a b c => strLe_trans a.1 b.1 c.1⟩
  rw [sortByKey_eq_insertionSort]
  exact List.sorted_insertionSort _ l

theorem eq_map_diag (l : StringMap) (h : ∀ e ∈ l, e.1 = e.2) :
    l = (l.map Prod.fst).map (fun k => (k, k)) := by
  induction l with
  | nil => rfl
  | cons e l ih =>
    obtain ⟨k, v⟩ := e
    have hk : k = v := h (k, v) (List.mem_cons_self _ _)
    simp only [List.map_cons]
    rw [← ih (fun x hx => h x (List.mem_cons_of_mem _ hx)), ← hk]

/-- Two maps that hold every key as its own value and have the same keys are
written by the map encoder in the same order. -/
theorem sortByKey_eq_of_same_keys (l1 l2 : StringMap)
    (hd1 : ∀ e ∈ l1, e.1 = e.2) (hd2 : ∀ e ∈ l2, e.1 = e.2)
    (hn1 : (l1.map Prod.fst).Nodup) (hn2 : (l2.map Prod.fst).Nodup)
    (hkeys : ∀ k, k ∈ l1.map Prod.fst ↔ k ∈ l2.map Prod.fst) :
    sortByKey l1 = sortByKey l2 := by
  haveI : IsAntisymm GoString (fun a b => strLe a b = true) := ⟨strLe_antisymm⟩
  have hp : ((sortByKey l1).map Prod.fst).Perm ((sortByKey l2).map Prod.fst) :=
    (((sortByKey_perm l1).map Prod.fst).trans
      ((List.perm_ext_iff_of_nodup hn1 hn2).2 hkeys)).trans
      ((sortByKey_perm l2).map Prod.fst).symm
  have hs : ∀ l : StringMap,
      List.Sorted (fun a b => strLe a b = true) ((sortByKey l).map Prod.fst) := by
    intro l
    exact List.pairwise_map.2 (sortByKey_sorted l)
  have hk := List.eq_of_perm_of_sorted hp (hs l1) (hs l2)
  rw [eq_map_diag (sortByKey l1) (fun e he => hd1 e ((sortByKey_perm l1).mem_iff.1 he)),
    eq_map_diag (sortByKey l2) (fun e he => hd2 e ((sortByKey_perm l2).mem_iff.1 he)), hk]

/-- The output of `EncodeRequest` is fixed by resource, body and the set of the
header strings of the request. -/
theorem EncodeRequest_same_header_set (r1 r2 : HTTPRequest) (o1 o2 : Option EncodeOptions)
    (hresource : r1.Resource = r2.Resource) (hbody : r1.Body = r2.Body)
    (hheaders : ∀ h, h ∈ r1.Headers ↔ h ∈ r2.Headers) :
    EncodeRequest (some r1) o1 = EncodeRequest (some r2) o2 := by
  obtain ⟨hd1, hn1, hm1⟩ := foldl_mapAssign_spec r1.Headers [] (by simp) (by simp)
  obtain ⟨hd2, hn2, hm2⟩ := foldl_mapAssign_spec r2.Headers [] (by simp) (by simp)
  have hsort := sortByKey_eq_of_same_keys _ _ hd1 hd2 hn1 hn2 (fun k => by
    rw [hm1 k, hm2 k]
    simp [hheaders k])
  rw [EncodeRequest_eq, EncodeRequest_eq]
  simp only [encodeStruct, requestEnvelope, convertSliceToMap, encodeMap, hresource, hbody, hsort]

/-! ## The claims -/

/-- C1, at the failing input: the envelope
`{"statusCode":200,"body":"!!","isBase64Encoded":true}` decodes as JSON with
the flag set, its body `!!` is not base64, and `DecodeResponse` does not return
an error to its caller: the call ends the process with status 1
(`log.Fatalf`), whatever the order of the headers.  So does every input that
decodes as an envelope with the flag set and a body that is not base64. -/
theorem C1_invalid_base64_exits (it : MapIter) :
    jsonDecode (ascii "\x7b\"statusCode\":200,\"body\":\"!!\",\"isBase64Encoded\":true\x7d") =
      .ok { StatusCode := 200, Headers := none, Body := ascii "!!", IsBase64Encoded := true } ∧
    base64DecodeString (ascii "!!") = .error .corruptInput ∧
    DecodeResponse it
      (ascii "\x7b\"statusCode\":200,\"body\":\"!!\",\"isBase64Encoded\":true\x7d") {} =
      .exits 1 ∧
    ∀ input o e err, jsonDecode input = .ok e → e.IsBase64Encoded = true →
      base64DecodeString e.Body = .error err → DecodeResponse it input o = .exits 1 := by
  have h1 : jsonDecode
      (ascii "\x7b\"statusCode\":200,\"body\":\"!!\",\"isBase64Encoded\":true\x7d") =
      .ok { StatusCode := 200, Headers := none, Body := ascii "!!", IsBase64Encoded := true } := by
    decide
  have h2 : base64DecodeString (ascii "!!") = .error .corruptInput := by decide
  refine ⟨h1, h2, ?_, ?_⟩
  · simp only [DecodeResponse, h1, if_true, h2]
  · intro input o e err hjson hflag hbody
    simp only [DecodeResponse, hjson, hflag, if_true, hbody]

/-- C2, the claim refuted: a list that holds the header `Accept: a` twice comes
back from `convertSliceToMap` and `convertMapToSlice` with that header once, so
the result is not a rearrangement of the input. -/
theorem C2_duplicate_collapses :
    convertMapToSlice MapIter.stored
        (convertSliceToMap [ascii "Accept: a", ascii "Accept: a"]) = [ascii "Accept: a"] ∧
    ¬ (convertMapToSlice MapIter.stored
        (convertSliceToMap [ascii "Accept: a", ascii "Accept: a"])).Perm
        [ascii "Accept: a", ascii "Accept: a"] := by
  have h : convertMapToSlice MapIter.stored
      (convertSliceToMap [ascii "Accept: a", ascii "Accept: a"]) = [ascii "Accept: a"] := by
    decide
  refine ⟨h, fun hp => ?_⟩
  rw [h] at hp
  exact absurd hp.length_eq (by decide)

/-- C2, amended: for every list of header strings and every order in which the
map is ranged over, `convertSliceToMap` followed by `convertMapToSlice` returns
each distinct string of the list exactly once: the result is a rearrangement
of the list with the repetitions removed. -/
theorem C2_roundtrip_keeps_distinct_strings (it : MapIter) (headers : List GoString) :
    (convertMapToSlice it (convertSliceToMap headers)).Perm headers.dedup ∧
    (convertMapToSlice it (convertSliceToMap headers)).Nodup ∧
    ∀ h, h ∈ convertMapToSlice it (convertSliceToMap headers) ↔ h ∈ headers := by
  have hp := convert_roundtrip_perm_dedup it headers
  refine ⟨hp, hp.nodup_iff.2 (List.nodup_dedup headers), fun h => ?_⟩
  rw [hp.mem_iff, List.mem_dedup]

/-- C3: for every list of pairwise distinct header strings (of any length, the
empty list included) and every order in which the map is ranged over,
`convertMapToSlice (convertSliceToMap headers)` is a rearrangement of
`headers`: it has as many elements and holds every entry of `headers`. -/
theorem C3_roundtrip_of_distinct (it : MapIter) (headers : List GoString)
    (hdistinct : headers.Nodup) :
    (convertMapToSlice it (convertSliceToMap headers)).Perm headers ∧
    (convertMapToSlice it (convertSliceToMap headers)).length = headers.length ∧
    ∀ h ∈ headers, h ∈ convertMapToSlice it (convertSliceToMap headers) := by
  have hp : (convertMapToSlice it (convertSliceToMap headers)).Perm headers := by
    have := convert_roundtrip_perm_dedup it headers
    rwa [List.Nodup.dedup hdistinct] at this
  exact ⟨hp, hp.length_eq, fun h hh => hp.mem_iff.2 hh⟩

theorem C3_roundtrip_of_distinct_witness :
    [ascii "Accept: a", ascii "Host: h"].Nodup ∧
    ((convertMapToSlice MapIter.reversed
        (convertSliceToMap [ascii "Accept: a", ascii "Host: h"])).Perm
        [ascii "Accept: a", ascii "Host: h"] ∧
     (convertMapToSlice MapIter.reversed
        (convertSliceToMap [ascii "Accept: a", ascii "Host: h"])).length =
        [ascii "Accept: a", ascii "Host: h"].length ∧
     ∀ h ∈ [ascii "Accept: a", ascii "Host: h"],
        h ∈ convertMapToSlice MapIter.reversed
          (convertSliceToMap [ascii "Accept: a", ascii "Host: h"])) :=
  ⟨by decide, C3_roundtrip_of_distinct MapIter.reversed _ (by decide)⟩

/-- C4: when the input decodes as a response envelope whose flag
`isBase64Encoded` is true, `DecodeResponse` returns a nil error and a body that
is the base64 decoding of the envelope's body `B`: the bytes `D` that
`StdEncoding` reads from `B`, and so, when `B` is the standard encoding
(RFC 4648, padded) of a byte sequence `D`, the bytes `D`.  Status code and
headers are those of the envelope. -/
theorem C4_base64_body_decoded (it : MapIter) (input : GoString) (o : DecodeOptions)
    (e : apiGatewayProxyResponse) (hjson : jsonDecode input = .ok e)
    (hflag : e.IsBase64Encoded = true) :
    (∀ D, base64DecodeString e.Body = .ok D →
      DecodeResponse it input o =
        .returns { StatusCode := e.StatusCode, Body := D,
                   Headers := convertMapToSlice it e.Headers } none) ∧
    (∀ D, (∀ b ∈ D, b < 256) → e.Body = rfc4648Encode D →
      DecodeResponse it input o =
        .returns { StatusCode := e.StatusCode, Body := D,
                   Headers := convertMapToSlice it e.Headers } none) := by
  have key : ∀ D, base64DecodeString e.Body = .ok D →
      DecodeResponse it input o =
        .returns { StatusCode := e.StatusCode, Body := D,
                   Headers := convertMapToSlice it e.Headers } none := by
    intro D hD
    simp only [DecodeResponse, hjson, hflag, if_true, hD]
  refine ⟨key, fun D hbytes hB => key D ?_⟩
  rw [hB]
  exact base64DecodeString_rfc4648Encode D hbytes

theorem C4_base64_body_decoded_witness :
    jsonDecode (ascii "\x7b\"statusCode\":200,\"body\":\"aGk=\",\"isBase64Encoded\":true\x7d") =
      .ok { StatusCode := 200, Headers := none, Body := ascii "aGk=", IsBase64Encoded := true } ∧
    ascii "aGk=" = rfc4648Encode (ascii "hi") ∧
    DecodeResponse MapIter.stored
      (ascii "\x7b\"statusCode\":200,\"body\":\"aGk=\",\"isBase64Encoded\":true\x7d") {} =
      .returns { StatusCode := 200, Body := ascii "hi", Headers := [] } none :=
  ⟨by decide, by decide,
   (C4_base64_body_decoded MapIter.stored
      (ascii "\x7b\"statusCode\":200,\"body\":\"aGk=\",\"isBase64Encoded\":true\x7d") {}
      { StatusCode := 200, Headers := none, Body := ascii "aGk=", IsBase64Encoded := true }
      (by decide) rfl).2 (ascii "hi") (by decide) (by decide)⟩

/-- C5: when the input decodes as a response envelope whose flag
`isBase64Encoded` is false (the key absent included), `DecodeResponse` returns
a nil error and the envelope's body as it is; the body is not looked at as
base64, so a body that is no base64 comes back too.  On the wire: the text
`{"body":B}`, for every string `B` of valid UTF-8 written as a JSON string,
decodes to the body `B`, byte for byte. -/
theorem C5_plain_body_unchanged (it : MapIter) (input : GoString) (o : DecodeOptions)
    (e : apiGatewayProxyResponse) (hjson : jsonDecode input = .ok e)
    (hflag : e.IsBase64Encoded = false) :
    DecodeResponse it input o =
      .returns { StatusCode := e.StatusCode, Body := e.Body,
                 Headers := convertMapToSlice it e.Headers } none ∧
    ∀ B, utf8Valid B = true →
      DecodeResponse it (bodyEnvelope B) o =
        .returns { StatusCode := 0, Body := B, Headers := [] } none := by
  constructor
  · simp only [DecodeResponse, hjson, hflag]
    rfl
  · intro B hB
    have hj := jsonDecode_bodyEnvelope B
    rw [coerceUTF8_of_valid B hB] at hj
    simp only [DecodeResponse, hj, convertMapToSlice_nil]
    rfl

theorem C5_plain_body_unchanged_witness :
    jsonDecode (ascii "\x7b\"statusCode\":404,\"body\":\"!!\"\x7d") =
      .ok { StatusCode := 404, Headers := none, Body := ascii "!!", IsBase64Encoded := false } ∧
    base64DecodeString (ascii "!!") = .error .corruptInput ∧
    DecodeResponse MapIter.stored (ascii "\x7b\"statusCode\":404,\"body\":\"!!\"\x7d") {} =
      .returns { StatusCode := 404, Body := ascii "!!", Headers := [] } none :=
  ⟨by decide, by decide,
   (C5_plain_body_unchanged MapIter.stored (ascii "\x7b\"statusCode\":404,\"body\":\"!!\"\x7d") {}
      { StatusCode := 404, Headers := none, Body := ascii "!!", IsBase64Encoded := false }
      (by decide) rfl).1⟩

/-- C6, the claim refuted: the input `{"statusCode":200}` followed by the
bytes ` trailing` is not valid JSON as a whole, and the input `{"foo":1}` has
none of the keys of the envelope, yet `DecodeResponse` returns a response and a
nil error for both. -/
theorem C6_trailing_bytes_accepted :
    DecodeResponse MapIter.stored (ascii "\x7b\"statusCode\":200\x7d trailing") {} =
      .returns { StatusCode := 200, Body := [], Headers := [] } none ∧
    DecodeResponse MapIter.stored (ascii "\x7b\"foo\":1\x7d") {} =
      .returns { StatusCode := 0, Body := [], Headers := [] } none := by
  constructor <;> decide

/-- C6, amended: `DecodeResponse` returns a non-nil error, with the zero
`HTTPResponse`, exactly when no complete JSON value can be read from the start
of the input (white space skipped), or the first value read has not the shape
of the envelope: it is neither an object nor `null`, or a key that names a
field holds a value that is not `null` and not of the type of the field (an
integer in the range of 64 bits for `statusCode`, an object whose values are
strings or `null` for `headers`, a string for `body`, a boolean for
`isBase64Encoded`).  The bytes after the first value are not looked at: once
the value has ended (bytes follow it, or it is no number, which more digits
would continue), any bytes may be added to the input and the result is the
same; so it is for every input that is not answered with an error. -/
theorem C6_error_iff_first_value_rejected (it : MapIter) (input : GoString)
    (o : DecodeOptions) :
    ((∃ err, DecodeResponse it input o = .returns HTTPResponse.zero (some err)) ↔
      ∀ v rest, readValue input = .ok (v, rest) → envelopeShape v = false) ∧
    (∀ v rest extra, readValue input = .ok (v, rest) → (rest ≠ [] ∨ ∀ lit, v ≠ .number lit) →
      DecodeResponse it (input ++ extra) o = DecodeResponse it input o) ∧
    ∀ extra, (∀ err, DecodeResponse it input o ≠ .returns HTTPResponse.zero (some err)) →
      DecodeResponse it (input ++ extra) o = DecodeResponse it input o := by
  have happ : ∀ v rest extra, readValue input = .ok (v, rest) →
      (rest ≠ [] ∨ ∀ lit, v ≠ .number lit) →
      DecodeResponse it (input ++ extra) o = DecodeResponse it input o := by
    intro v rest extra hv hrest
    have hv2 := readValue_append_ended input extra v rest hv hrest
    simp only [DecodeResponse, jsonDecode, hv, hv2]
  refine ⟨⟨?_, ?_⟩, happ, ?_⟩
  · rintro ⟨err, herr⟩ v rest hv
    cases hs : envelopeShape v with
    | false => rfl
    | true =>
      obtain ⟨r, hr⟩ := unmarshal_of_shape v hs
      have hj : jsonDecode input = .ok r := by simp only [jsonDecode, hv, hr]
      rcases DecodeResponse_of_decoded it input o r hj with h | ⟨b, h⟩
      · rw [h] at herr
        exact absurd herr (by simp)
      · rw [h] at herr
        exact absurd herr (by simp)
  · intro h
    cases hv : readValue input with
    | error e => exact ⟨e, by simp only [DecodeResponse, jsonDecode, hv]⟩
    | ok r =>
      obtain ⟨v, rest⟩ := r
      refine ⟨.unmarshalTypeError, ?_⟩
      simp only [DecodeResponse, jsonDecode, hv, unmarshal_of_not_shape v (h v rest hv)]
  · intro extra hne
    cases hv : readValue input with
    | error e => exact absurd (by simp only [DecodeResponse, jsonDecode, hv]) (hne e)
    | ok r =>
      obtain ⟨v, rest⟩ := r
      refine happ v rest extra hv (Or.inr ?_)
      intro lit hlit
      subst hlit
      exact hne .unmarshalTypeError (by simp only [DecodeResponse, jsonDecode, hv, unmarshal])

/-- C8: for every request, `EncodeRequest` returns bytes in which the JSON
string literal of `Resource`, of `Body` and of every header stands, and in
such a literal HTML is not escaped: it holds as many ampersands, less-than
signs and greater-than signs as the string does, each of them is written as
that one byte at its place between the encodings of what precedes and what
follows it, and no step of the encoder writes one of the escape sequences
`\u0026`, `\u003c` and `\u003e`. -/
theorem C8_no_html_escaping (r : HTTPRequest) (o : Option EncodeOptions) :
    ∃ out, EncodeRequest (some r) o = .returns out none ∧
      ∀ s, (s = r.Resource ∨ s = r.Body ∨ s ∈ r.Headers) →
        appendString false s <:+: out ∧
        (∀ c, (c = 38 ∨ c = 60 ∨ c = 62) → (appendString false s).count c = s.count c) ∧
        (∀ pre post c, (c = 38 ∨ c = 60 ∨ c = 62) → s = pre ++ c :: post →
          appendString false s =
            [34] ++ escapeFrom false pre.length pre
              ++ c :: (escapeFrom false post.length post ++ [34])) ∧
        ∀ unit ∈ escapeUnits false s.length s, unit ∉ htmlEscapes := by
  refine ⟨_, EncodeRequest_eq r o, fun s hs => ⟨?_, ?_, ?_, ?_⟩⟩
  · rcases hs with rfl | rfl | hs
    · exact infix_encodeStruct_resource (requestEnvelope r)
    · exact infix_encodeStruct_body (requestEnvelope r)
    · obtain ⟨kvs, hk, hmem⟩ := header_entry r.Headers s hs
      exact infix_encodeStruct_header (requestEnvelope r) kvs hk (s, s) hmem
  · intro c hc
    have h34 : c ≠ 34 := by omega
    simp only [appendString, List.count_append, List.count_cons, List.count_nil, beq_iff_eq,
      count_escapeFrom c hc s s.length (le_refl _)]
    simp [h34.symm]
  · intro pre post c hc hsplit
    rw [hsplit]
    simp only [appendString, escapeFrom_append_html c hc pre post]
    simp
  · exact escapeUnits_not_html s s.length

/-- C9, the claim refuted: the envelopes `{"headers":{"a":"x"}}` and
`{"headers":{"b":"x"}}` hold different header mappings and decode to the same
header list: the name of the header is not in the result. -/
theorem C9_header_names_dropped :
    jsonDecode (ascii "\x7b\"headers\":\x7b\"a\":\"x\"\x7d\x7d") =
      .ok { StatusCode := 0, Headers := some [(ascii "a", ascii "x")], Body := [],
            IsBase64Encoded := false } ∧
    jsonDecode (ascii "\x7b\"headers\":\x7b\"b\":\"x\"\x7d\x7d") =
      .ok { StatusCode := 0, Headers := some [(ascii "b", ascii "x")], Body := [],
            IsBase64Encoded := false } ∧
    DecodeResponse MapIter.stored (ascii "\x7b\"headers\":\x7b\"a\":\"x\"\x7d\x7d") {} =
      .returns { StatusCode := 0, Body := [], Headers := [ascii "x"] } none ∧
    DecodeResponse MapIter.stored (ascii "\x7b\"headers\":\x7b\"b\":\"x\"\x7d\x7d") {} =
      .returns { StatusCode := 0, Body := [], Headers := [ascii "x"] } none := by
  refine ⟨?_, ?_, ?_, ?_⟩ <;> decide

/-- C9, amended: when the input decodes as an envelope whose body is returned
(the flag is false, or the body is base64), the header list that
`DecodeResponse` returns is a rearrangement of the values of the envelope's
header mapping: every value is in it once for each entry that holds it, and
there are as many elements as entries.  The names of the headers are not
returned. -/
theorem C9_headers_are_the_values (it : MapIter) (input : GoString) (o : DecodeOptions)
    (e : apiGatewayProxyResponse) (hjson : jsonDecode input = .ok e)
    (hbody : e.IsBase64Encoded = false ∨ ∃ D, base64DecodeString e.Body = .ok D) :
    ∃ r, DecodeResponse it input o = .returns r none ∧
      r.Headers.Perm ((e.Headers.getD []).map Prod.snd) ∧
      r.Headers.length = (e.Headers.getD []).length := by
  have hp : (convertMapToSlice it e.Headers).Perm ((e.Headers.getD []).map Prod.snd) := by
    rw [convertMapToSlice_eq_map]
    exact (it.perm _).map Prod.snd
  have hl : (convertMapToSlice it e.Headers).length = (e.Headers.getD []).length := by
    rw [hp.length_eq, List.length_map]
  have hplain : e.IsBase64Encoded = false →
      ∃ r, DecodeResponse it input o = .returns r none ∧
        r.Headers.Perm ((e.Headers.getD []).map Prod.snd) ∧
        r.Headers.length = (e.Headers.getD []).length := fun hflag =>
    ⟨{ StatusCode := e.StatusCode, Body := e.Body, Headers := convertMapToSlice it e.Headers },
      by simp [DecodeResponse, hjson, hflag], hp, hl⟩
  rcases hbody with hflag | ⟨D, hD⟩
  · exact hplain hflag
  · cases hflag : e.IsBase64Encoded with
    | false => exact hplain hflag
    | true =>
      exact ⟨{ StatusCode := e.StatusCode, Body := D,
               Headers := convertMapToSlice it e.Headers },
        by simp only [DecodeResponse, hjson, hflag, if_true, hD], hp, hl⟩

theorem C9_headers_are_the_values_witness :
    jsonDecode (ascii "\x7b\"headers\":\x7b\"a\":\"x\",\"b\":\"y\"\x7d\x7d") =
      .ok { StatusCode := 0, Headers := some [(ascii "a", ascii "x"), (ascii "b", ascii "y")],
            Body := [], IsBase64Encoded := false } ∧
    ∃ r, DecodeResponse MapIter.reversed
        (ascii "\x7b\"headers\":\x7b\"a\":\"x\",\"b\":\"y\"\x7d\x7d") {} = .returns r none ∧
      r.Headers.Perm [ascii "x", ascii "y"] ∧ r.Headers.length = 2 :=
  ⟨by decide,
   C9_headers_are_the_values MapIter.reversed
      (ascii "\x7b\"headers\":\x7b\"a\":\"x\",\"b\":\"y\"\x7d\x7d") {}
      { StatusCode := 0, Headers := some [(ascii "a", ascii "x"), (ascii "b", ascii "y")],
        Body := [], IsBase64Encoded := false }
      (by decide) (Or.inl rfl)⟩

/-- C7, the claim refuted: a request whose body is the single byte 0xFF, which
is not valid UTF-8, is encoded with the body written `\ufffd`; parsing the
output gives a body of the three bytes of U+FFFD, not the body of the
request. -/
theorem C7_invalid_utf8_body_replaced :
    EncodeRequest
        (some { Method := ascii "POST", Resource := ascii "/books", Headers := [], Body := [255],
                Username := [], Password := [] }) none =
      .returns (ascii ("\x7b\"resource\":\"/books\",\"path\":\"\",\"httpMethod\":\"\"," ++
        "\"headers\":\x7b\x7d,\"queryStringParameters\":null,\"body\":\"\\ufffd\"\x7d\n")) none ∧
    (∃ v rest,
      readValue (ascii ("\x7b\"resource\":\"/books\",\"path\":\"\",\"httpMethod\":\"\"," ++
        "\"headers\":\x7b\x7d,\"queryStringParameters\":null,\"body\":\"\\ufffd\"\x7d\n")) =
        .ok (v, rest) ∧
      v.member (ascii "body") = some (.string [239, 191, 189]) ∧
      v.member (ascii "body") ≠ some (.string [255])) := by
  have hout : EncodeRequest
        (some { Method := ascii "POST", Resource := ascii "/books", Headers := [], Body := [255],
                Username := [], Password := [] }) none =
      .returns (ascii ("\x7b\"resource\":\"/books\",\"path\":\"\",\"httpMethod\":\"\"," ++
        "\"headers\":\x7b\x7d,\"queryStringParameters\":null,\"body\":\"\\ufffd\"\x7d\n")) none := by
    decide
  refine ⟨hout, ?_⟩
  have hread := readValue_encodeStruct
    (requestEnvelope { Method := ascii "POST", Resource := ascii "/books", Headers := [],
                       Body := [255], Username := [], Password := [] }) rfl
  have hbytes : encodeStruct false
      (requestEnvelope { Method := ascii "POST", Resource := ascii "/books", Headers := [],
                         Body := [255], Username := [], Password := [] }) ++ [10] =
      ascii ("\x7b\"resource\":\"/books\",\"path\":\"\",\"httpMethod\":\"\"," ++
        "\"headers\":\x7b\x7d,\"queryStringParameters\":null,\"body\":\"\\ufffd\"\x7d\n") := by
    decide
  rw [hbytes] at hread
  refine ⟨_, _, hread, ?_, ?_⟩
  · rw [member_body]
    have : coerceUTF8 [255] = [239, 191, 189] := by decide
    simp only [requestEnvelope, this]
  · rw [member_body]
    have : coerceUTF8 [255] = [239, 191, 189] := by decide
    simp only [requestEnvelope, this]
    intro h
    simp at h

/-- C7, amended: for every request whose `Resource` and `Body` are valid
UTF-8 (the request of the spec, resource `/books/0-123456789` and body
`{"title":"x"}`, is one), `EncodeRequest` returns bytes and a nil error, and
parsing the bytes as JSON yields an object whose `resource` is the `Resource`
of the request and whose `body` is its `Body`, byte for byte. -/
theorem C7_resource_and_body_roundtrip (r : HTTPRequest) (o : Option EncodeOptions)
    (hresource : utf8Valid r.Resource = true) (hbody : utf8Valid r.Body = true) :
    ∃ out v rest, EncodeRequest (some r) o = .returns out none ∧
      readValue out = .ok (v, rest) ∧
      v.member (ascii "resource") = some (.string r.Resource) ∧
      v.member (ascii "body") = some (.string r.Body) := by
  refine ⟨_, _, _, EncodeRequest_eq r o, readValue_encodeStruct (requestEnvelope r) rfl, ?_, ?_⟩
  · rw [member_resource]
    simp only [requestEnvelope, coerceUTF8_of_valid _ hresource]
  · rw [member_body]
    simp only [requestEnvelope, coerceUTF8_of_valid _ hbody]

theorem C7_resource_and_body_roundtrip_witness :
    utf8Valid (ascii "/books/0-123456789") = true ∧
    utf8Valid (ascii "\x7b\"title\":\"x\"\x7d") = true ∧
    ∃ out v rest,
      EncodeRequest
        (some { Method := ascii "POST", Resource := ascii "/books/0-123456789",
                Headers := [ascii "Accept: a"], Body := ascii "\x7b\"title\":\"x\"\x7d",
                Username := [], Password := [] }) none = .returns out none ∧
      readValue out = .ok (v, rest) ∧
      v.member (ascii "resource") = some (.string (ascii "/books/0-123456789")) ∧
      v.member (ascii "body") = some (.string (ascii "\x7b\"title\":\"x\"\x7d")) :=
  ⟨by decide, by decide,
   C7_resource_and_body_roundtrip
     { Method := ascii "POST", Resource := ascii "/books/0-123456789",
       Headers := [ascii "Accept: a"], Body := ascii "\x7b\"title\":\"x\"\x7d",
       Username := [], Password := [] } none (by decide) (by decide)⟩

/-- C10, at the failing input: a request with method `GET` is encoded with
`"httpMethod":""`; `EncodeRequest` does not copy `Method` into the envelope, and
parsing the output gives the empty string for `httpMethod`.  For every request
the output parses with `httpMethod` the empty string. -/
theorem C10_method_not_encoded :
    EncodeRequest
        (some { Method := ascii "GET", Resource := ascii "/books", Headers := [], Body := [],
                Username := [], Password := [] }) none =
      .returns (ascii ("\x7b\"resource\":\"/books\",\"path\":\"\",\"httpMethod\":\"\"," ++
        "\"headers\":\x7b\x7d,\"queryStringParameters\":null,\"body\":\"\"\x7d\n")) none ∧
    (∃ v rest,
      readValue (ascii ("\x7b\"resource\":\"/books\",\"path\":\"\",\"httpMethod\":\"\"," ++
        "\"headers\":\x7b\x7d,\"queryStringParameters\":null,\"body\":\"\"\x7d\n")) =
        .ok (v, rest) ∧
      v.member (ascii "httpMethod") = some (.string []) ∧
      v.member (ascii "httpMethod") ≠ some (.string (ascii "GET"))) ∧
    ∀ (r : HTTPRequest) (o : Option EncodeOptions), ∃ out v rest,
      EncodeRequest (some r) o = .returns out none ∧ readValue out = .ok (v, rest) ∧
      v.member (ascii "httpMethod") = some (.string []) := by
  have hempty : coerceUTF8 [] = [] := by decide
  have hout : EncodeRequest
        (some { Method := ascii "GET", Resource := ascii "/books", Headers := [], Body := [],
                Username := [], Password := [] }) none =
      .returns (ascii ("\x7b\"resource\":\"/books\",\"path\":\"\",\"httpMethod\":\"\"," ++
        "\"headers\":\x7b\x7d,\"queryStringParameters\":null,\"body\":\"\"\x7d\n")) none := by
    decide
  refine ⟨hout, ?_, ?_⟩
  · have hread := readValue_encodeStruct
      (requestEnvelope { Method := ascii "GET", Resource := ascii "/books", Headers := [],
                         Body := [], Username := [], Password := [] }) rfl
    have hbytes : encodeStruct false
        (requestEnvelope { Method := ascii "GET", Resource := ascii "/books", Headers := [],
                           Body := [], Username := [], Password := [] }) ++ [10] =
        ascii ("\x7b\"resource\":\"/books\",\"path\":\"\",\"httpMethod\":\"\"," ++
          "\"headers\":\x7b\x7d,\"queryStringParameters\":null,\"body\":\"\"\x7d\n") := by
      decide
    rw [hbytes] at hread
    refine ⟨_, _, hread, ?_, ?_⟩
    · rw [member_httpMethod]
      simp only [requestEnvelope, hempty]
    · rw [member_httpMethod]
      simp only [requestEnvelope, hempty]
      intro h
      simp [ascii] at h
  · intro r o
    refine ⟨_, _, _, EncodeRequest_eq r o, readValue_encodeStruct (requestEnvelope r) rfl, ?_⟩
    rw [member_httpMethod]
    simp only [requestEnvelope, hempty]

/-- C11, the claim refuted: 499 is an integer, and a status of the class 4xx,
that has no reason phrase; `clientError 499` returns it with an empty body. -/
theorem C11_unnamed_status_empty_body :
    clientError 499 =
      .returns { StatusCode := 499, Headers := none, Body := [], IsBase64Encoded := false }
        none := by
  decide

/-- C11, amended: for every integer `status`, `clientError status` returns a
nil error and a response whose `StatusCode` is `status` and whose `Body` is
`http.StatusText status`: the reason phrase when `status` is one of the status
codes that net/http names, `Not Found` for 404 and `Bad Request` for 400 among
them, and the empty string for every other integer. -/
theorem C11_clientError_status_and_text (status : Int) :
    (∃ text, clientError status =
        .returns { StatusCode := status, Headers := none, Body := text,
                   IsBase64Encoded := false } none ∧
      (status ∈ statusText.map Prod.fst → (status, text) ∈ statusText ∧ text ≠ []) ∧
      (status ∉ statusText.map Prod.fst → text = [])) ∧
    clientError 404 =
      .returns { StatusCode := 404, Headers := none, Body := ascii "Not Found",
                 IsBase64Encoded := false } none ∧
    clientError 400 =
      .returns { StatusCode := 400, Headers := none, Body := ascii "Bad Request",
                 IsBase64Encoded := false } none := by
  refine ⟨⟨StatusText status, rfl, ?_, ?_⟩, by decide, by decide⟩
  · intro hmem
    have hnd : (statusText.map Prod.fst).Nodup := by decide
    have hne : ∀ e ∈ statusText, e.2 ≠ [] := by decide
    obtain ⟨e, he, hfst⟩ := List.mem_map.1 hmem
    have hlook : statusText.lookup status = some e.2 :=
      lookup_of_mem statusText status e.2 hnd (by rw [← hfst]; exact he)
    have htext : StatusText status = e.2 := by simp only [StatusText, hlook]
    rw [htext]
    refine ⟨?_, hne e he⟩
    rw [← hfst]
    exact he
  · intro hmem
    simp only [StatusText, lookup_of_not_mem statusText status hmem]

/-- C12: for every error value, whatever the text that its method `Error`
returns, `serverError` returns a nil error and the response of status 500 and
body `Internal Server Error`, and the text of the error is added to the log.
An error value is an error that has a text to log, as the sentence of the
specification has it (the error text appears on the diagnostic stream); the
response is the same for every one of them. -/
theorem C12_serverError_fixed_response (log : List GoString) (err : ErrorValue)
    (text : GoString) (h : err.Error = some text) :
    serverError log err =
      (log ++ [text],
       .returns { StatusCode := 500, Headers := none, Body := ascii "Internal Server Error",
                  IsBase64Encoded := false } none) := by
  have hbody : StatusText StatusInternalServerError = ascii "Internal Server Error" := by decide
  cases err with
  | nil => simp [ErrorValue.Error] at h
  | faulty => simp [ErrorValue.Error] at h
  | error t =>
    simp only [ErrorValue.Error, Option.some.injEq] at h
    subst h
    simp only [serverError, hbody]
    rfl

theorem C12_serverError_fixed_response_witness :
    ErrorValue.Error (.error (ascii "sql: no rows in result set")) =
      some (ascii "sql: no rows in result set") ∧
    serverError [ascii "earlier"] (.error (ascii "sql: no rows in result set")) =
      ([ascii "earlier", ascii "sql: no rows in result set"],
       .returns { StatusCode := 500, Headers := none, Body := ascii "Internal Server Error",
                  IsBase64Encoded := false } none) :=
  ⟨rfl, C12_serverError_fixed_response [ascii "earlier"]
    (.error (ascii "sql: no rows in result set")) (ascii "sql: no rows in result set") rfl⟩

/-- C13, the claim refuted: in the output for a request with method `GET` and
resource `/books` the key `queryStringParameters` holds `null`, which is no
object of strings. -/
theorem C13_queryStringParameters_null :
    EncodeRequest
        (some { Method := ascii "GET", Resource := ascii "/books", Headers := [], Body := [],
                Username := [], Password := [] }) none =
      .returns (ascii ("\x7b\"resource\":\"/books\",\"path\":\"\",\"httpMethod\":\"\"," ++
        "\"headers\":\x7b\x7d,\"queryStringParameters\":null,\"body\":\"\"\x7d\n")) none ∧
    ∃ v rest,
      readValue (ascii ("\x7b\"resource\":\"/books\",\"path\":\"\",\"httpMethod\":\"\"," ++
        "\"headers\":\x7b\x7d,\"queryStringParameters\":null,\"body\":\"\"\x7d\n")) =
        .ok (v, rest) ∧
      v.member (ascii "queryStringParameters") = some .null ∧
      ∀ ms, v.member (ascii "queryStringParameters") ≠ some (.object ms) := by
  have hout : EncodeRequest
        (some { Method := ascii "GET", Resource := ascii "/books", Headers := [], Body := [],
                Username := [], Password := [] }) none =
      .returns (ascii ("\x7b\"resource\":\"/books\",\"path\":\"\",\"httpMethod\":\"\"," ++
        "\"headers\":\x7b\x7d,\"queryStringParameters\":null,\"body\":\"\"\x7d\n")) none := by
    decide
  refine ⟨hout, ?_⟩
  have hread := readValue_encodeStruct
    (requestEnvelope { Method := ascii "GET", Resource := ascii "/books", Headers := [],
                       Body := [], Username := [], Password := [] }) rfl
  have hbytes : encodeStruct false
      (requestEnvelope { Method := ascii "GET", Resource := ascii "/books", Headers := [],
                         Body := [], Username := [], Password := [] }) ++ [10] =
      ascii ("\x7b\"resource\":\"/books\",\"path\":\"\",\"httpMethod\":\"\"," ++
        "\"headers\":\x7b\x7d,\"queryStringParameters\":null,\"body\":\"\"\x7d\n") := by
    decide
  rw [hbytes] at hread
  refine ⟨_, _, hread, ?_, ?_⟩
  · rw [member_queryStringParameters]
    rfl
  · intro ms
    rw [member_queryStringParameters]
    simp [requestEnvelope, jsonOfMap]

/-- C13, amended: for every request, the output of `EncodeRequest` parses as a
JSON object with exactly the keys `resource`, `path`, `httpMethod`, `headers`,
`queryStringParameters` and `body`, in this order and no key `isBase64Encoded`:
`resource`, `path`, `httpMethod` and `body` hold strings, `headers` holds an
object whose values are all strings, and `queryStringParameters` holds
`null`. -/
theorem C13_wire_format (r : HTTPRequest) (o : Option EncodeOptions) :
    ∃ out path method hs rest, EncodeRequest (some r) o = .returns out none ∧
      readValue out = .ok (.object
        [(ascii "resource", .string (coerceUTF8 r.Resource)),
         (ascii "path", .string path),
         (ascii "httpMethod", .string method),
         (ascii "headers", .object hs),
         (ascii "queryStringParameters", .null),
         (ascii "body", .string (coerceUTF8 r.Body))], rest) ∧
      ∀ m ∈ hs, ∃ text, m.2 = .string text := by
  obtain ⟨kvs, hkvs⟩ : ∃ kvs, convertSliceToMap r.Headers = some kvs := ⟨_, rfl⟩
  refine ⟨_, coerceUTF8 [], coerceUTF8 [], jsonMembers (sortByKey kvs), [10],
    EncodeRequest_eq r o, ?_, ?_⟩
  · rw [readValue_encodeStruct (requestEnvelope r) rfl]
    simp only [jsonOfRequest, requestEnvelope, hkvs, jsonOfMap]
  · intro m hm
    simp only [jsonMembers, List.mem_map] at hm
    obtain ⟨e, -, rfl⟩ := hm
    exact ⟨_, rfl⟩

/-- C14, the claim refuted: for the input `{"headers":{"a":"x","b":"y"}}` a run
that ranges over the map in one order returns the headers `x`, `y` and a run
that ranges over it in the other order returns `y`, `x`: two runs on the same
bytes with different results. -/
theorem C14_header_order_differs :
    DecodeResponse MapIter.stored
        (ascii "\x7b\"headers\":\x7b\"a\":\"x\",\"b\":\"y\"\x7d\x7d") {} =
      .returns { StatusCode := 0, Body := [], Headers := [ascii "x", ascii "y"] } none ∧
    DecodeResponse MapIter.reversed
        (ascii "\x7b\"headers\":\x7b\"a\":\"x\",\"b\":\"y\"\x7d\x7d") {} =
      .returns { StatusCode := 0, Body := [], Headers := [ascii "y", ascii "x"] } none ∧
    DecodeResponse MapIter.stored
        (ascii "\x7b\"headers\":\x7b\"a\":\"x\",\"b\":\"y\"\x7d\x7d") {} ≠
      DecodeResponse MapIter.reversed
        (ascii "\x7b\"headers\":\x7b\"a\":\"x\",\"b\":\"y\"\x7d\x7d") {} := by
  refine ⟨?_, ?_, ?_⟩ <;> decide

/-- C14, amended: any two runs of `DecodeResponse` on the same input end the
same way: both end the process, or both return, with the same error, the same
status code, the same body, and header lists that are rearrangements of each
other.  When the header mapping of the envelope has at most one entry the two
results are equal. -/
theorem C14_same_up_to_header_order (it1 it2 : MapIter) (input : GoString)
    (o : DecodeOptions) :
    ((DecodeResponse it1 input o = .exits 1 ∧ DecodeResponse it2 input o = .exits 1) ∨
     ∃ r1 r2 err, DecodeResponse it1 input o = .returns r1 err ∧
       DecodeResponse it2 input o = .returns r2 err ∧
       r1.StatusCode = r2.StatusCode ∧ r1.Body = r2.Body ∧ r1.Headers.Perm r2.Headers) ∧
    ((∀ e, jsonDecode input = .ok e → (e.Headers.getD []).length ≤ 1) →
      DecodeResponse it1 input o = DecodeResponse it2 input o) := by
  have hperm : ∀ m, (convertMapToSlice it1 m).Perm (convertMapToSlice it2 m) := by
    intro m
    rw [convertMapToSlice_eq_map, convertMapToSlice_eq_map]
    exact ((it1.perm _).trans (it2.perm _).symm).map Prod.snd
  constructor
  · cases hj : jsonDecode input with
    | error err =>
      exact Or.inr ⟨HTTPResponse.zero, HTTPResponse.zero, some err,
        by simp only [DecodeResponse, hj], by simp only [DecodeResponse, hj], rfl, rfl,
        List.Perm.refl _⟩
    | ok e =>
      cases hflag : e.IsBase64Encoded with
      | false =>
        exact Or.inr
          ⟨{ StatusCode := e.StatusCode, Body := e.Body,
             Headers := convertMapToSlice it1 e.Headers },
           { StatusCode := e.StatusCode, Body := e.Body,
             Headers := convertMapToSlice it2 e.Headers }, none,
           by simp [DecodeResponse, hj, hflag], by simp [DecodeResponse, hj, hflag], rfl, rfl,
           hperm _⟩
      | true =>
        cases hb : base64DecodeString e.Body with
        | error err =>
          exact Or.inl ⟨by simp only [DecodeResponse, hj, hflag, if_true, hb],
            by simp only [DecodeResponse, hj, hflag, if_true, hb]⟩
        | ok D =>
          exact Or.inr
            ⟨{ StatusCode := e.StatusCode, Body := D,
               Headers := convertMapToSlice it1 e.Headers },
             { StatusCode := e.StatusCode, Body := D,
               Headers := convertMapToSlice it2 e.Headers }, none,
             by simp only [DecodeResponse, hj, hflag, if_true, hb],
             by simp only [DecodeResponse, hj, hflag, if_true, hb], rfl, rfl, hperm _⟩
  · intro hshort
    cases hj : jsonDecode input with
    | error err => simp only [DecodeResponse, hj]
    | ok e =>
      have hlen := hshort e hj
      have hord : ∀ it : MapIter, it.order (e.Headers.getD []) = e.Headers.getD [] := by
        intro it
        have hp := it.perm (e.Headers.getD [])
        rcases hl : e.Headers.getD [] with _ | ⟨x, _ | ⟨y, l⟩⟩
        · rw [hl] at hp; exact List.Perm.eq_nil hp
        · rw [hl] at hp; exact List.perm_singleton.1 hp
        · rw [hl] at hlen; simp at hlen
      have heq : convertMapToSlice it1 e.Headers = convertMapToSlice it2 e.Headers := by
        rw [convertMapToSlice_eq_map, convertMapToSlice_eq_map, hord it1, hord it2]
      simp only [DecodeResponse, hj, heq]

/-- C16: for every request that is not nil and every options value,
`EncodeRequest` returns a nil error and bytes that are not empty (they end in
the line feed of `Encoder.Encode`), and never an error.  The encoder can fail:
it refuses a value of a kind it has no encoding for, wherever the value
stands, as the struct with a channel and the envelope with a function among
its headers show.  Run on a pointer to an `apiGatewayProxyRequest` it does not
fail, whatever the fields hold and whether HTML is escaped or not: the fields
are strings, a boolean and maps of strings. -/
theorem C16_encode_never_fails (r : HTTPRequest) (o : Option EncodeOptions) :
    (∃ out, EncodeRequest (some r) o = .returns out none ∧ out ≠ [] ∧ out.getLast? = some 10) ∧
    (∀ out err, EncodeRequest (some r) o ≠ .returns out (some err)) ∧
    (∀ (escapeHTML : Bool) (v : apiGatewayProxyRequest),
      ∃ b, reflectValue escapeHTML (.pointer (reflectEnvelope v)) = .ok b ∧
        encoderEncode escapeHTML v = .ok (b ++ [10])) ∧
    reflectValue false
        (.pointer (.struct [({ name := ascii "done", omitEmpty := false }, .chan)])) =
      .error .unsupportedTypeError ∧
    reflectValue false
        (.pointer (.struct
          [({ name := ascii "resource", omitEmpty := false }, .string (ascii "/books")),
           ({ name := ascii "headers", omitEmpty := false },
            .map [(ascii "a", .string (ascii "x")), (ascii "b", .func)]),
           ({ name := ascii "body", omitEmpty := false }, .string [])])) =
      .error .unsupportedTypeError := by
  refine ⟨⟨_, EncodeRequest_eq r o, by simp, by simp⟩, ?_, ?_, by decide, by decide⟩
  · intro out err h
    rw [EncodeRequest_eq] at h
    simp at h
  · intro escapeHTML v
    have h := encoderEncode_eq escapeHTML v
    simp only [encoderEncode, bufferWrite, List.nil_append] at h ⊢
    cases hv : reflectValue escapeHTML (.pointer (reflectEnvelope v)) with
    | error e =>
      rw [hv] at h
      exact absurd h (by simp)
    | ok b => exact ⟨b, rfl, rfl⟩

/-- C17: two requests that agree on `Resource`, `Body` and `Headers` are
encoded to the same bytes, whatever their `Username` and `Password` and
whatever the two options values: the output does not depend on the
credentials. -/
theorem C17_credentials_not_encoded (r1 r2 : HTTPRequest) (o1 o2 : Option EncodeOptions)
    (hresource : r1.Resource = r2.Resource) (hbody : r1.Body = r2.Body)
    (hheaders : r1.Headers = r2.Headers) :
    EncodeRequest (some r1) o1 = EncodeRequest (some r2) o2 :=
  EncodeRequest_congr r1 r2 o1 o2 hresource hbody (by rw [hheaders])

theorem C17_credentials_not_encoded_witness :
    EncodeRequest
        (some { Method := ascii "GET", Resource := ascii "/books", Headers := [ascii "Accept: a"],
                Body := ascii "b", Username := ascii "alice", Password := ascii "secret" })
        none =
      EncodeRequest
        (some { Method := ascii "GET", Resource := ascii "/books", Headers := [ascii "Accept: a"],
                Body := ascii "b", Username := ascii "bob", Password := ascii "hunter2" })
        (some {}) :=
  C17_credentials_not_encoded _ _ none (some {}) rfl rfl rfl

/-- C18: for every list of header strings `convertSliceToMap` returns a map
that is not nil, whose keys are pairwise distinct and are exactly the strings
of the list, and in which every key holds itself as its value; for the empty
list the map is empty. -/
theorem C18_convertSliceToMap_keys (headers : List GoString) :
    (∃ kvs, convertSliceToMap headers = some kvs ∧
      (kvs.map Prod.fst).Nodup ∧
      (∀ k, k ∈ kvs.map Prod.fst ↔ k ∈ headers) ∧
      (∀ e ∈ kvs, e.2 = e.1) ∧
      kvs.length = headers.dedup.length) ∧
    convertSliceToMap [] = some [] := by
  obtain ⟨h1, h2, h3⟩ := foldl_mapAssign_spec headers [] (by simp) (by simp)
  refine ⟨⟨_, rfl, h2, ?_, fun e he => (h1 e he).symm, ?_⟩, rfl⟩
  · intro k
    rw [h3 k]
    simp
  · have hp : (List.map Prod.fst
        (headers.foldl (fun output v => mapAssign output v v) [])).Perm headers.dedup := by
      refine (List.perm_ext_iff_of_nodup h2 (List.nodup_dedup headers)).2 (fun x => ?_)
      rw [h3 x]
      simp
    rw [← hp.length_eq, List.length_map]

/-- C15: whenever `DecodeResponse` returns a nil error, the input has decoded
as an envelope and the returned `StatusCode` is the status code of that
envelope: for an input whose first value is an object, the integer that the
object states under `statusCode`, and 0 when no key of the object names
`statusCode`; for the value `null`, 0. -/
theorem C15_status_code_unchanged (it : MapIter) (input : GoString) (o : DecodeOptions)
    (r : HTTPResponse) (hok : DecodeResponse it input o = .returns r none) :
    ∃ e, jsonDecode input = .ok e ∧ r.StatusCode = e.StatusCode ∧
      (∀ ms rest, readValue input = .ok (.object ms, rest) →
        r.StatusCode = statusCodeOf ms ∧
        ((∀ m ∈ ms, findField m.1 ≠ some .statusCode) → r.StatusCode = 0)) ∧
      (∀ rest, readValue input = .ok (.null, rest) → r.StatusCode = 0) := by
  obtain ⟨e, hj, hstatus, -⟩ := DecodeResponse_returns it input o r hok
  refine ⟨e, hj, hstatus, ?_, ?_⟩
  · intro ms rest hread
    have hdec : decodeMembers apiGatewayProxyResponse.zero ms = .ok e := by
      simpa only [jsonDecode, hread, unmarshal] using hj
    have hcode : e.StatusCode = statusCodeOf ms :=
      decodeMembers_statusCode ms _ e hdec
    refine ⟨by rw [hstatus, hcode], fun habsent => ?_⟩
    rw [hstatus, hcode]
    exact foldl_statusCode_absent ms habsent 0
  · intro rest hread
    have hzero : apiGatewayProxyResponse.zero = e := by
      simpa only [jsonDecode, hread, unmarshal, Except.ok.injEq] using hj
    rw [hstatus, ← hzero]
    rfl

theorem C15_status_code_unchanged_witness :
    DecodeResponse MapIter.stored (ascii "\x7b\"statusCode\":404,\"body\":\"!!\"\x7d") {} =
      .returns { StatusCode := 404, Body := ascii "!!", Headers := [] } none ∧
    ∃ e, jsonDecode (ascii "\x7b\"statusCode\":404,\"body\":\"!!\"\x7d") = .ok e ∧
      (404 : Int) = e.StatusCode ∧
      (∀ ms rest,
        readValue (ascii "\x7b\"statusCode\":404,\"body\":\"!!\"\x7d") = .ok (.object ms, rest) →
        (404 : Int) = statusCodeOf ms ∧
        ((∀ m ∈ ms, findField m.1 ≠ some .statusCode) → (404 : Int) = 0)) ∧
      (∀ rest,
        readValue (ascii "\x7b\"statusCode\":404,\"body\":\"!!\"\x7d") = .ok (.null, rest) →
        (404 : Int) = 0) :=
  ⟨by decide,
   C15_status_code_unchanged MapIter.stored
     (ascii "\x7b\"statusCode\":404,\"body\":\"!!\"\x7d") {}
     { StatusCode := 404, Body := ascii "!!", Headers := [] } (by decide)⟩

/-- C19: two requests with the same `Resource` and `Body` whose `Headers` hold
the same strings, in any order and with any repetitions, are encoded to the
same bytes, whatever else differs: the output depends on the headers through
the set of the header strings only. -/
theorem C19_depends_on_header_set (r1 r2 : HTTPRequest) (o1 o2 : Option EncodeOptions)
    (hresource : r1.Resource = r2.Resource) (hbody : r1.Body = r2.Body)
    (hheaders : ∀ h, h ∈ r1.Headers ↔ h ∈ r2.Headers) :
    EncodeRequest (some r1) o1 = EncodeRequest (some r2) o2 :=
  EncodeRequest_same_header_set r1 r2 o1 o2 hresource hbody hheaders

theorem C19_depends_on_header_set_witness :
    (∀ h, h ∈ [ascii "Host: h", ascii "Accept: a", ascii "Host: h"] ↔
      h ∈ [ascii "Accept: a", ascii "Host: h"]) ∧
    EncodeRequest
        (some { Method := ascii "GET", Resource := ascii "/books",
                Headers := [ascii "Host: h", ascii "Accept: a", ascii "Host: h"],
                Body := ascii "b", Username := [], Password := [] }) none =
      EncodeRequest
        (some { Method := ascii "GET", Resource := ascii "/books",
                Headers := [ascii "Accept: a", ascii "Host: h"],
                Body := ascii "b", Username := [], Password := [] }) none :=
  ⟨fun h => by simp only [List.mem_cons, List.mem_singleton, List.not_mem_nil]; tauto,
   C19_depends_on_header_set _ _ none none rfl rfl
     (fun h => by simp only [List.mem_cons, List.mem_singleton, List.not_mem_nil]; tauto)⟩

/-- C20: whenever `DecodeResponse` returns a nil error, the input has decoded
as an envelope whose header mapping has pairwise distinct keys, and the
returned `Headers` are a rearrangement of the values of that mapping, the
names left out: as many elements as the mapping has keys, and the empty list
when the mapping is nil or empty, as it is when no key of the object names
`headers`. -/
theorem C20_headers_are_the_values (it : MapIter) (input : GoString) (o : DecodeOptions)
    (r : HTTPResponse) (hok : DecodeResponse it input o = .returns r none) :
    ∃ e, jsonDecode input = .ok e ∧
      ((e.Headers.getD []).map Prod.fst).Nodup ∧
      r.Headers.Perm ((e.Headers.getD []).map Prod.snd) ∧
      r.Headers.length = ((e.Headers.getD []).map Prod.fst).length ∧
      (e.Headers.getD [] = [] → r.Headers = []) ∧
      (∀ ms rest, readValue input = .ok (.object ms, rest) →
        (∀ m ∈ ms, findField m.1 ≠ some .headers) → r.Headers = []) := by
  obtain ⟨e, hj, -, hheaders⟩ := DecodeResponse_returns it input o r hok
  have hp : r.Headers.Perm ((e.Headers.getD []).map Prod.snd) := by
    rw [hheaders, convertMapToSlice_eq_map]
    exact (it.perm _).map Prod.snd
  have hempty : e.Headers.getD [] = [] → r.Headers = [] := by
    intro h
    rw [h] at hp
    exact List.Perm.eq_nil hp
  refine ⟨e, hj, jsonDecode_nodup input e hj, hp, ?_, hempty, ?_⟩
  · rw [hp.length_eq, List.length_map, List.length_map]
  · intro ms rest hread habsent
    have hdec : decodeMembers apiGatewayProxyResponse.zero ms = .ok e := by
      simpa only [jsonDecode, hread, unmarshal] using hj
    have hnone : e.Headers = none :=
      decodeMembers_headers_absent ms habsent _ e hdec
    exact hempty (by rw [hnone]; rfl)

theorem C20_headers_are_the_values_witness :
    DecodeResponse MapIter.reversed
        (ascii "\x7b\"headers\":\x7b\"a\":\"x\",\"b\":\"y\"\x7d\x7d") {} =
      .returns { StatusCode := 0, Body := [], Headers := [ascii "y", ascii "x"] } none ∧
    ∃ e, jsonDecode (ascii "\x7b\"headers\":\x7b\"a\":\"x\",\"b\":\"y\"\x7d\x7d") = .ok e ∧
      ((e.Headers.getD []).map Prod.fst).Nodup ∧
      [ascii "y", ascii "x"].Perm ((e.Headers.getD []).map Prod.snd) ∧
      [ascii "y", ascii "x"].length = ((e.Headers.getD []).map Prod.fst).length ∧
      (e.Headers.getD [] = [] → [ascii "y", ascii "x"] = []) ∧
      (∀ ms rest,
        readValue (ascii "\x7b\"headers\":\x7b\"a\":\"x\",\"b\":\"y\"\x7d\x7d") =
          .ok (.object ms, rest) →
        (∀ m ∈ ms, findField m.1 ≠ some .headers) → [ascii "y", ascii "x"] = []) :=
  ⟨by decide,
   C20_headers_are_the_values MapIter.reversed
     (ascii "\x7b\"headers\":\x7b\"a\":\"x\",\"b\":\"y\"\x7d\x7d") {}
     { StatusCode := 0, Body := [], Headers := [ascii "y", ascii "x"] } (by decide)⟩

end Lambdaproxy
